import Mathlib

/-! Extreme copy: block scheduler and work stealing.

A shallow embedding of `XrdCl::XCpSrc` (XrdClXCpSrc.hh / XrdClXCpSrc.cc) and
`XrdCl::XCpCtx` (XrdClXCpCtx.hh / XrdClXCpCtx.cc).

Conventions of the embedding.

* Objects are records; a member function becomes a function that takes the
  record and returns the updated record.  The shared sink is passed explicitly.
* `uint64_t` arithmetic is written with an explicit reduction modulo `2^64`.
* `std::map<uint64_t, uint64_t>` is an association list kept in key order.
* `double` is modelled exactly for the non-negative values the code computes
  (IEEE-754 binary64, round to nearest, ties to even); a conversion of a value
  that does not fit the integer type has no defined result and is `none`.
* Every member function is one atomic step; completions of asynchronous reads
  are separate steps (`ChunkHandler.HandleResponse`).
-/

namespace XrdCl

/-! ## Machine integers -/

/-- Number of values of `uint64_t`. -/
def U64 : Nat := 18446744073709551616

/-- Number of values of `uint32_t`. -/
def U32 : Nat := 4294967296

/-- Number of values of `uint8_t`. -/
def U8 : Nat := 256

/-- Addition of two `uint64_t`. -/
def add64 (a b : Nat) : Nat := (a + b) % U64

/-- Subtraction of two `uint64_t`. -/
def sub64 (a b : Nat) : Nat := (a + (U64 - b % U64)) % U64

/-! ## Doubles

Only non-negative doubles occur in the code (they are sums, quotients and
products of unsigned integers).  A finite value is kept as a fraction
`num / den`; rounding returns the nearest value with a 53 bit significand.
All operands come from 64 bit integers, so every intermediate result lies in
the normal range of binary64 and no exponent clamping is needed. -/

/-- Quotient `n / d` rounded to the nearest integer, ties to the even one. -/
def rneDiv (n d : Nat) : Nat :=
  if 2 * (n % d) < d then n / d
  else if d < 2 * (n % d) then n / d + 1
  else if (n / d) % 2 = 0 then n / d else n / d + 1

/-- Helper of `ilog2`, by repeated halving. -/
def ilog2Aux : Nat → Nat → Nat
  | 0, _ => 0
  | fuel + 1, n => if n < 2 then 0 else ilog2Aux fuel (n / 2) + 1

/-- Position of the leading bit: `2 ^ ilog2 n ≤ n < 2 ^ (ilog2 n + 1)` for `n > 0`. -/
def ilog2 (n : Nat) : Nat := ilog2Aux n n

/-- Binade of the positive fraction `p / q`, as a pair `(hi, lo)` standing for
the exponent `hi - lo`: `2 ^ (hi - lo) ≤ p / q < 2 ^ (hi - lo + 1)`. -/
def binade (p q : Nat) : Nat × Nat :=
  if q * 2 ^ ilog2 p ≤ p * 2 ^ ilog2 q then (ilog2 p, ilog2 q) else (ilog2 p, ilog2 q + 1)

/-- Rounding of the fraction `p / q` to binary64: the significand
`p / q * 2 ^ (52 - e)` is rounded to an integer and scaled back. -/
def roundFrac (p q : Nat) : Nat × Nat :=
  if p = 0 then (0, 1)
  else
    let b := binade p q
    if b.1 ≤ 52 + b.2 then (rneDiv (p * 2 ^ (52 + b.2 - b.1)) q, 2 ^ (52 + b.2 - b.1))
    else (rneDiv p (q * 2 ^ (b.1 - (52 + b.2))) * 2 ^ (b.1 - (52 + b.2)), 1)

/-- A non-negative `double`. -/
inductive Dbl where
  | fin (num den : Nat)
  | inf
  | nan
  deriving DecidableEq, Repr

namespace Dbl

/-- The double nearest to the fraction `p / q`. -/
def round (p q : Nat) : Dbl := fin (roundFrac p q).1 (roundFrac p q).2

/-- Conversion `double( n )` of an unsigned integer. -/
def ofUInt64 (n : Nat) : Dbl := round n 1

/-- The constant `0`. -/
def zero : Dbl := fin 0 1

/-- Sum of two doubles. -/
def add : Dbl → Dbl → Dbl
  | fin p1 q1, fin p2 q2 => round (p1 * q2 + p2 * q1) (q1 * q2)
  | nan, _ => nan
  | _, nan => nan
  | _, _ => inf

/-- Product of two doubles. -/
def mul : Dbl → Dbl → Dbl
  | fin p1 q1, fin p2 q2 => round (p1 * p2) (q1 * q2)
  | nan, _ => nan
  | _, nan => nan
  | inf, fin p _ => if p = 0 then nan else inf
  | fin p _, inf => if p = 0 then nan else inf
  | inf, inf => inf

/-- Quotient of two doubles. -/
def div : Dbl → Dbl → Dbl
  | fin p1 q1, fin p2 q2 =>
    if p2 = 0 then (if p1 = 0 then nan else inf) else round (p1 * q2) (q1 * p2)
  | nan, _ => nan
  | _, nan => nan
  | inf, fin _ _ => inf
  | fin _ _, inf => zero
  | inf, inf => nan

/-- Comparison `a > b`; false as soon as one side is not a number. -/
def gt : Dbl → Dbl → Bool
  | fin p1 q1, fin p2 q2 => decide (p2 * q1 < p1 * q2)
  | inf, fin _ _ => true
  | _, _ => false

/-- Conversion of a double to `uint64_t`: truncation; not defined for a value
outside the range of the type. -/
def toUInt64 : Dbl → Option Nat
  | fin p q => if p / q < U64 then some (p / q) else none
  | _ => none

end Dbl

/-! ## Maps from offset to length (`std::map<uint64_t, uint64_t>`) -/

/-- Entries `(offset, length)` in increasing order of the offset. -/
abbrev OffMap := List (Nat × Nat)

namespace OffMap

/-- Value stored under a key (`std::map::find`). -/
def find : OffMap → Nat → Option Nat
  | [], _ => none
  | (k', v) :: t, k => if k' = k then some v else find t k

/-- Placement of a new entry in key order. -/
def ordInsert : OffMap → Nat → Nat → OffMap
  | [], k, v => [(k, v)]
  | (k', v') :: t, k, v => if k < k' then (k, v) :: (k', v') :: t else (k', v') :: ordInsert t k v

/-- Member `insert( pair )`: an existing key keeps its entry. -/
def insert (m : OffMap) (k v : Nat) : OffMap :=
  if (find m k).isSome then m else ordInsert m k v

/-- Replacement of the value of an existing key. -/
def update : OffMap → Nat → Nat → OffMap
  | [], _, _ => []
  | (k', v') :: t, k, v => if k' = k then (k', v) :: t else (k', v') :: update t k v

/-- Assignment `m[k] = v`. -/
def assign (m : OffMap) (k v : Nat) : OffMap :=
  if (find m k).isSome then update m k v else ordInsert m k v

/-- Member `erase( key )`. -/
def erase (m : OffMap) (k : Nat) : OffMap := m.filter (fun e => e.1 ≠ k)

/-- Member `insert( first, last )`: the entries are inserted one by one. -/
def insertAll (m : OffMap) (other : OffMap) : OffMap :=
  other.foldl (fun acc e => insert acc e.1 e.2) m

/-- Bytes covered by the entries: `o ≤ x < o + l` for some entry `(o, l)`. -/
def covers (m : OffMap) (x : Nat) : Prop := ∃ e ∈ m, e.1 ≤ x ∧ x < e.1 + e.2

end OffMap

/-! ## Status values (`XRootDStatus`) -/

/-- Modelled from the spec: the status value of XrdClStatus.hh, which is not
among the sources: a status word (`stOK` or an error) and a code. -/
structure XRootDStatus where
  status : Nat
  code : Nat
  deriving DecidableEq, Repr

/-- Modelled from the spec: status word of success (XrdClStatus.hh). -/
def stOK : Nat := 0
/-- Modelled from the spec: status word of an error (XrdClStatus.hh). -/
def stError : Nat := 1
/-- Modelled from the spec: code of `Done` (XrdClStatus.hh). -/
def suDone : Nat := 0
/-- Modelled from the spec: code of `Continue` (XrdClStatus.hh). -/
def suContinue : Nat := 1
/-- Modelled from the spec: code of `Retry` (XrdClStatus.hh). -/
def suRetry : Nat := 2
/-- Modelled from the spec: error code `errInternal` (XrdClStatus.hh). -/
def errInternal : Nat := 7
/-- Modelled from the spec: error code `errUninitialized` (XrdClStatus.hh). -/
def errUninitialized : Nat := 11
/-- Modelled from the spec: error code `errInvalidRedirectURL` (XrdClStatus.hh). -/
def errInvalidRedirectURL : Nat := 302

namespace XRootDStatus

/-- Member `IsOK()`. -/
def IsOK (s : XRootDStatus) : Bool := s.status == stOK

/-- Default constructor `XRootDStatus()`. -/
def ok : XRootDStatus := ⟨stOK, 0⟩

/-- The status is `stOK` with code `suDone`. -/
def isDone (s : XRootDStatus) : Bool := s.IsOK && s.code == suDone

end XRootDStatus

/-- A completed read (`ChunkInfo`): offset and length; the buffer is left out. -/
structure ChunkInfo where
  offset : Nat
  length : Nat
  deriving DecidableEq, Repr

/-- The shared queue `SharedQueue<ChunkInfo>`: a FIFO of chunk pointers, `none`
being the null pointer that wakes the consumer. -/
abbrev Sink := List (Option ChunkInfo)

/-- Member `Put` of the queue. -/
def Sink.Put (q : Sink) (c : Option ChunkInfo) : Sink := q ++ [c]

/-! ## The source worker (`XCpSrc`) -/

/-- The transport's answers for one replica URL: the status of `File::Open`,
the status of `File::Stat` and the size it reports. -/
structure Url where
  openStatus : XRootDStatus
  statStatus : XRootDStatus
  statSize : Nat
  deriving DecidableEq, Repr

/-- Conversion of a `uint64_t` to `int64_t`. -/
def toInt64 (n : Nat) : Int :=
  if n % U64 < 9223372036854775808 then (n % U64 : Nat) else ((n % U64 : Nat) : Int) - U64

/-- Conversion of an `int64_t` to `uint64_t`. -/
def toUInt64 (i : Int) : Nat := (i % (U64 : Int)).toNat

/-- State of one source (the data members of `XCpSrc`; the mutex, the
reference counter and the sink pointer are left out, `isOpen` stands for
`pFile->IsOpen()`). -/
structure XCpSrc where
  pStatus : XRootDStatus
  pUrl : Url
  isOpen : Bool
  pSize : Int
  pCurrentOffset : Nat
  pBlkEnd : Nat
  pChunkSize : Nat
  pParallel : Nat
  pDataTransfered : Nat
  pOngoing : OffMap
  pStolen : OffMap
  deriving DecidableEq, Repr

namespace XCpSrc

/-- Constructor `XCpSrc( url, chunkSize, parallel, sink )`. -/
def new (url : Url) (chunkSize parallel : Nat) : XCpSrc :=
  { pStatus := ⟨stOK, suDone⟩, pUrl := url, isOpen := false, pSize := -1,
    pCurrentOffset := 0, pBlkEnd := 0, pChunkSize := chunkSize % U32,
    pParallel := parallel % U8, pDataTransfered := 0, pOngoing := [], pStolen := [] }

/-- Member `Initialize( fileSize )`. -/
def Initialize (s : XCpSrc) (fileSize : Int) : XRootDStatus × XCpSrc :=
  if !s.pUrl.openStatus.IsOK then (s.pUrl.openStatus, s)
  else
    let s1 := { s with isOpen := true }
    if fileSize < 0 then
      if !s.pUrl.statStatus.IsOK then (s.pUrl.statStatus, s1)
      else (XRootDStatus.ok, { s1 with pSize := toInt64 s.pUrl.statSize })
    else (XRootDStatus.ok, { s1 with pSize := fileSize })

/-- Member `GetSize()`. -/
def GetSize (s : XCpSrc) : Int := s.pSize

/-- Member `GetStatus()`. -/
def GetStatus (s : XCpSrc) : XRootDStatus := s.pStatus

/-- Member `HasWork()`. -/
def HasWork (s : XCpSrc) : Bool :=
  decide (s.pCurrentOffset < s.pBlkEnd) || !s.pOngoing.isEmpty || !s.pStolen.isEmpty

/-- Member `HasBlock()`. -/
def HasBlock (s : XCpSrc) : Bool := decide (s.pCurrentOffset < s.pBlkEnd)

/-- Member `SetBlock( offset, size )`. -/
def SetBlock (s : XCpSrc) (offset size : Nat) : XCpSrc :=
  { s with pCurrentOffset := offset, pBlkEnd := add64 offset size,
           pStatus := ⟨stOK, suContinue⟩ }

/-- Member `ReportResult( status, chunk )`.  The result is `none` when a null
chunk is dereferenced (a success reported without a chunk). -/
def ReportResult (s : XCpSrc) (sink : Sink) (status : XRootDStatus)
    (chunk : Option ChunkInfo) : Option (XCpSrc × Sink) :=
  let s1 := if !status.IsOK then { s with pStatus := status } else s
  if !s1.pStatus.IsOK then some (s1, sink.Put none)
  else
    match chunk with
    | none => none
    | some c =>
      some ({ s1 with pOngoing := OffMap.erase s1.pOngoing c.offset,
                      pDataTransfered := add64 s1.pDataTransfered c.length },
            sink.Put (some c))

/-- First loop of `ReadChunk` (stolen chunks).  `rd` lists the statuses the
transport returns for the reads issued, in order (`OK` once the list is used
up).  The result is `none` if the loop is still running when the fuel is used
up. -/
def readStolen : Nat → XCpSrc → Sink → List XRootDStatus →
    Option (XCpSrc × Sink × List XRootDStatus)
  | fuel, s, sink, rd =>
    match s.pStolen with
    | [] => some (s, sink, rd)
    | p :: rest =>
      if s.pOngoing.length < s.pParallel then
        match fuel with
        | 0 => none
        | fuel + 1 =>
          let s1 := { s with pOngoing := OffMap.insert s.pOngoing p.1 p.2, pStolen := rest }
          let st := rd.headD XRootDStatus.ok
          if !st.IsOK then
            match s1.ReportResult sink st none with
            | none => none
            | some (s2, sink2) => readStolen fuel s2 sink2 rd.tail
          else readStolen fuel s1 sink rd.tail
      else some (s, sink, rd)

/-- Second loop of `ReadChunk` (chunks of the own block). -/
def readBlock : Nat → XCpSrc → Sink → List XRootDStatus →
    Option (XCpSrc × Sink × List XRootDStatus)
  | fuel, s, sink, rd =>
    if s.pOngoing.length < s.pParallel ∧ s.pCurrentOffset < s.pBlkEnd then
      match fuel with
      | 0 => none
      | fuel + 1 =>
        let chunkSize :=
          if s.pBlkEnd < add64 s.pCurrentOffset s.pChunkSize
          then sub64 s.pBlkEnd s.pCurrentOffset else s.pChunkSize
        let s1 := { s with pOngoing := OffMap.assign s.pOngoing s.pCurrentOffset chunkSize,
                           pCurrentOffset := add64 s.pCurrentOffset chunkSize }
        let st := rd.headD XRootDStatus.ok
        if !st.IsOK then
          match s1.ReportResult sink st none with
          | none => none
          | some (s2, sink2) => readBlock fuel s2 sink2 rd.tail
        else readBlock fuel s1 sink rd.tail
    else some (s, sink, rd)

/-- Final section of `ReadChunk`: the status is recomputed unless an error is
latched. -/
def refreshStatus (s : XCpSrc) : XCpSrc :=
  if s.pStatus.IsOK then
    if s.pCurrentOffset < s.pBlkEnd ∨ s.pOngoing ≠ [] ∨ s.pStolen ≠ [] then
      { s with pStatus := ⟨stOK, suContinue⟩ }
    else { s with pStatus := ⟨stOK, suDone⟩ }
  else s

/-- Bound on the iterations of the second loop of `ReadChunk`: every iteration
adds a key to the ongoing map or rewrites the key at the cursor. -/
def blockFuel (s : XCpSrc) : Nat := (s.pParallel + 1) * (s.pParallel + 1)

/-- Opening section of `ReadChunk`: a source whose file is not open gets the
status `errUninitialized`. -/
def checkOpen (s : XCpSrc) : XCpSrc :=
  if !s.isOpen then { s with pStatus := ⟨stError, errUninitialized⟩ } else s

/-- Member `ReadChunk()`: the returned status, the source and the sink. -/
def ReadChunk (s : XCpSrc) (sink : Sink) (rd : List XRootDStatus) :
    Option (XRootDStatus × XCpSrc × Sink) :=
  if !(checkOpen s).pStatus.IsOK then some ((checkOpen s).pStatus, checkOpen s, sink)
  else
    match readStolen (checkOpen s).pStolen.length (checkOpen s) sink rd with
    | none => none
    | some (s1, sink1, rd1) =>
      match readBlock (blockFuel s1) s1 sink1 rd1 with
      | none => none
      | some (s2, sink2, _) => some ((refreshStatus s2).pStatus, refreshStatus s2, sink2)

/-- The amount `steal` of the third case of `Steal`, for a block of `blkSize`
bytes; `none` when the product does not convert to `uint64_t`. -/
def stealAmount (self src : XCpSrc) (blkSize : Nat) : Option Nat :=
  if blkSize ≤ self.pChunkSize then some blkSize
  else
    (Dbl.mul
      (Dbl.div (Dbl.ofUInt64 self.pDataTransfered)
        (Dbl.ofUInt64 (add64 self.pDataTransfered src.pDataTransfered)))
      (Dbl.ofUInt64 blkSize)).toUInt64

/-- Member `Steal( src )` called on `self`: the returned flag, `self` and the
source stolen from (`none` is the null pointer).  The two objects are
distinct.  The result is `none` when the amount to steal is not defined. -/
def Steal (self : XCpSrc) (src : Option XCpSrc) : Option (Bool × XCpSrc × Option XCpSrc) :=
  match src with
  | none => some (false, self, none)
  | some v =>
    if v.pStatus.IsOK && v.pStatus.code == suDone then some (false, self, some v)
    else if !v.pStatus.IsOK then
      some (false,
        { self with pStolen := OffMap.insertAll (OffMap.insertAll self.pStolen v.pOngoing) v.pStolen,
                    pCurrentOffset := v.pCurrentOffset, pBlkEnd := v.pBlkEnd },
        some { v with pOngoing := [], pStolen := [], pCurrentOffset := 0, pBlkEnd := 0 })
    else if v.pCurrentOffset < v.pBlkEnd then
      match stealAmount self v (sub64 v.pBlkEnd v.pCurrentOffset) with
      | none => none
      | some steal =>
        some (false,
          { self with pCurrentOffset := sub64 v.pBlkEnd steal, pBlkEnd := v.pBlkEnd },
          some { v with pBlkEnd := sub64 v.pBlkEnd steal })
    else if v.pStolen ≠ [] then
      some (false, { self with pStolen := OffMap.insertAll self.pStolen v.pStolen },
        some { v with pStolen := [] })
    else if v.pDataTransfered < self.pDataTransfered then
      some (true, { self with pStolen := OffMap.insertAll self.pStolen v.pOngoing }, some v)
    else some (false, self, some v)

/-- Member `EfficiencyIndicator()`. -/
def EfficiencyIndicator (s : XCpSrc) : Dbl :=
  let t1 := s.pOngoing.foldl (fun acc e => Dbl.add acc (Dbl.ofUInt64 e.2)) Dbl.zero
  let t2 := s.pStolen.foldl (fun acc e => Dbl.add acc (Dbl.ofUInt64 e.2)) t1
  let t3 := Dbl.add t2 (Dbl.ofUInt64 (sub64 s.pBlkEnd s.pCurrentOffset))
  Dbl.div t3 (Dbl.ofUInt64 s.pDataTransfered)

end XCpSrc

/-- Completion of an asynchronous read (`ChunkHandler::HandleResponse`) for
the source `s`: `response` is the chunk the transport delivers, if any. -/
def ChunkHandler.HandleResponse (s : XCpSrc) (sink : Sink) (status : XRootDStatus)
    (response : Option ChunkInfo) : Option (XCpSrc × Sink) :=
  let status1 :=
    if response.isNone && status.IsOK then (⟨stError, errInternal⟩ : XRootDStatus) else status
  let chunk := if !status1.IsOK then none else response
  s.ReportResult sink status1 chunk

/-! ## Reachable states of one source -/

/-- States of a source reachable from its construction through the member
functions; `Steal` is taken together with a source that is itself reachable. -/
inductive XCpSrc.Reach : XCpSrc → Prop
  | new (url : Url) (chunkSize parallel : Nat) : XCpSrc.Reach (XCpSrc.new url chunkSize parallel)
  | opened {s : XCpSrc} (fileSize : Int) :
      XCpSrc.Reach s → XCpSrc.Reach (s.Initialize fileSize).2
  | setBlock {s : XCpSrc} (offset size : Nat) :
      offset < U64 → size < U64 → XCpSrc.Reach s → XCpSrc.Reach (s.SetBlock offset size)
  | readChunk {s : XCpSrc} (sink : Sink) (rd : List XRootDStatus)
      (r : XRootDStatus × XCpSrc × Sink) :
      XCpSrc.Reach s → s.ReadChunk sink rd = some r → XCpSrc.Reach r.2.1
  | reportResult {s : XCpSrc} (sink : Sink) (status : XRootDStatus) (chunk : Option ChunkInfo)
      (r : XCpSrc × Sink) :
      XCpSrc.Reach s → s.ReportResult sink status chunk = some r → XCpSrc.Reach r.1
  | stealThief {s v : XCpSrc} (b : Bool) (s1 : XCpSrc) (v1 : Option XCpSrc) :
      XCpSrc.Reach s → XCpSrc.Reach v → s.Steal (some v) = some (b, s1, v1) → XCpSrc.Reach s1
  | stealVictim {s v : XCpSrc} (b : Bool) (s1 v1 : XCpSrc) :
      XCpSrc.Reach s → XCpSrc.Reach v → s.Steal (some v) = some (b, s1, some v1) →
      XCpSrc.Reach v1

/-- States of a source reachable without the source itself calling `Steal`
(it may be stolen from by any reachable source). -/
inductive XCpSrc.ReachVictim : XCpSrc → Prop
  | new (url : Url) (chunkSize parallel : Nat) :
      XCpSrc.ReachVictim (XCpSrc.new url chunkSize parallel)
  | opened {s : XCpSrc} (fileSize : Int) :
      XCpSrc.ReachVictim s → XCpSrc.ReachVictim (s.Initialize fileSize).2
  | setBlock {s : XCpSrc} (offset size : Nat) :
      offset < U64 → size < U64 → XCpSrc.ReachVictim s →
      XCpSrc.ReachVictim (s.SetBlock offset size)
  | readChunk {s : XCpSrc} (sink : Sink) (rd : List XRootDStatus)
      (r : XRootDStatus × XCpSrc × Sink) :
      XCpSrc.ReachVictim s → s.ReadChunk sink rd = some r → XCpSrc.ReachVictim r.2.1
  | reportResult {s : XCpSrc} (sink : Sink) (status : XRootDStatus) (chunk : Option ChunkInfo)
      (r : XCpSrc × Sink) :
      XCpSrc.ReachVictim s → s.ReportResult sink status chunk = some r → XCpSrc.ReachVictim r.1
  | stealVictim {t s : XCpSrc} (b : Bool) (t1 s1 : XCpSrc) :
      XCpSrc.Reach t → XCpSrc.ReachVictim s → t.Steal (some s) = some (b, t1, some s1) →
      XCpSrc.ReachVictim s1

/-! ## Concrete states used in the examples -/

/-- A replica that opens and reports 1024 bytes. -/
def urlOk : Url := ⟨XRootDStatus.ok, XRootDStatus.ok, 1024⟩

/-- A thief without block that has transferred one byte and holds the stolen
entry `(0, 5)`. -/
def clashThief : XCpSrc :=
  { (XCpSrc.new urlOk 16 2) with
    pStatus := ⟨stOK, suContinue⟩, isOpen := true, pDataTransfered := 1, pStolen := [(0, 5)] }

/-- A victim without block whose only ongoing read is `(0, 7)`. -/
def clashVictim : XCpSrc :=
  { (XCpSrc.new urlOk 16 2) with
    pStatus := ⟨stOK, suContinue⟩, isOpen := true, pOngoing := [(0, 7)] }

/-- A source that has issued the single chunk of its block `[0, 10)`. -/
def oneChunkIssued : XCpSrc :=
  { (XCpSrc.new urlOk 10 1) with
    pStatus := ⟨stOK, suContinue⟩, isOpen := true, pSize := 1024,
    pCurrentOffset := 10, pBlkEnd := 10, pOngoing := [(0, 10)] }

/-- The same source after the read of that chunk has completed. -/
def oneChunkDelivered : XCpSrc :=
  { oneChunkIssued with pOngoing := [], pDataTransfered := 10 }

/-- A source that has just been given the block `[0, 1024)`, with chunks of
256 bytes and four parallel reads. -/
def freshBlock : XCpSrc :=
  ((XCpSrc.new urlOk 256 4).Initialize (-1)).2.SetBlock 0 1024

/-- A source that has failed with the read `(0, 512)` in flight, the entry
`(2048, 512)` still stolen and the block `[512, 1024)` left. -/
def failedVictim : XCpSrc :=
  { (XCpSrc.new urlOk 512 2) with
    pStatus := ⟨stError, errInternal⟩, isOpen := true, pCurrentOffset := 512, pBlkEnd := 1024,
    pOngoing := [(0, 512)], pStolen := [(2048, 512)] }

/-- Every unsigned integer below `2 ^ 53` is a double. -/
def exactBelow : Nat := 9007199254740992

/-- A thief with chunks of 16 bytes that has transferred one byte. -/
def fracThief : XCpSrc :=
  { (XCpSrc.new urlOk 16 2) with
    pStatus := ⟨stOK, suContinue⟩, isOpen := true, pDataTransfered := 1 }

/-- A victim that has transferred 48 bytes and has the block `[0, 49)` left. -/
def fracVictim : XCpSrc :=
  { (XCpSrc.new urlOk 16 2) with
    pStatus := ⟨stOK, suContinue⟩, isOpen := true, pDataTransfered := 48,
    pCurrentOffset := 0, pBlkEnd := 49 }

/-! ## The context (`XCpCtx`) -/

/-- State of the context (the data members of `XCpCtx`).  A replica URL is
kept together with the answers of the transport for it. -/
structure XCpCtx where
  pUrls : List Url
  pBlockSize : Nat
  pParallelSrc : Nat
  pChunkSize : Nat
  pParallelChunks : Nat
  pOffset : Nat
  pSize : Nat
  pSources : List XCpSrc
  pFailed : List XCpSrc
  pSink : Sink
  pBewareDuplicates : Bool
  pReceived : List Nat
  deriving DecidableEq, Repr

/-- Outcome of a call of `GetChunk`. -/
inductive GetChunkResult where
  /-- The call has no defined result (see `XCpSrc.Steal`, `XCpSrc.ReadChunk`). -/
  | undefined
  /-- The call waits in `pSink->Get()` on an empty queue, in the given state. -/
  | blocked (ctx : XCpCtx)
  /-- The call returns the status and, with `suContinue`, the chunk. -/
  | returned (st : XRootDStatus) (ci : Option ChunkInfo) (ctx : XCpCtx)
  deriving DecidableEq, Repr

namespace XCpCtx

/-- Constructor `XCpCtx( urls, blockSize, parallelSrc, chunkSize, parallelChunks )`. -/
def new (urls : List Url) (blockSize parallelSrc chunkSize parallelChunks : Nat) : XCpCtx :=
  { pUrls := urls, pBlockSize := blockSize % U64, pParallelSrc := parallelSrc % U8,
    pChunkSize := chunkSize % U32, pParallelChunks := parallelChunks % U8,
    pOffset := 0, pSize := 0, pSources := [], pFailed := [], pSink := [],
    pBewareDuplicates := false, pReceived := [] }

/-- Loop of `InitNewSrc`: the remaining URLs and the live sources. -/
def initLoop (parallelSrc chunkSize parallelChunks : Nat) (fileSize : Int) :
    List Url → List XCpSrc → List Url × List XCpSrc
  | [], srcs => ([], srcs)
  | url :: rest, srcs =>
    if srcs.length < parallelSrc then
      if ((XCpSrc.new url chunkSize parallelChunks).Initialize fileSize).1.IsOK then
        initLoop parallelSrc chunkSize parallelChunks fileSize rest
          (srcs ++ [((XCpSrc.new url chunkSize parallelChunks).Initialize fileSize).2])
      else initLoop parallelSrc chunkSize parallelChunks fileSize rest srcs
    else (url :: rest, srcs)

/-- Member `InitNewSrc( fileSize )`. -/
def InitNewSrc (ctx : XCpCtx) (fileSize : Int) : XCpCtx :=
  { ctx with
    pUrls := (initLoop ctx.pParallelSrc ctx.pChunkSize ctx.pParallelChunks fileSize
      ctx.pUrls ctx.pSources).1,
    pSources := (initLoop ctx.pParallelSrc ctx.pChunkSize ctx.pParallelChunks fileSize
      ctx.pUrls ctx.pSources).2 }

/-- The block size after the adjustment in `Initialize`, for `n` sources. -/
def adjustBlockSize (blockSize chunkSize size n : Nat) : Nat :=
  let blockSize1 := if size / n < blockSize then size / n else blockSize
  if blockSize1 < chunkSize then chunkSize else blockSize1

/-- Loop of `Initialize` that hands out the initial blocks: the sources and
the final cursor. -/
def assignBlocks (blockSize size : Nat) : List XCpSrc → Nat → List XCpSrc × Nat
  | [], offset => ([], offset)
  | s :: rest, offset =>
    if size < add64 offset blockSize then
      (s.SetBlock offset blockSize :: rest, add64 offset blockSize)
    else
      ((s.SetBlock offset blockSize) :: (assignBlocks blockSize size rest (add64 offset blockSize)).1,
        (assignBlocks blockSize size rest (add64 offset blockSize)).2)

/-- Member `Initialize( fileSize )`. -/
def Initialize (ctx : XCpCtx) (fileSize : Int) : XRootDStatus × XCpCtx :=
  let ctx1 := ctx.InitNewSrc fileSize
  match ctx1.pSources with
  | [] => (⟨stError, errInvalidRedirectURL⟩, ctx1)
  | front :: _ =>
    let size := if fileSize < 0 then toUInt64 front.GetSize else toUInt64 fileSize
    let blockSize := adjustBlockSize ctx1.pBlockSize ctx1.pChunkSize size ctx1.pSources.length
    (XRootDStatus.ok,
      { ctx1 with
        pSize := size, pBlockSize := blockSize,
        pSources := (assignBlocks blockSize size ctx1.pSources ctx1.pOffset).1,
        pOffset := (assignBlocks blockSize size ctx1.pSources ctx1.pOffset).2 })

/-- Member `GetSize()`. -/
def GetSize (ctx : XCpCtx) : Int := toInt64 ctx.pSize

/-- Loop of `WeakestLink`: `i` is the position of the head of the list, `eff`
the largest indicator so far and `ret` the position of its source. -/
def weakestLoop (exclude : Nat) : List XCpSrc → Nat → Dbl → Option Nat → Option Nat
  | [], _, _, ret => ret
  | s :: rest, i, eff, ret =>
    if i = exclude then weakestLoop exclude rest (i + 1) eff ret
    else if Dbl.gt s.EfficiencyIndicator eff then
      weakestLoop exclude rest (i + 1) s.EfficiencyIndicator (some i)
    else weakestLoop exclude rest (i + 1) eff ret

/-- Member `WeakestLink( exclude )`; sources are named by their position in
the list of live sources. -/
def WeakestLink (ctx : XCpCtx) (exclude : Nat) : Option Nat :=
  weakestLoop exclude ctx.pSources 0 Dbl.zero none

/-- Member `RemoveFailed()`.  The loop erases a node and then advances the
erased iterator; it is read as continuing with the former successor, so that
every node is visited once.  This is what the code does whenever no live
source is in error (nothing is erased and the context is unchanged); when one
is, the increment of the erased iterator has no defined result by the rules of
`std::list`, which is `XCpCtx.RemoveFailedStrict`. -/
def RemoveFailed (ctx : XCpCtx) : XCpCtx :=
  { ctx with
    pSources := ctx.pSources.filter (fun s => s.GetStatus.IsOK),
    pFailed := ctx.pFailed ++ ctx.pSources.filter (fun s => !s.GetStatus.IsOK && s.HasWork) }

/-- Member `AllocBlock( src )` for the live source at position `i`: the
returned flag and the context.  The result is `none` when `Steal` has no
defined result (or `i` is not a position of the list). -/
def AllocBlock (ctx : XCpCtx) (i : Nat) : Option (Bool × XCpCtx) :=
  match ctx.pSources[i]? with
  | none => none
  | some src =>
    if ctx.pOffset < ctx.pSize then
      let block :=
        if ctx.pSize < add64 ctx.pOffset ctx.pBlockSize then sub64 ctx.pSize ctx.pOffset
        else ctx.pBlockSize
      some (false,
        { ctx with pSources := ctx.pSources.set i (src.SetBlock ctx.pOffset block),
                   pOffset := add64 ctx.pOffset block })
    else
      match ctx.pFailed with
      | failed :: rest =>
        match src.Steal (some failed) with
        | none => none
        | some (_, src1, _) =>
          some (false, { ctx with pSources := ctx.pSources.set i src1, pFailed := rest })
      | [] =>
        match ctx.WeakestLink i with
        | none => some (false, ctx)
        | some j =>
          match ctx.pSources[j]? with
          | none => none
          | some wLink =>
            match src.Steal (some wLink) with
            | none => none
            | some (b, src1, wLink1) =>
              some (b, { ctx with pSources :=
                (ctx.pSources.set i src1).set j (wLink1.getD wLink) })

/-- Member `AcumulateDone()`. -/
def AcumulateDone (ctx : XCpCtx) : Nat :=
  (ctx.pSources.filter (fun s => s.GetStatus.code == suDone)).length

/-- One iteration of the loop of `GetChunk` over the live sources, for the
source at position `i`: `ReadChunk`, then `AllocBlock` if no block is left. -/
def pumpSource (ctx : XCpCtx) (i : Nat) (rd : List XRootDStatus) : Option XCpCtx :=
  match ctx.pSources[i]? with
  | none => none
  | some src =>
    match src.ReadChunk ctx.pSink rd with
    | none => none
    | some (_, src1, sink1) =>
      if !src1.HasBlock then
        match ({ ctx with pSources := ctx.pSources.set i src1, pSink := sink1 } : XCpCtx).AllocBlock i with
        | none => none
        | some (b, ctx2) =>
          some { ctx2 with pBewareDuplicates := ctx2.pBewareDuplicates || b }
      else some { ctx with pSources := ctx.pSources.set i src1, pSink := sink1 }

/-- The loop of `GetChunk` over the live sources, from position `i` on, for
`n` more sources; `rds` lists, per source, the statuses the transport returns
for the reads issued. -/
def pumpFrom : Nat → Nat → XCpCtx → List (List XRootDStatus) → Option XCpCtx
  | 0, _, ctx, _ => some ctx
  | n + 1, i, ctx, rds =>
    match ctx.pumpSource i (rds.headD []) with
    | none => none
    | some ctx1 => pumpFrom n (i + 1) ctx1 rds.tail

/-- End of `GetChunk`, from `pSink->Get()` on: the item taken from the sink is
returned, dropped as a duplicate, or was the null pointer. -/
def deliver (ctx : XCpCtx) : GetChunkResult :=
  match ctx.pSink with
  | [] => GetChunkResult.blocked ctx
  | none :: rest => GetChunkResult.returned ⟨stOK, suRetry⟩ none { ctx with pSink := rest }
  | some chunk :: rest =>
    if ctx.pBewareDuplicates then
      if chunk.offset ∈ ctx.pReceived then
        GetChunkResult.returned ⟨stOK, suRetry⟩ none { ctx with pSink := rest }
      else
        GetChunkResult.returned ⟨stOK, suContinue⟩ (some chunk)
          { ctx with pSink := rest, pReceived := chunk.offset :: ctx.pReceived }
    else GetChunkResult.returned ⟨stOK, suContinue⟩ (some chunk) { ctx with pSink := rest }

/-- Member `GetChunk( ci )`. -/
def GetChunk (ctx : XCpCtx) (rds : List (List XRootDStatus)) : GetChunkResult :=
  let ctx1 := ctx.RemoveFailed.InitNewSrc (toInt64 ctx.pSize)
  if ctx1.pSources.isEmpty then GetChunkResult.returned ⟨stError, 0⟩ none ctx1
  else
    match pumpFrom ctx1.pSources.length 0 ctx1 rds with
    | none => GetChunkResult.undefined
    | some ctx2 =>
      if ctx2.AcumulateDone = ctx2.pSources.length ∧ ctx2.pSink.isEmpty then
        GetChunkResult.returned ⟨stOK, suDone⟩ none ctx2
      else ctx2.deliver

/-- Completion of a read of the live source at position `i`. -/
def completeLive (ctx : XCpCtx) (i : Nat) (status : XRootDStatus)
    (response : Option ChunkInfo) : Option XCpCtx :=
  match ctx.pSources[i]? with
  | none => none
  | some s =>
    match ChunkHandler.HandleResponse s ctx.pSink status response with
    | none => none
    | some (s1, sink1) => some { ctx with pSources := ctx.pSources.set i s1, pSink := sink1 }

/-- Completion of a read of the source at position `j` of the failed queue. -/
def completeFailed (ctx : XCpCtx) (j : Nat) (status : XRootDStatus)
    (response : Option ChunkInfo) : Option XCpCtx :=
  match ctx.pFailed[j]? with
  | none => none
  | some s =>
    match ChunkHandler.HandleResponse s ctx.pSink status response with
    | none => none
    | some (s1, sink1) => some { ctx with pFailed := ctx.pFailed.set j s1, pSink := sink1 }

/-- Completion of a read of a source the context has released; such a source
is in error, so that only the null pointer reaches the sink. -/
def completeReleased (ctx : XCpCtx) : XCpCtx := { ctx with pSink := ctx.pSink.Put none }

end XCpCtx

/-- A replica that opens and reports 4096 bytes. -/
def url4096 : Url := ⟨XRootDStatus.ok, XRootDStatus.ok, 4096⟩

/-! ## Runs of the context -/

/-- Chunks handed to the consumer along a run of the context: calls of
`GetChunk` (returning, or blocking in the sink and returning after a wake-up)
interleaved with completions of reads. -/
inductive XCpCtx.Deliveries : XCpCtx → List ChunkInfo → XCpCtx → Prop
  | done (ctx : XCpCtx) : XCpCtx.Deliveries ctx [] ctx
  | call {ctx ctx1 ctx2 : XCpCtx} {l : List ChunkInfo} (rds : List (List XRootDStatus))
      (st : XRootDStatus) (ci : Option ChunkInfo) :
      ctx.GetChunk rds = GetChunkResult.returned st ci ctx1 →
      XCpCtx.Deliveries ctx1 l ctx2 → XCpCtx.Deliveries ctx (ci.toList ++ l) ctx2
  | wait {ctx ctx1 ctx2 : XCpCtx} {l : List ChunkInfo} (rds : List (List XRootDStatus)) :
      ctx.GetChunk rds = GetChunkResult.blocked ctx1 →
      XCpCtx.Deliveries ctx1 l ctx2 → XCpCtx.Deliveries ctx l ctx2
  | wake {ctx ctx1 ctx2 : XCpCtx} {l : List ChunkInfo} (st : XRootDStatus)
      (ci : Option ChunkInfo) :
      ctx.deliver = GetChunkResult.returned st ci ctx1 →
      XCpCtx.Deliveries ctx1 l ctx2 → XCpCtx.Deliveries ctx (ci.toList ++ l) ctx2
  | completeLive {ctx ctx1 ctx2 : XCpCtx} {l : List ChunkInfo} (i : Nat) (status : XRootDStatus)
      (response : Option ChunkInfo) :
      ctx.completeLive i status response = some ctx1 →
      XCpCtx.Deliveries ctx1 l ctx2 → XCpCtx.Deliveries ctx l ctx2
  | completeFailed {ctx ctx1 ctx2 : XCpCtx} {l : List ChunkInfo} (j : Nat)
      (status : XRootDStatus) (response : Option ChunkInfo) :
      ctx.completeFailed j status response = some ctx1 →
      XCpCtx.Deliveries ctx1 l ctx2 → XCpCtx.Deliveries ctx l ctx2
  | completeReleased {ctx ctx2 : XCpCtx} {l : List ChunkInfo} :
      XCpCtx.Deliveries ctx.completeReleased l ctx2 → XCpCtx.Deliveries ctx l ctx2

/-- A context in which duplicates are expected and the chunk at offset 0 is
queued twice. -/
def dupCtx : XCpCtx :=
  { XCpCtx.new [] 512 2 512 1 with
    pSize := 1024, pOffset := 1024, pBewareDuplicates := true,
    pSink := [some ⟨0, 512⟩, some ⟨0, 512⟩] }

/-! ### A failed source taken over by a new one -/

/-- The first source of the take-over scenario, with the block `[0, 512)`. -/
def takeoverSrc : XCpSrc :=
  { pStatus := ⟨stOK, suContinue⟩, pUrl := urlOk, isOpen := true, pSize := 512,
    pCurrentOffset := 0, pBlkEnd := 512, pChunkSize := 512, pParallel := 1,
    pDataTransfered := 0, pOngoing := [], pStolen := [] }

/-- Two replicas, one source at a time, a file of one chunk of 512 bytes:
the state after `Initialize( 512 )`. -/
def takeoverStart : XCpCtx :=
  { pUrls := [urlOk], pBlockSize := 512, pParallelSrc := 1, pChunkSize := 512,
    pParallelChunks := 1, pOffset := 512, pSize := 512, pSources := [takeoverSrc],
    pFailed := [], pSink := [], pBewareDuplicates := false, pReceived := [] }

/-- The read has failed: the source is in error and the sink holds the null
pointer. -/
def takeoverFailed : XCpCtx :=
  { takeoverStart with
    pSources := [{ takeoverSrc with pStatus := ⟨stError, errInternal⟩, pCurrentOffset := 512,
                                    pOngoing := [(0, 512)] }],
    pSink := [none] }

/-- The first call has returned `Retry`. -/
def takeoverRetry : XCpCtx := { takeoverFailed with pSink := [] }

/-! ## Outstanding work and reachable states of the context -/

/-- Number of entries of the map that cover the byte `x`. -/
def OffMap.count (m : OffMap) (x : Nat) : Nat :=
  (m.filter (fun e => decide (e.1 ≤ x ∧ x < e.1 + e.2))).length

/-- The byte `x` belongs to the outstanding work of the source: to its block
`[cur, end)` or to an entry of its ongoing or stolen map. -/
def XCpSrc.outstanding (s : XCpSrc) (x : Nat) : Prop :=
  (s.pCurrentOffset ≤ x ∧ x < s.pBlkEnd) ∨ OffMap.covers s.pOngoing x ∨ OffMap.covers s.pStolen x

/-- Number of times the byte `x` occurs in the outstanding work of the source. -/
def XCpSrc.mult (s : XCpSrc) (x : Nat) : Nat :=
  (if s.pCurrentOffset ≤ x ∧ x < s.pBlkEnd then 1 else 0) + OffMap.count s.pOngoing x +
    OffMap.count s.pStolen x

/-- Number of times the byte `x` occurs in the outstanding work of a list of
sources. -/
def totalMult (l : List XCpSrc) (x : Nat) : Nat := (l.map (fun s => s.mult x)).sum

/-- The source's chunk size fits `uint32_t`, its block is well formed and its
block and map entries end at or before `K`. -/
def XCpSrc.within (s : XCpSrc) (K : Nat) : Prop :=
  s.pChunkSize < U32 ∧ s.pCurrentOffset ≤ s.pBlkEnd ∧ s.pBlkEnd ≤ K ∧
  ∀ e ∈ s.pOngoing ++ s.pStolen, e.1 + e.2 ≤ K

namespace XCpCtx

/-- The live sources followed by the sources of the failed queue. -/
def all (ctx : XCpCtx) : List XCpSrc := ctx.pSources ++ ctx.pFailed

/-- No byte is outstanding at two different sources, live or failed. -/
def Disjoint (ctx : XCpCtx) : Prop :=
  ∀ (i j : Nat) (a b : XCpSrc), ctx.all[i]? = some a → ctx.all[j]? = some b → i ≠ j →
    ∀ x, ¬ (a.outstanding x ∧ b.outstanding x)

/-- The sizes stay in the range in which the arithmetic of the code is exact:
file size, block size and cursor below `2 ^ 53`, byte counters below `2 ^ 52`. -/
def Small (ctx : XCpCtx) : Prop :=
  ctx.pSize < exactBelow ∧ ctx.pBlockSize < exactBelow ∧ ctx.pOffset < exactBelow ∧
  ∀ s ∈ ctx.all, 2 * s.pDataTransfered < exactBelow

/-- Range bounds of a context: every source, live or failed, has
cur <= end <= offset and map entries that end at or before the cursor, and the
cursor is at most one block beyond the file size. -/
def Ranges (ctx : XCpCtx) : Prop :=
  (∀ s ∈ ctx.all, s.within ctx.pOffset) ∧ ctx.pOffset ≤ ctx.pSize + ctx.pBlockSize

/-- Steps of the context: the parts of `GetChunk` and the completions of
reads, in any order.  `ReadChunk` and `AllocBlock` are steps only when the
call has a defined result: an `AllocBlock` whose `Steal` converts a value that
is not a number is no step.  `RemoveFailed` is the step `XCpCtx.RemoveFailed`,
which includes every call with a defined result. -/
inductive Step : XCpCtx → XCpCtx → Prop
  | removeFailed (ctx : XCpCtx) : Step ctx ctx.RemoveFailed
  | initNewSrc (ctx : XCpCtx) : Step ctx (ctx.InitNewSrc (toInt64 ctx.pSize))
  | readChunk (ctx : XCpCtx) (i : Nat) (rd : List XRootDStatus) (src : XCpSrc)
      (st : XRootDStatus) (src1 : XCpSrc) (sink1 : Sink) :
      ctx.pSources[i]? = some src → src.ReadChunk ctx.pSink rd = some (st, src1, sink1) →
      Step ctx { ctx with pSources := ctx.pSources.set i src1, pSink := sink1 }
  | allocBlock (ctx : XCpCtx) (i : Nat) (src : XCpSrc) (b : Bool) (ctx1 : XCpCtx) :
      ctx.pSources[i]? = some src → src.HasBlock = false → ctx.AllocBlock i = some (b, ctx1) →
      Step ctx { ctx1 with pBewareDuplicates := ctx1.pBewareDuplicates || b }
  | completeLive (ctx : XCpCtx) (i : Nat) (status : XRootDStatus) (response : Option ChunkInfo)
      (ctx1 : XCpCtx) : ctx.completeLive i status response = some ctx1 → Step ctx ctx1
  | completeFailed (ctx : XCpCtx) (j : Nat) (status : XRootDStatus)
      (response : Option ChunkInfo) (ctx1 : XCpCtx) :
      ctx.completeFailed j status response = some ctx1 → Step ctx ctx1
  | completeReleased (ctx : XCpCtx) : Step ctx ctx.completeReleased
  | deliver (ctx : XCpCtx) (st : XRootDStatus) (ci : Option ChunkInfo) (ctx1 : XCpCtx) :
      ctx.deliver = GetChunkResult.returned st ci ctx1 → Step ctx ctx1

/-- States reachable from a successful `Initialize` of a new context through
steps, all states on the way satisfying `P`. -/
inductive ReachWithin (P : XCpCtx → Prop) : XCpCtx → Prop
  | init (urls : List Url) (blockSize parallelSrc chunkSize parallelChunks : Nat)
      (fileSize : Int) (ctx : XCpCtx) :
      (XCpCtx.new urls blockSize parallelSrc chunkSize parallelChunks).Initialize fileSize =
        (XRootDStatus.ok, ctx) → P ctx → ReachWithin P ctx
  | step {ctx ctx1 : XCpCtx} : ReachWithin P ctx → Step ctx ctx1 → P ctx1 → ReachWithin P ctx1

/-- States reachable from a successful `Initialize` of a new context. -/
def Reach (ctx : XCpCtx) : Prop := ReachWithin (fun _ => True) ctx

end XCpCtx

/-- A source that has not been given any work yet. -/
def XCpSrc.fresh (s : XCpSrc) : Prop :=
  s.pChunkSize < U32 ∧ s.pCurrentOffset = 0 ∧ s.pBlkEnd = 0 ∧ s.pOngoing = [] ∧ s.pStolen = []

/-- Invariant of the context: the range bounds, and, as long as no duplicate
has been allowed, no byte outstanding twice. -/
def XCpCtx.Inv (ctx : XCpCtx) : Prop :=
  ctx.Ranges ∧ (ctx.pBewareDuplicates = false → ∀ x, totalMult ctx.all x ≤ 1)

/-! ### A file of 2^64 - 1 bytes -/

/-- A replica that reports the size `2 ^ 64 - 1`. -/
def urlHuge : Url := ⟨XRootDStatus.ok, XRootDStatus.ok, 18446744073709551615⟩

/-- First source: the block `[0, 2^63 - 1)`. -/
def hugeA : XCpSrc :=
  { pStatus := ⟨stOK, suContinue⟩, pUrl := urlHuge, isOpen := true, pSize := -1,
    pCurrentOffset := 0, pBlkEnd := 9223372036854775807, pChunkSize := 512, pParallel := 1,
    pDataTransfered := 0, pOngoing := [], pStolen := [] }

/-- Second source: the block `[2^63 - 1, 2^64 - 2)`. -/
def hugeB : XCpSrc :=
  { hugeA with pCurrentOffset := 9223372036854775807, pBlkEnd := 18446744073709551614 }

/-- Three replicas, two sources at a time: the state after `Initialize( -1 )`;
the cursor is `2^64 - 2`, below the size. -/
def huge1 : XCpCtx :=
  { pUrls := [urlHuge], pBlockSize := 9223372036854775807, pParallelSrc := 2, pChunkSize := 512,
    pParallelChunks := 1, pOffset := 18446744073709551614, pSize := 18446744073709551615,
    pSources := [hugeA, hugeB], pFailed := [], pSink := [], pBewareDuplicates := false,
    pReceived := [] }

/-! ### Initial blocks -/

/-- One replica and a file of 100 bytes, with chunks of 256 bytes: the state
after `Initialize( 100 )`. -/
def shortFile : XCpCtx :=
  { pUrls := [], pBlockSize := 256, pParallelSrc := 1, pChunkSize := 256,
    pParallelChunks := 4, pOffset := 256, pSize := 100,
    pSources := [{ pStatus := ⟨stOK, suContinue⟩, pUrl := urlOk, isOpen := true, pSize := 100,
                   pCurrentOffset := 0, pBlkEnd := 256, pChunkSize := 256, pParallel := 4,
                   pDataTransfered := 0, pOngoing := [], pStolen := [] }],
    pFailed := [], pSink := [], pBewareDuplicates := false, pReceived := [] }

/-- Two replicas and a file of 2048 bytes, blocks of 1024 bytes: the state
after `Initialize( 2048 )`, with the blocks `[0, 1024)` and `[1024, 2048)`. -/
def twoBlocks : XCpCtx :=
  { pUrls := [], pBlockSize := 1024, pParallelSrc := 2, pChunkSize := 512,
    pParallelChunks := 2, pOffset := 2048, pSize := 2048,
    pSources := [{ pStatus := ⟨stOK, suContinue⟩, pUrl := urlOk, isOpen := true, pSize := 2048,
                   pCurrentOffset := 0, pBlkEnd := 1024, pChunkSize := 512, pParallel := 2,
                   pDataTransfered := 0, pOngoing := [], pStolen := [] },
                 { pStatus := ⟨stOK, suContinue⟩, pUrl := urlOk, isOpen := true, pSize := 2048,
                   pCurrentOffset := 1024, pBlkEnd := 2048, pChunkSize := 512, pParallel := 2,
                   pDataTransfered := 0, pOngoing := [], pStolen := [] }],
    pFailed := [], pSink := [], pBewareDuplicates := false, pReceived := [] }

/-- The state `twoBlocks` after the first source has issued its two chunks. -/
def twoBlocksReading : XCpCtx :=
  { twoBlocks with
    pSources := [{ pStatus := ⟨stOK, suContinue⟩, pUrl := urlOk, isOpen := true, pSize := 2048,
                   pCurrentOffset := 1024, pBlkEnd := 1024, pChunkSize := 512, pParallel := 2,
                   pDataTransfered := 0, pOngoing := [(0, 512), (512, 512)], pStolen := [] },
                 { pStatus := ⟨stOK, suContinue⟩, pUrl := urlOk, isOpen := true, pSize := 2048,
                   pCurrentOffset := 1024, pBlkEnd := 2048, pChunkSize := 512, pParallel := 2,
                   pDataTransfered := 0, pOngoing := [], pStolen := [] }] }

/-- The source `oneChunkIssued` with a byte counter of `2 ^ 64 - 1`. -/
def fullCounter : XCpSrc := { oneChunkIssued with pDataTransfered := 18446744073709551615 }

/-! ### A read that fails when it is issued -/

/-- One replica, a file of two blocks of 512 bytes: the source after
`Initialize( 1024 )`, with the block `[0, 512)`. -/
def lostSrc : XCpSrc :=
  { pStatus := ⟨stOK, suContinue⟩, pUrl := urlOk, isOpen := true, pSize := 1024,
    pCurrentOffset := 0, pBlkEnd := 512, pChunkSize := 512, pParallel := 1,
    pDataTransfered := 0, pOngoing := [], pStolen := [] }

/-- The context after `Initialize( 1024 )`. -/
def lostStart : XCpCtx :=
  { pUrls := [], pBlockSize := 512, pParallelSrc := 1, pChunkSize := 512,
    pParallelChunks := 1, pOffset := 512, pSize := 1024, pSources := [lostSrc],
    pFailed := [], pSink := [], pBewareDuplicates := false, pReceived := [] }

/-- The source after `ReadChunk`, the read `(0, 512)` having failed when it
was issued: the status is the error. -/
def lostFailedSrc : XCpSrc :=
  { lostSrc with pStatus := ⟨stError, errInternal⟩, pCurrentOffset := 512,
                 pOngoing := [(0, 512)] }

/-- The context after the first call of `GetChunk`: `AllocBlock` has given the
source the block `[512, 1024)` and its status is `Continue` again. -/
def lostError : XCpCtx :=
  { lostStart with
    pOffset := 1024,
    pSources := [{ lostFailedSrc with pStatus := ⟨stOK, suContinue⟩, pBlkEnd := 1024 }] }

/-! ### `RemoveFailed` by the rules of `std::list` -/

/-- The loop of `RemoveFailed` by the rules of `std::list`, over the nodes from
the iterator on: at a source in error the node is erased, which invalidates
the iterator, and the increment `++itr` of the loop then has no defined result
(`none`); a source that is not in error is passed over. -/
def XCpCtx.removeFailedLoop : List XCpSrc → Option Unit
  | [] => some ()
  | s :: rest => if !s.GetStatus.IsOK then none else XCpCtx.removeFailedLoop rest

/-- Member `RemoveFailed()` by the rules of `std::list`: the context when the
loop has a defined result.  (`XCpCtx.RemoveFailed` is the reading in which the
link of the erased node is still intact.) -/
def XCpCtx.RemoveFailedStrict (ctx : XCpCtx) : Option XCpCtx :=
  (XCpCtx.removeFailedLoop ctx.pSources).map (fun _ => ctx)

/-! ### Comparison of indicators -/

/-- Comparison `a <= b` of doubles; false as soon as one side is not a number. -/
def Dbl.le : Dbl → Dbl → Bool
  | Dbl.fin p1 q1, Dbl.fin p2 q2 => decide (p1 * q2 ≤ p2 * q1)
  | Dbl.fin _ _, Dbl.inf => true
  | Dbl.inf, Dbl.inf => true
  | _, _ => false

/-- A finite value is kept with a positive denominator. -/
def Dbl.wf : Dbl → Prop
  | Dbl.fin _ q => 0 < q
  | _ => True

/-- Three replicas, a file of 100 bytes and chunks of 256 bytes: the state
after `Initialize( 100 )`.  Only the first source has a block; the other two
have no work and have transferred nothing. -/
def threeShort : XCpCtx :=
  { pUrls := [], pBlockSize := 256, pParallelSrc := 3, pChunkSize := 256,
    pParallelChunks := 4, pOffset := 256, pSize := 100,
    pSources := [{ pStatus := ⟨stOK, suContinue⟩, pUrl := urlOk, isOpen := true, pSize := 100,
                   pCurrentOffset := 0, pBlkEnd := 256, pChunkSize := 256, pParallel := 4,
                   pDataTransfered := 0, pOngoing := [], pStolen := [] },
                 { pStatus := ⟨stOK, suDone⟩, pUrl := urlOk, isOpen := true, pSize := 100,
                   pCurrentOffset := 0, pBlkEnd := 0, pChunkSize := 256, pParallel := 4,
                   pDataTransfered := 0, pOngoing := [], pStolen := [] },
                 { pStatus := ⟨stOK, suDone⟩, pUrl := urlOk, isOpen := true, pSize := 100,
                   pCurrentOffset := 0, pBlkEnd := 0, pChunkSize := 256, pParallel := 4,
                   pDataTransfered := 0, pOngoing := [], pStolen := [] }],
    pFailed := [], pSink := [], pBewareDuplicates := false, pReceived := [] }

/-! ### Runs of `ReadChunk` -/

/-- Number of keys of the map that are at or after `c`. -/
def OffMap.keysFrom (m : OffMap) (c : Nat) : Nat := (m.filter (fun e => decide (c ≤ e.1))).length

/-- A source in error whose file is not open. -/
def closedFailed : XCpSrc :=
  { (XCpSrc.new urlOk 512 2) with pStatus := ⟨stError, errInternal⟩ }

/-- An open source with chunks of 0 bytes, two parallel reads and the block
`[0, 1024)`. -/
def zeroChunk : XCpSrc := ((XCpSrc.new urlOk 0 2).Initialize (-1)).2.SetBlock 0 1024

/-- The source `freshBlock` with two parallel reads and the entry `(0, 256)`
already in its ongoing map: one slot is free. -/
def staleKey : XCpSrc := { freshBlock with pParallel := 2, pOngoing := [(0, 256)] }

/-- A source with chunks of 512 bytes, one parallel read and the block
`[2^64 - 2, 2^64 - 1)`. -/
def topBlock : XCpSrc :=
  { freshBlock with pParallel := 1, pChunkSize := 512, pCurrentOffset := 18446744073709551614,
                    pBlkEnd := 18446744073709551615 }

/-! ### The efficiency indicator -/

/-- The quantity `to_do` of the specification of `EfficiencyIndicator`, in
exact arithmetic: the lengths in the ongoing map, plus the lengths in the
stolen map, plus `end - cur`. -/
def XCpSrc.toDo (s : XCpSrc) : Nat :=
  (s.pOngoing.map (fun e => e.2)).sum + (s.pStolen.map (fun e => e.2)).sum +
    (s.pBlkEnd - s.pCurrentOffset)

/-- An open source without work that has transferred nothing. -/
def idleSrc : XCpSrc := ((XCpSrc.new urlOk 256 4).Initialize 100).2

/-- A source that has transferred one byte and has three reads of `2 ^ 53`,
1 and 1 bytes in its ongoing map. -/
def bigSum : XCpSrc :=
  { idleSrc with
    pDataTransfered := 1,
    pOngoing := [(0, 9007199254740992), (9007199254740992, 1), (9007199254740993, 1)] }

/-- The source `topBlock` with two parallel reads. -/
def topTwo : XCpSrc := { topBlock with pParallel := 2 }

/-! ### A steal that leaves the status `Done` -/

/-- A source of the six-byte scenario: open, in the state `OK` with the given
code, with chunks of one byte and one read at a time. -/
def staleSrc (code cur blkEnd data : Nat) (ongoing : OffMap) : XCpSrc :=
  { pStatus := ⟨stOK, code⟩, pUrl := urlOk, isOpen := true, pSize := 6, pCurrentOffset := cur,
    pBlkEnd := blkEnd, pChunkSize := 1, pParallel := 1, pDataTransfered := data,
    pOngoing := ongoing, pStolen := [] }

/-- A context of the six-byte scenario: two replicas, a file of 6 bytes, blocks
of 3 bytes; the cursor is at the size, no source has failed and no duplicate
is expected. -/
def staleCtx (a b : XCpSrc) (sink : Sink) : XCpCtx :=
  { pUrls := [], pBlockSize := 3, pParallelSrc := 2, pChunkSize := 1, pParallelChunks := 1,
    pOffset := 6, pSize := 6, pSources := [a, b], pFailed := [], pSink := sink,
    pBewareDuplicates := false, pReceived := [] }

/-! ### A cursor that wraps around without any failure -/

/-- A replica that reports the size `2^64 - 1023`. -/
def urlWrap : Url := ⟨XRootDStatus.ok, XRootDStatus.ok, 18446744073709550593⟩

/-- A source of the scenario of the wrapping cursor: open, in the state `OK`
with the given code, with chunks of 512 bytes and one read at a time. -/
def wrapSrc (code cur blkEnd data : Nat) (ongoing : OffMap) : XCpSrc :=
  { pStatus := ⟨stOK, code⟩, pUrl := urlWrap, isOpen := true, pSize := -1023,
    pCurrentOffset := cur, pBlkEnd := blkEnd, pChunkSize := 512, pParallel := 1,
    pDataTransfered := data, pOngoing := ongoing, pStolen := [] }

/-- A context of the scenario of the wrapping cursor: two replicas, a file of
`2^64 - 1023` bytes, blocks of `2^63 - 512` bytes, the given cursor; no source
has failed and no duplicate is expected. -/
def wrapCtx (offset : Nat) (a b : XCpSrc) (sink : Sink) : XCpCtx :=
  { pUrls := [], pBlockSize := 9223372036854775296, pParallelSrc := 2, pChunkSize := 512,
    pParallelChunks := 1, pOffset := offset, pSize := 18446744073709550593, pSources := [a, b],
    pFailed := [], pSink := sink, pBewareDuplicates := false, pReceived := [] }

/-- The second source of the scenario, with its first read `(2^63 - 512, 512)`
in flight and the block `[2^63, 2^64 - 1024)` left. -/
def wrapSlow : XCpSrc :=
  wrapSrc 1 9223372036854775808 18446744073709550592 0 [(9223372036854775296, 512)]

/-- The state in which the first source has read its first `k` chunks and the
second source is still waiting for its first read. -/
def wrapRead (k : Nat) : XCpCtx :=
  wrapCtx 18446744073709550592 (wrapSrc 1 (512 * k) 9223372036854775296 (512 * k) []) wrapSlow []

/-! # Theorems -/

/-! ## Facts about the offset maps -/

namespace OffMap

theorem find_ordInsert (m : OffMap) (k v k' : Nat) (h : find m k = none) :
    find (ordInsert m k v) k' = if k = k' then some v else find m k' := by
  induction m with
  | nil => simp [ordInsert, find]
  | cons e t ih =>
    obtain ⟨a, b⟩ := e
    simp only [find] at h
    by_cases hak : a = k
    · simp [hak] at h
    · simp only [hak, if_false] at h
      simp only [ordInsert]
      by_cases hlt : k < a
      · simp only [hlt, if_true, find]
      · simp only [hlt, if_false, find, ih h]
        by_cases hak' : a = k'
        · have : k ≠ k' := fun e => hak (hak'.trans e.symm)
          simp [hak', this]
        · simp [hak']

theorem find_insert (m : OffMap) (k v k' : Nat) :
    find (insert m k v) k' =
      match find m k' with
      | some x => some x
      | none => if k = k' then some v else none := by
  unfold insert
  cases hk : find m k with
  | some x =>
    simp only [Option.isSome_some, if_true]
    cases hk' : find m k' with
    | some y => rfl
    | none =>
      have : k ≠ k' := fun e => by rw [e] at hk; rw [hk] at hk'; cases hk'
      simp [this]
  | none =>
    simp only [Option.isSome_none, Bool.false_eq_true, if_false, find_ordInsert m k v k' hk]
    cases hk' : find m k' with
    | some y =>
      have : k ≠ k' := fun e => by rw [e] at hk; rw [hk] at hk'; cases hk'
      simp [this]
    | none => rfl

theorem find_insertAll (other m : OffMap) (k : Nat) :
    find (insertAll m other) k = (find m k).orElse (fun _ => find other k) := by
  induction other generalizing m with
  | nil => cases h : find m k <;> simp [insertAll, find, h]
  | cons e t ih =>
    have hstep : insertAll m (e :: t) = insertAll (insert m e.1 e.2) t := rfl
    rw [hstep, ih, find_insert]
    obtain ⟨a, b⟩ := e
    cases h : find m k with
    | some x => simp
    | none =>
      by_cases hak : a = k
      · simp [find, hak]
      · simp [find, hak]

theorem length_ordInsert (m : OffMap) (k v : Nat) : (ordInsert m k v).length = m.length + 1 := by
  induction m with
  | nil => rfl
  | cons e t ih =>
    simp only [ordInsert]
    split
    · simp
    · simp [ih]

theorem length_insert_le (m : OffMap) (k v : Nat) : (insert m k v).length ≤ m.length + 1 := by
  unfold insert
  split
  · omega
  · rw [length_ordInsert]

theorem length_update (m : OffMap) (k v : Nat) : (update m k v).length = m.length := by
  induction m with
  | nil => rfl
  | cons e t ih =>
    simp only [update]
    split
    · simp
    · simp [ih]

theorem length_assign_le (m : OffMap) (k v : Nat) : (assign m k v).length ≤ m.length + 1 := by
  unfold assign
  split
  · rw [length_update]; omega
  · rw [length_ordInsert]

theorem length_erase_le (m : OffMap) (k : Nat) : (erase m k).length ≤ m.length := by
  unfold erase
  exact List.length_filter_le _ _

end OffMap
namespace XCpSrc

theorem ReportResult_fields (s : XCpSrc) (sink : Sink) (st : XRootDStatus)
    (c : Option ChunkInfo) (r : XCpSrc × Sink) (h : s.ReportResult sink st c = some r) :
    r.1.pOngoing.length ≤ s.pOngoing.length ∧ r.1.pParallel = s.pParallel ∧
    r.1.pStolen = s.pStolen ∧ r.1.pCurrentOffset = s.pCurrentOffset ∧
    r.1.pBlkEnd = s.pBlkEnd := by
  unfold ReportResult at h
  by_cases hst : st.IsOK = true
  · simp only [hst, Bool.not_true, Bool.false_eq_true, if_false] at h
    by_cases hs : s.pStatus.IsOK = true
    · simp only [hs, Bool.not_true, Bool.false_eq_true, if_false] at h
      cases c with
      | none => simp at h
      | some c =>
        simp only [Option.some.injEq] at h
        subst h
        exact ⟨OffMap.length_erase_le _ _, rfl, rfl, rfl, rfl⟩
    · simp only [hs, Bool.not_false, if_true, Option.some.injEq] at h
      subst h
      exact ⟨le_refl _, rfl, rfl, rfl, rfl⟩
  · simp only [hst, Bool.not_false, if_true, Option.some.injEq] at h
    subst h
    exact ⟨le_refl _, rfl, rfl, rfl, rfl⟩

theorem readStolen_cap (fuel : Nat) : ∀ (s : XCpSrc) (sink : Sink) (rd : List XRootDStatus)
    (r : XCpSrc × Sink × List XRootDStatus),
    s.pOngoing.length ≤ s.pParallel → readStolen fuel s sink rd = some r →
    r.1.pOngoing.length ≤ r.1.pParallel ∧ r.1.pParallel = s.pParallel := by
  induction fuel with
  | zero =>
    intro s sink rd r hcap h
    unfold readStolen at h
    split at h
    · simp only [Option.some.injEq] at h; subst h; exact ⟨hcap, rfl⟩
    · split at h
      · simp at h
      · simp only [Option.some.injEq] at h; subst h; exact ⟨hcap, rfl⟩
  | succ n ih =>
    intro s sink rd r hcap h
    unfold readStolen at h
    split at h
    · simp only [Option.some.injEq] at h; subst h; exact ⟨hcap, rfl⟩
    · rename_i p rest hp
      split at h
      · rename_i hlt
        have hins : (OffMap.insert s.pOngoing p.1 p.2).length ≤ s.pParallel := by
          have := OffMap.length_insert_le s.pOngoing p.1 p.2
          omega
        simp only at h
        split at h
        · split at h
          · simp at h
          · rename_i s2 sink2 hrr
            have hf := ReportResult_fields _ _ _ _ _ hrr
            have := ih s2 sink2 rd.tail r (by simp only at hf; omega) h
            simp only at hf
            exact ⟨this.1, by rw [this.2, hf.2.1]⟩
        · have := ih _ sink rd.tail r (by simpa using hins) h
          exact ⟨this.1, by rw [this.2]⟩
      · simp only [Option.some.injEq] at h; subst h; exact ⟨hcap, rfl⟩

end XCpSrc
namespace XCpSrc

theorem readBlock_cap (fuel : Nat) : ∀ (s : XCpSrc) (sink : Sink) (rd : List XRootDStatus)
    (r : XCpSrc × Sink × List XRootDStatus),
    s.pOngoing.length ≤ s.pParallel → readBlock fuel s sink rd = some r →
    r.1.pOngoing.length ≤ r.1.pParallel ∧ r.1.pParallel = s.pParallel := by
  induction fuel with
  | zero =>
    intro s sink rd r hcap h
    unfold readBlock at h
    split at h
    · simp at h
    · simp only [Option.some.injEq] at h; subst h; exact ⟨hcap, rfl⟩
  | succ n ih =>
    intro s sink rd r hcap h
    unfold readBlock at h
    split at h
    · rename_i hc
      simp only at h
      have hins : ∀ v, (OffMap.assign s.pOngoing s.pCurrentOffset v).length ≤ s.pParallel := by
        intro v
        have := OffMap.length_assign_le s.pOngoing s.pCurrentOffset v
        omega
      split at h
      · split at h
        · simp at h
        · rename_i s2 sink2 hrr
          have hf := ReportResult_fields _ _ _ _ _ hrr
          simp only at hf
          have := ih s2 sink2 rd.tail r (by have := hins; rw [hf.2.1]; exact le_trans hf.1 (hins _)) h
          exact ⟨this.1, by rw [this.2, hf.2.1]⟩
      · have := ih _ sink rd.tail r (by simpa using hins _) h
        exact ⟨this.1, by rw [this.2]⟩
    · simp only [Option.some.injEq] at h; subst h; exact ⟨hcap, rfl⟩

theorem refreshStatus_fields (s : XCpSrc) :
    (refreshStatus s).pOngoing = s.pOngoing ∧ (refreshStatus s).pParallel = s.pParallel ∧
    (refreshStatus s).pStolen = s.pStolen ∧ (refreshStatus s).pCurrentOffset = s.pCurrentOffset ∧
    (refreshStatus s).pBlkEnd = s.pBlkEnd := by
  unfold refreshStatus
  split
  · split <;> exact ⟨rfl, rfl, rfl, rfl, rfl⟩
  · exact ⟨rfl, rfl, rfl, rfl, rfl⟩

theorem checkOpen_fields (s : XCpSrc) :
    (checkOpen s).pOngoing = s.pOngoing ∧ (checkOpen s).pParallel = s.pParallel ∧
    (checkOpen s).pStolen = s.pStolen ∧ (checkOpen s).pCurrentOffset = s.pCurrentOffset ∧
    (checkOpen s).pBlkEnd = s.pBlkEnd := by
  unfold checkOpen
  split <;> exact ⟨rfl, rfl, rfl, rfl, rfl⟩

theorem ReadChunk_cap (s : XCpSrc) (sink : Sink) (rd : List XRootDStatus)
    (r : XRootDStatus × XCpSrc × Sink) (hcap : s.pOngoing.length ≤ s.pParallel)
    (h : s.ReadChunk sink rd = some r) : r.2.1.pOngoing.length ≤ r.2.1.pParallel := by
  have hc := checkOpen_fields s
  have hcap0 : (checkOpen s).pOngoing.length ≤ (checkOpen s).pParallel := by
    rw [hc.1, hc.2.1]; exact hcap
  unfold ReadChunk at h
  split at h
  · simp only [Option.some.injEq] at h; subst h
    exact hcap0
  · split at h
    · simp at h
    · rename_i s1 sink1 rd1 h1
      split at h
      · simp at h
      · rename_i s2 sink2 rd2 h2
        simp only [Option.some.injEq] at h; subst h
        have c1 := readStolen_cap _ _ _ _ _ hcap0 h1
        have c2 := readBlock_cap _ _ _ _ _ c1.1 h2
        have hr := refreshStatus_fields s2
        simp only [hr.1, hr.2.1]
        exact c2.1

theorem Steal_ongoing (self : XCpSrc) (src : Option XCpSrc) (b : Bool) (s1 : XCpSrc)
    (v1 : Option XCpSrc) (h : self.Steal src = some (b, s1, v1)) :
    s1.pOngoing = self.pOngoing ∧ s1.pParallel = self.pParallel ∧
    ∀ v w, src = some v → v1 = some w →
      w.pOngoing.length ≤ v.pOngoing.length ∧ w.pParallel = v.pParallel := by
  unfold Steal at h
  cases src with
  | none =>
    simp only [Option.some.injEq, Prod.mk.injEq] at h
    obtain ⟨-, rfl, rfl⟩ := h
    exact ⟨rfl, rfl, by intro v w hv; cases hv⟩
  | some v =>
    simp only at h
    split at h
    · simp only [Option.some.injEq, Prod.mk.injEq] at h
      obtain ⟨-, rfl, rfl⟩ := h
      refine ⟨rfl, rfl, ?_⟩
      intro v0 w hv hw; cases hv; cases hw; exact ⟨le_refl _, rfl⟩
    · split at h
      · simp only [Option.some.injEq, Prod.mk.injEq] at h
        obtain ⟨-, rfl, rfl⟩ := h
        refine ⟨rfl, rfl, ?_⟩
        intro v0 w hv hw; cases hv; cases hw; exact ⟨Nat.zero_le _, rfl⟩
      · split at h
        · split at h
          · simp at h
          · simp only [Option.some.injEq, Prod.mk.injEq] at h
            obtain ⟨-, rfl, rfl⟩ := h
            refine ⟨rfl, rfl, ?_⟩
            intro v0 w hv hw; cases hv; cases hw; exact ⟨le_refl _, rfl⟩
        · split at h
          · simp only [Option.some.injEq, Prod.mk.injEq] at h
            obtain ⟨-, rfl, rfl⟩ := h
            refine ⟨rfl, rfl, ?_⟩
            intro v0 w hv hw; cases hv; cases hw; exact ⟨le_refl _, rfl⟩
          · split at h
            · simp only [Option.some.injEq, Prod.mk.injEq] at h
              obtain ⟨-, rfl, rfl⟩ := h
              refine ⟨rfl, rfl, ?_⟩
              intro v0 w hv hw; cases hv; cases hw; exact ⟨le_refl _, rfl⟩
            · simp only [Option.some.injEq, Prod.mk.injEq] at h
              obtain ⟨-, rfl, rfl⟩ := h
              refine ⟨rfl, rfl, ?_⟩
              intro v0 w hv hw; cases hv; cases hw; exact ⟨le_refl _, rfl⟩

end XCpSrc
namespace XCpSrc

theorem Steal_null (self : XCpSrc) : self.Steal none = some (false, self, none) := rfl

theorem Steal_done (self v : XCpSrc) (hok : v.pStatus.IsOK = true)
    (hcode : v.pStatus.code = suDone) : self.Steal (some v) = some (false, self, some v) := by
  simp [Steal, hok, hcode]

theorem Steal_error (self v : XCpSrc) (herr : v.pStatus.IsOK = false) :
    self.Steal (some v) = some (false,
      { self with
        pStolen := OffMap.insertAll (OffMap.insertAll self.pStolen v.pOngoing) v.pStolen,
        pCurrentOffset := v.pCurrentOffset, pBlkEnd := v.pBlkEnd },
      some { v with pOngoing := [], pStolen := [], pCurrentOffset := 0, pBlkEnd := 0 }) := by
  simp [Steal, herr]

theorem Steal_block (self v : XCpSrc) (hok : v.pStatus.IsOK = true)
    (hcode : v.pStatus.code ≠ suDone) (hblk : v.pCurrentOffset < v.pBlkEnd) :
    self.Steal (some v) =
      match stealAmount self v (sub64 v.pBlkEnd v.pCurrentOffset) with
      | none => none
      | some steal =>
        some (false,
          { self with pCurrentOffset := sub64 v.pBlkEnd steal, pBlkEnd := v.pBlkEnd },
          some { v with pBlkEnd := sub64 v.pBlkEnd steal }) := by
  simp [Steal, hok, hcode, hblk]

theorem Steal_stolen (self v : XCpSrc) (hok : v.pStatus.IsOK = true)
    (hcode : v.pStatus.code ≠ suDone) (hblk : v.pBlkEnd ≤ v.pCurrentOffset)
    (hst : v.pStolen ≠ []) :
    self.Steal (some v) =
      some (false, { self with pStolen := OffMap.insertAll self.pStolen v.pStolen },
        some { v with pStolen := [] }) := by
  have : ¬ v.pCurrentOffset < v.pBlkEnd := by omega
  simp [Steal, hok, hcode, this, hst]

theorem Steal_racing (self v : XCpSrc) (hok : v.pStatus.IsOK = true)
    (hcode : v.pStatus.code ≠ suDone) (hblk : v.pBlkEnd ≤ v.pCurrentOffset)
    (hst : v.pStolen = []) (hdt : v.pDataTransfered < self.pDataTransfered) :
    self.Steal (some v) =
      some (true, { self with pStolen := OffMap.insertAll self.pStolen v.pOngoing }, some v) := by
  have : ¬ v.pCurrentOffset < v.pBlkEnd := by omega
  simp [Steal, hok, hcode, this, hst, hdt]

theorem Steal_nothing (self v : XCpSrc) (hok : v.pStatus.IsOK = true)
    (hcode : v.pStatus.code ≠ suDone) (hblk : v.pBlkEnd ≤ v.pCurrentOffset)
    (hst : v.pStolen = []) (hdt : ¬ v.pDataTransfered < self.pDataTransfered) :
    self.Steal (some v) = some (false, self, some v) := by
  have : ¬ v.pCurrentOffset < v.pBlkEnd := by omega
  simp [Steal, hok, hcode, this, hst, hdt]

end XCpSrc

/-- C2: stealing from a source in error takes over all of its work. `Steal`
returns false; the thief's stolen map is its old stolen map merged with the
victim's ongoing map and then the victim's stolen map, an existing key keeping
its entry; the thief's block is the victim's block; the thief's ongoing map,
status and byte counter are unchanged; the victim is left without work. -/
theorem Steal_takes_over_failed (self v : XCpSrc) (herr : v.pStatus.IsOK = false) :
    ∃ s1 v1, self.Steal (some v) = some (false, s1, some v1) ∧
      s1.pStolen = OffMap.insertAll (OffMap.insertAll self.pStolen v.pOngoing) v.pStolen ∧
      (∀ k, OffMap.find s1.pStolen k =
        ((OffMap.find self.pStolen k).orElse fun _ => OffMap.find v.pOngoing k).orElse
          fun _ => OffMap.find v.pStolen k) ∧
      s1.pCurrentOffset = v.pCurrentOffset ∧ s1.pBlkEnd = v.pBlkEnd ∧
      s1.pOngoing = self.pOngoing ∧ s1.pStatus = self.pStatus ∧
      s1.pDataTransfered = self.pDataTransfered ∧
      v1.pCurrentOffset = 0 ∧ v1.pBlkEnd = 0 ∧ v1.pOngoing = [] ∧ v1.pStolen = [] ∧
      v1.HasWork = false := by
  refine ⟨_, _, XCpSrc.Steal_error self v herr, rfl, ?_, rfl, rfl, rfl, rfl, rfl, rfl, rfl, rfl,
    rfl, ?_⟩
  · intro k
    simp only [OffMap.find_insertAll]
  · simp [XCpSrc.HasWork]

/-- Witness of C2 on a failed source with one read in flight. -/
theorem Steal_takes_over_failed_witness :
    ∃ s1 v1, freshBlock.Steal (some failedVictim) = some (false, s1, some v1) ∧
      s1.pStolen = [(0, 512), (2048, 512)] ∧ s1.pCurrentOffset = 512 ∧ s1.pBlkEnd = 1024 ∧
      v1.HasWork = false := by
  obtain ⟨s1, v1, h, hs, -, hc, he, -, -, -, -, -, -, -, hw⟩ :=
    Steal_takes_over_failed freshBlock failedVictim (by decide)
  exact ⟨s1, v1, h, by rw [hs]; decide, by rw [hc]; decide, by rw [he]; decide, hw⟩

/-- Counterexample to C3 as stated: the thief already holds the stolen entry
`(0, 5)`; `Steal` returns true, yet the victim's ongoing entry `(0, 7)` is not
an entry of the thief's stolen map afterwards. -/
theorem Steal_true_keeps_existing_entry :
    clashThief.Steal (some clashVictim) = some (true, clashThief, some clashVictim) ∧
    (0, 7) ∈ clashVictim.pOngoing ∧ (0, 7) ∉ clashThief.pStolen := by
  decide

/-- C3 (amended): `Steal` returns true exactly when the victim is non-null, its
status is OK and not Done, it has no block, its stolen map is empty and the
thief has transferred more bytes.  Then the victim is unchanged, the thief's
block and ongoing map are unchanged, and the thief's stolen map is its old
stolen map with the victim's ongoing entries inserted: every offset of the
victim's ongoing map becomes a key, with the victim's length unless the offset
was already a key of the thief's stolen map, which keeps its entry. -/
theorem Steal_true_iff (self : XCpSrc) (src : Option XCpSrc) :
    ((∃ s1 v1, self.Steal src = some (true, s1, v1)) ↔
      ∃ v, src = some v ∧ v.pStatus.IsOK = true ∧ v.pStatus.code ≠ suDone ∧
        v.pBlkEnd ≤ v.pCurrentOffset ∧ v.pStolen = [] ∧
        v.pDataTransfered < self.pDataTransfered) ∧
    (∀ s1 v1, self.Steal src = some (true, s1, v1) →
      v1 = src ∧ s1.pCurrentOffset = self.pCurrentOffset ∧ s1.pBlkEnd = self.pBlkEnd ∧
      s1.pOngoing = self.pOngoing ∧
      ∀ v, src = some v →
        s1.pStolen = OffMap.insertAll self.pStolen v.pOngoing ∧
        ∀ k l, OffMap.find v.pOngoing k = some l →
          (OffMap.find s1.pStolen k).isSome = true ∧
          (OffMap.find self.pStolen k = none → OffMap.find s1.pStolen k = some l) ∧
          (∀ l0, OffMap.find self.pStolen k = some l0 → OffMap.find s1.pStolen k = some l0)) := by
  cases src with
  | none => simp [XCpSrc.Steal_null]
  | some v =>
    have key : ∀ (b : Bool) (t : XCpSrc) (w : Option XCpSrc),
        self.Steal (some v) = some (false, t, w) →
        ((∃ s1 v1, self.Steal (some v) = some (true, s1, v1)) ↔ False) ∧
        (∀ s1 v1, self.Steal (some v) = some (true, s1, v1) → False) := by
      intro b t w h
      rw [h]; simp
    by_cases hok : v.pStatus.IsOK = true
    · by_cases hcode : v.pStatus.code = suDone
      · have h := key false _ _ (XCpSrc.Steal_done self v hok hcode)
        exact ⟨h.1.trans ⟨False.elim, fun ⟨w, hw, _, hc, _⟩ => by cases hw; exact hc hcode⟩,
          fun s1 v1 hs => (h.2 s1 v1 hs).elim⟩
      · by_cases hblk : v.pCurrentOffset < v.pBlkEnd
        · have hS := XCpSrc.Steal_block self v hok hcode hblk
          have hno : ∀ s1 v1, self.Steal (some v) = some (true, s1, v1) → False := by
            intro s1 v1 h
            rw [hS] at h
            split at h <;> simp at h
          exact ⟨⟨fun ⟨s1, v1, h⟩ => (hno s1 v1 h).elim,
            fun ⟨w, hw, _, _, hle, _⟩ => by cases hw; omega⟩, fun s1 v1 h => (hno s1 v1 h).elim⟩
        · have hle : v.pBlkEnd ≤ v.pCurrentOffset := by omega
          by_cases hst : v.pStolen = []
          · by_cases hdt : v.pDataTransfered < self.pDataTransfered
            · have hS := XCpSrc.Steal_racing self v hok hcode hle hst hdt
              constructor
              · exact ⟨fun _ => ⟨v, rfl, hok, hcode, hle, hst, hdt⟩, fun _ => ⟨_, _, hS⟩⟩
              · intro s1 v1 h
                rw [hS] at h
                simp only [Option.some.injEq, Prod.mk.injEq, true_and] at h
                obtain ⟨rfl, rfl⟩ := h
                refine ⟨rfl, rfl, rfl, rfl, ?_⟩
                intro w hw; cases hw
                refine ⟨rfl, ?_⟩
                intro k l hkl
                simp only [OffMap.find_insertAll, hkl]
                cases hf : OffMap.find self.pStolen k <;> simp
            · have h := key false _ _ (XCpSrc.Steal_nothing self v hok hcode hle hst hdt)
              exact ⟨h.1.trans ⟨False.elim, fun ⟨w, hw, _, _, _, _, hlt⟩ => by
                cases hw; exact hdt hlt⟩, fun s1 v1 hs => (h.2 s1 v1 hs).elim⟩
          · have h := key false _ _ (XCpSrc.Steal_stolen self v hok hcode hle hst)
            exact ⟨h.1.trans ⟨False.elim, fun ⟨w, hw, _, _, _, he, _⟩ => by
              cases hw; exact hst he⟩, fun s1 v1 hs => (h.2 s1 v1 hs).elim⟩
    · have herr : v.pStatus.IsOK = false := by simpa using hok
      have h := key false _ _ (XCpSrc.Steal_error self v herr)
      exact ⟨h.1.trans ⟨False.elim, fun ⟨w, hw, hwok, _⟩ => by
        cases hw; exact hok hwok⟩, fun s1 v1 hs => (h.2 s1 v1 hs).elim⟩

/-- Witness of C3 (amended): a thief that has transferred 512 bytes steals
from a victim that only has the read `(0, 7)` in flight. -/
theorem Steal_true_iff_witness :
    ∃ s1 v1, ({ freshBlock with pDataTransfered := 512 } : XCpSrc).Steal (some clashVictim) =
        some (true, s1, v1) ∧ v1 = some clashVictim ∧ OffMap.find s1.pStolen 0 = some 7 := by
  have hS : ({ freshBlock with pDataTransfered := 512 } : XCpSrc).Steal (some clashVictim) =
      some (true, { ({ freshBlock with pDataTransfered := 512 } : XCpSrc) with
        pStolen := [(0, 7)] }, some clashVictim) := by decide
  have h := (Steal_true_iff { freshBlock with pDataTransfered := 512 } (some clashVictim)).2
    _ _ hS
  exact ⟨_, _, hS, h.1, ((h.2.2.2.2 clashVictim rfl).2 0 7 (by decide)).2.1 (by decide)⟩
theorem XCpSrc.Initialize_fields (s : XCpSrc) (fileSize : Int) :
    (s.Initialize fileSize).2.pOngoing = s.pOngoing ∧
    (s.Initialize fileSize).2.pParallel = s.pParallel ∧
    (s.Initialize fileSize).2.pStolen = s.pStolen ∧
    (s.Initialize fileSize).2.pCurrentOffset = s.pCurrentOffset ∧
    (s.Initialize fileSize).2.pBlkEnd = s.pBlkEnd ∧
    (s.Initialize fileSize).2.pStatus = s.pStatus := by
  unfold XCpSrc.Initialize
  split
  · exact ⟨rfl, rfl, rfl, rfl, rfl, rfl⟩
  · split
    · split <;> exact ⟨rfl, rfl, rfl, rfl, rfl, rfl⟩
    · exact ⟨rfl, rfl, rfl, rfl, rfl, rfl⟩

/-- C8: parallelism cap.  A source with at most `parallel` ongoing reads still
has at most `parallel` ongoing reads after `ReadChunk`, `ReportResult`,
`SetBlock` and `Steal` (as thief and as victim); a new source has no ongoing
read, so the bound holds in every reachable state of a source. -/
theorem parallelism_cap :
    (∀ s : XCpSrc, s.pOngoing.length ≤ s.pParallel →
      (∀ sink rd r, s.ReadChunk sink rd = some r → r.2.1.pOngoing.length ≤ r.2.1.pParallel) ∧
      (∀ sink st c r, s.ReportResult sink st c = some r →
        r.1.pOngoing.length ≤ r.1.pParallel) ∧
      (∀ offset size, (s.SetBlock offset size).pOngoing.length ≤
        (s.SetBlock offset size).pParallel) ∧
      (∀ v b s1 v1, s.Steal v = some (b, s1, v1) → s1.pOngoing.length ≤ s1.pParallel) ∧
      (∀ (t : XCpSrc) (b : Bool) (t1 s1 : XCpSrc), t.Steal (some s) = some (b, t1, some s1) →
        s1.pOngoing.length ≤ s1.pParallel)) ∧
    (∀ url chunkSize parallel, (XCpSrc.new url chunkSize parallel).pOngoing = []) ∧
    (∀ s, XCpSrc.Reach s → s.pOngoing.length ≤ s.pParallel) := by
  have step : ∀ s : XCpSrc, s.pOngoing.length ≤ s.pParallel →
      (∀ sink rd r, s.ReadChunk sink rd = some r → r.2.1.pOngoing.length ≤ r.2.1.pParallel) ∧
      (∀ sink st c r, s.ReportResult sink st c = some r →
        r.1.pOngoing.length ≤ r.1.pParallel) ∧
      (∀ offset size, (s.SetBlock offset size).pOngoing.length ≤
        (s.SetBlock offset size).pParallel) ∧
      (∀ v b s1 v1, s.Steal v = some (b, s1, v1) → s1.pOngoing.length ≤ s1.pParallel) ∧
      (∀ (t : XCpSrc) (b : Bool) (t1 s1 : XCpSrc), t.Steal (some s) = some (b, t1, some s1) →
        s1.pOngoing.length ≤ s1.pParallel) := by
    intro s hcap
    refine ⟨?_, ?_, ?_, ?_, ?_⟩
    · intro sink rd r h
      exact XCpSrc.ReadChunk_cap s sink rd r hcap h
    · intro sink st c r h
      have hf := XCpSrc.ReportResult_fields s sink st c r h
      rw [hf.2.1]; exact le_trans hf.1 hcap
    · intro offset size
      exact hcap
    · intro v b s1 v1 h
      have hf := XCpSrc.Steal_ongoing s v b s1 v1 h
      rw [hf.1, hf.2.1]; exact hcap
    · intro t b t1 s1 h
      have hf := (XCpSrc.Steal_ongoing t (some s) b t1 (some s1) h).2.2 s s1 rfl rfl
      rw [hf.2]; exact le_trans hf.1 hcap
  refine ⟨step, fun _ _ _ => rfl, ?_⟩
  intro s hs
  induction hs with
  | new url c p => exact Nat.zero_le _
  | opened fileSize _ ih =>
    rw [(XCpSrc.Initialize_fields _ fileSize).1, (XCpSrc.Initialize_fields _ fileSize).2.1]
    exact ih
  | setBlock offset size _ _ _ ih => exact ((step _ ih).2.2.1 offset size)
  | readChunk sink rd r _ h ih => exact (step _ ih).1 sink rd r h
  | reportResult sink st c r _ h ih => exact (step _ ih).2.1 sink st c r h
  | stealThief b s1 v1 _ _ h ih _ => exact (step _ ih).2.2.2.1 _ b s1 v1 h
  | stealVictim b s1 v1 _ _ h _ ih => exact (step _ ih).2.2.2.2 _ b s1 v1 h

/-- Witness of C8: `ReadChunk` on a fresh block of four chunks fills the four
slots and stays within the cap. -/
theorem parallelism_cap_witness :
    freshBlock.pOngoing.length ≤ freshBlock.pParallel ∧
    ∃ r, freshBlock.ReadChunk [] [] = some r ∧ r.2.1.pOngoing.length = 4 ∧
      r.2.1.pOngoing.length ≤ r.2.1.pParallel := by
  have hr : ∃ r, freshBlock.ReadChunk [] [] = some r ∧ r.2.1.pOngoing.length = 4 := by
    decide
  obtain ⟨r, h, h4⟩ := hr
  exact ⟨by decide, r, h, h4, (parallelism_cap.1 freshBlock (by decide)).1 [] [] r h⟩
namespace XCpSrc

theorem Steal_victim_status (t s : XCpSrc) (b : Bool) (t1 s1 : XCpSrc)
    (h : t.Steal (some s) = some (b, t1, some s1)) :
    s1.pStatus = s.pStatus ∧ (s.pStatus.isDone = true → s1 = s) := by
  by_cases hok : s.pStatus.IsOK = true
  · by_cases hcode : s.pStatus.code = suDone
    · rw [Steal_done t s hok hcode] at h
      simp only [Option.some.injEq, Prod.mk.injEq] at h
      obtain ⟨-, -, rfl⟩ := h
      exact ⟨rfl, fun _ => rfl⟩
    · have hnd : s.pStatus.isDone = false := by
        simp [XRootDStatus.isDone, hok, hcode]
      by_cases hblk : s.pCurrentOffset < s.pBlkEnd
      · rw [Steal_block t s hok hcode hblk] at h
        split at h
        · simp at h
        · simp only [Option.some.injEq, Prod.mk.injEq] at h
          obtain ⟨-, -, rfl⟩ := h
          exact ⟨rfl, fun hd => by rw [hnd] at hd; cases hd⟩
      · have hle : s.pBlkEnd ≤ s.pCurrentOffset := by omega
        by_cases hst : s.pStolen = []
        · by_cases hdt : s.pDataTransfered < t.pDataTransfered
          · rw [Steal_racing t s hok hcode hle hst hdt] at h
            simp only [Option.some.injEq, Prod.mk.injEq] at h
            obtain ⟨-, -, rfl⟩ := h
            exact ⟨rfl, fun _ => rfl⟩
          · rw [Steal_nothing t s hok hcode hle hst hdt] at h
            simp only [Option.some.injEq, Prod.mk.injEq] at h
            obtain ⟨-, -, rfl⟩ := h
            exact ⟨rfl, fun _ => rfl⟩
        · rw [Steal_stolen t s hok hcode hle hst] at h
          simp only [Option.some.injEq, Prod.mk.injEq] at h
          obtain ⟨-, -, rfl⟩ := h
          exact ⟨rfl, fun hd => by rw [hnd] at hd; cases hd⟩
  · have herr : s.pStatus.IsOK = false := by simpa using hok
    rw [Steal_error t s herr] at h
    simp only [Option.some.injEq, Prod.mk.injEq] at h
    obtain ⟨-, -, rfl⟩ := h
    exact ⟨rfl, fun hd => by simp [XRootDStatus.isDone, herr] at hd⟩

theorem refreshStatus_done (s : XCpSrc) (hok : (refreshStatus s).pStatus.IsOK = true) :
    ((refreshStatus s).pStatus.isDone = true ↔
      (refreshStatus s).pBlkEnd ≤ (refreshStatus s).pCurrentOffset ∧
      (refreshStatus s).pOngoing = [] ∧ (refreshStatus s).pStolen = []) := by
  unfold refreshStatus at hok ⊢
  split
  · split
    · rename_i hw
      constructor
      · intro hd; simp [XRootDStatus.isDone, suContinue, suDone] at hd
      · rintro ⟨h1, h2, h3⟩
        simp only at h1 h2 h3
        rcases hw with hw | hw | hw
        · omega
        · exact absurd h2 hw
        · exact absurd h3 hw
    · rename_i hw
      simp only [not_or, not_not, not_lt] at hw
      constructor
      · intro _; exact hw
      · intro _; simp [XRootDStatus.isDone, XRootDStatus.IsOK, stOK]
  · rename_i hn
    simp only [hn, if_false] at hok
    exact absurd hok hn

theorem ReadChunk_status (s : XCpSrc) (sink : Sink) (rd : List XRootDStatus)
    (r : XRootDStatus × XCpSrc × Sink) (h : s.ReadChunk sink rd = some r) :
    r.2.1.pStatus = r.1 ∧
    (r.1.IsOK = true →
      (r.2.1.pStatus.isDone = true ↔
        r.2.1.pBlkEnd ≤ r.2.1.pCurrentOffset ∧ r.2.1.pOngoing = [] ∧ r.2.1.pStolen = [])) := by
  unfold ReadChunk at h
  split at h
  · rename_i hbad
    simp only [Option.some.injEq] at h; subst h
    refine ⟨rfl, ?_⟩
    intro hok
    simp only at hok
    simp [hok] at hbad
  · split at h
    · simp at h
    · split at h
      · simp at h
      · rename_i s2 sink2 rd2 h2
        simp only [Option.some.injEq] at h; subst h
        exact ⟨rfl, fun hok => refreshStatus_done s2 hok⟩

end XCpSrc

/-- Counterexample to C7 as stated: after the only chunk of the block `[0, 10)`
has been issued by `ReadChunk` and its completion reported, the state is
reachable, cur == end and both maps are empty, but the status is still
`Continue`. -/
theorem status_not_done_after_completion :
    XCpSrc.Reach oneChunkDelivered ∧ oneChunkDelivered.pStatus.isDone = false ∧
    oneChunkDelivered.pCurrentOffset = oneChunkDelivered.pBlkEnd ∧
    oneChunkDelivered.pOngoing = [] ∧ oneChunkDelivered.pStolen = [] := by
  refine ⟨?_, by decide, by decide, by decide, by decide⟩
  have h1 : XCpSrc.Reach (XCpSrc.new urlOk 10 1) := XCpSrc.Reach.new urlOk 10 1
  have h2 := XCpSrc.Reach.opened (-1) h1
  have h3 := XCpSrc.Reach.setBlock 0 10 (by decide) (by decide) h2
  have h4 := XCpSrc.Reach.readChunk [] [] (⟨stOK, suContinue⟩, oneChunkIssued, []) h3 (by decide)
  exact XCpSrc.Reach.reportResult [] XRootDStatus.ok (some ⟨0, 10⟩)
    (oneChunkDelivered, [some ⟨0, 10⟩]) h4 (by decide)

/-- C7 (amended): in every state of a source reachable from construction
through `SetBlock`, `ReadChunk`, `ReportResult` and `Steal` as victim, the
status `Done` implies that no block is left (cur >= end) and that the ongoing
and the stolen map are empty; and right after a `ReadChunk` that returns an OK
status the status is `Done` if and only if cur >= end and both maps are
empty. -/
theorem status_coherence :
    (∀ s, XCpSrc.ReachVictim s → s.pStatus.isDone = true →
      s.pBlkEnd ≤ s.pCurrentOffset ∧ s.pOngoing = [] ∧ s.pStolen = []) ∧
    (∀ (s : XCpSrc) (sink : Sink) (rd : List XRootDStatus) (r : XRootDStatus × XCpSrc × Sink),
      s.ReadChunk sink rd = some r → r.1.IsOK = true →
      r.2.1.pStatus = r.1 ∧
      (r.2.1.pStatus.isDone = true ↔
        r.2.1.pBlkEnd ≤ r.2.1.pCurrentOffset ∧ r.2.1.pOngoing = [] ∧ r.2.1.pStolen = [])) := by
  constructor
  · intro s hs
    induction hs with
    | new url c p => intro _; exact ⟨le_refl _, rfl, rfl⟩
    | @opened s0 fileSize _ ih =>
      have hf := XCpSrc.Initialize_fields s0 fileSize
      rw [hf.1, hf.2.2.1, hf.2.2.2.1, hf.2.2.2.2.1, hf.2.2.2.2.2]
      exact ih
    | setBlock offset size _ _ _ _ =>
      intro hd
      simp [XCpSrc.SetBlock, XRootDStatus.isDone, suContinue, suDone] at hd
    | readChunk sink rd r _ h _ =>
      intro hd
      have hr := XCpSrc.ReadChunk_status _ sink rd r h
      have hok : r.1.IsOK = true := by
        rw [← hr.1]
        simp only [XRootDStatus.isDone, Bool.and_eq_true] at hd
        exact hd.1
      exact (hr.2 hok).1 hd
    | @reportResult s0 sink st c r _ h ih =>
      intro hd
      unfold XCpSrc.ReportResult at h
      by_cases hst : st.IsOK = true
      · simp only [hst, Bool.not_true, Bool.false_eq_true, if_false] at h
        by_cases hs0 : s0.pStatus.IsOK = true
        · simp only [hs0, Bool.not_true, Bool.false_eq_true, if_false] at h
          cases c with
          | none => simp at h
          | some c =>
            simp only [Option.some.injEq] at h
            subst h
            have := ih hd
            exact ⟨this.1, by simp [this.2.1, OffMap.erase], this.2.2⟩
        · simp only [hs0, Bool.not_false, if_true, Option.some.injEq] at h
          subst h
          simp [XRootDStatus.isDone, hs0] at hd
      · simp only [hst, Bool.not_false, if_true, Option.some.injEq] at h
        subst h
        simp [XRootDStatus.isDone, hst] at hd
    | stealVictim b t1 s1 _ _ h ih =>
      intro hd
      have hv := XCpSrc.Steal_victim_status _ _ b t1 s1 h
      rw [hv.1] at hd
      rw [hv.2 hd]
      exact ih hd
  · intro s sink rd r h hok
    have hr := XCpSrc.ReadChunk_status s sink rd r h
    exact ⟨hr.1, hr.2 hok⟩

/-- Witness of C7 (amended): after `ReadChunk` on a source without work the
status is `Done` and nothing is outstanding. -/
theorem status_coherence_witness :
    ∃ r, ((XCpSrc.new urlOk 10 1).Initialize (-1)).2.ReadChunk [] [] = some r ∧
      r.2.1.pStatus.isDone = true ∧ r.2.1.pBlkEnd ≤ r.2.1.pCurrentOffset ∧
      r.2.1.pOngoing = [] ∧ r.2.1.pStolen = [] := by
  have hr : ∃ r, ((XCpSrc.new urlOk 10 1).Initialize (-1)).2.ReadChunk [] [] = some r ∧
      r.2.1.pStatus.isDone = true := by decide
  obtain ⟨r, h, hd⟩ := hr
  have hreach : XCpSrc.ReachVictim r.2.1 :=
    XCpSrc.ReachVictim.readChunk [] [] r
      (XCpSrc.ReachVictim.opened (-1) (XCpSrc.ReachVictim.new urlOk 10 1)) h
  exact ⟨r, h, hd, status_coherence.1 r.2.1 hreach hd⟩
/-! ## Facts about the rounding of doubles -/

theorem ilog2Aux_spec (fuel : Nat) : ∀ n, n ≤ fuel → 0 < n →
    2 ^ ilog2Aux fuel n ≤ n ∧ n < 2 ^ (ilog2Aux fuel n + 1) := by
  induction fuel with
  | zero => intro n h1 h2; omega
  | succ f ih =>
    intro n hn hpos
    unfold ilog2Aux
    by_cases h2 : n < 2
    · simp only [h2, if_true]
      have : n = 1 := by omega
      subst this
      simp
    · simp only [h2, if_false]
      have hh := ih (n / 2) (by omega) (by omega)
      constructor
      · have : 2 ^ (ilog2Aux f (n / 2) + 1) = 2 * 2 ^ ilog2Aux f (n / 2) := by
          rw [pow_succ]; ring
        rw [this]
        omega
      · have : 2 ^ (ilog2Aux f (n / 2) + 1 + 1) = 2 * 2 ^ (ilog2Aux f (n / 2) + 1) := by
          rw [pow_succ]; ring
        rw [this]
        omega

theorem ilog2_spec (n : Nat) (h : 0 < n) : 2 ^ ilog2 n ≤ n ∧ n < 2 ^ (ilog2 n + 1) :=
  ilog2Aux_spec n n (le_refl n) h

theorem rneDiv_le (n d K : Nat) (hd : 0 < d) (h : n ≤ K * d) : rneDiv n d ≤ K := by
  have hdiv : n / d ≤ K := by
    have := Nat.div_le_div_right (c := d) h
    rwa [Nat.mul_div_cancel _ hd] at this
  have hmod := Nat.div_add_mod n d
  have hstrict : 0 < n % d → n / d + 1 ≤ K := by
    intro hm
    by_contra hc
    have hk : n / d = K := by omega
    rw [hk] at hmod
    have : d * K = K * d := Nat.mul_comm _ _
    omega
  unfold rneDiv
  split
  · exact hdiv
  · split
    · exact hstrict (by omega)
    · split
      · exact hdiv
      · exact hstrict (by omega)

theorem rneDiv_one (n : Nat) : rneDiv n 1 = n := by
  simp [rneDiv, Nat.mod_one]

theorem binade_small (p q : Nat) (hp : 0 < p) (hq : 0 < q) (h : p < exactBelow * q) :
    (binade p q).1 ≤ 52 + (binade p q).2 := by
  have hP := ilog2_spec p hp
  have hQ := ilog2_spec q hq
  unfold binade
  split
  · rename_i hle
    simp only
    by_contra hc
    have hge : 53 + ilog2 q ≤ ilog2 p := by omega
    have h1 : 2 ^ (53 + ilog2 q) ≤ 2 ^ ilog2 p := Nat.pow_le_pow_right (by norm_num) hge
    have h2 : (2 : Nat) ^ (53 + ilog2 q) = exactBelow * 2 ^ ilog2 q := by
      rw [pow_add]; rfl
    have h3 : q * (exactBelow * 2 ^ ilog2 q) ≤ q * 2 ^ ilog2 p := by
      rw [← h2]; exact Nat.mul_le_mul_left _ h1
    have h4 : p * 2 ^ ilog2 q < exactBelow * q * 2 ^ ilog2 q :=
      Nat.mul_lt_mul_of_pos_right h (by positivity)
    have h5 : q * (exactBelow * 2 ^ ilog2 q) = exactBelow * q * 2 ^ ilog2 q := by ring
    omega
  · simp only
    by_contra hc
    have hge : 54 + ilog2 q ≤ ilog2 p := by omega
    have h1 : 2 ^ (54 + ilog2 q) ≤ 2 ^ ilog2 p := Nat.pow_le_pow_right (by norm_num) hge
    have h2 : (2 : Nat) ^ (54 + ilog2 q) = exactBelow * 2 ^ (ilog2 q + 1) := by
      rw [show 54 + ilog2 q = 53 + (ilog2 q + 1) by omega, pow_add]; rfl
    have h3 : exactBelow * q < exactBelow * 2 ^ (ilog2 q + 1) :=
      Nat.mul_lt_mul_of_pos_left hQ.2 (by decide)
    omega

theorem roundFrac_den_pos (p q : Nat) : 0 < (roundFrac p q).2 := by
  unfold roundFrac
  split
  · decide
  · simp only
    split
    · exact Nat.pow_pos (by decide)
    · exact Nat.one_pos

theorem roundFrac_le (p q d : Nat) (hq : 0 < q) (hle : p ≤ d * q) (h : p < exactBelow * q) :
    (roundFrac p q).1 ≤ d * (roundFrac p q).2 := by
  unfold roundFrac
  split
  · simp
  · rename_i hp
    have hb := binade_small p q (by omega) hq h
    simp only [hb, if_true]
    apply rneDiv_le _ _ _ hq
    calc p * 2 ^ (52 + (binade p q).2 - (binade p q).1)
        ≤ d * q * 2 ^ (52 + (binade p q).2 - (binade p q).1) := Nat.mul_le_mul_right _ hle
      _ = d * 2 ^ (52 + (binade p q).2 - (binade p q).1) * q := by ring

theorem roundFrac_exact (n : Nat) (h : n < exactBelow) :
    ∃ k, 0 < k ∧ roundFrac n 1 = (n * k, k) := by
  unfold roundFrac
  split
  · rename_i h0
    exact ⟨1, by decide, by simp [h0]⟩
  · rename_i hp
    have hb := binade_small n 1 (by omega) (by decide) (by omega)
    simp only [hb, if_true, rneDiv_one]
    exact ⟨_, Nat.pow_pos (by decide), rfl⟩
theorem XCpSrc.stealAmount_le (self v : XCpSrc) (r : Nat) (hr : r < exactBelow)
    (hpos : 0 < self.pDataTransfered + v.pDataTransfered)
    (hsum : self.pDataTransfered + v.pDataTransfered < exactBelow) :
    ∃ steal, XCpSrc.stealAmount self v r = some steal ∧ steal ≤ r ∧
      (r ≤ self.pChunkSize → steal = r) := by
  unfold XCpSrc.stealAmount
  by_cases hc : r ≤ self.pChunkSize
  · simp only [hc, if_true]
    exact ⟨r, rfl, le_refl _, fun _ => rfl⟩
  · simp only [hc, if_false]
    have hadd : add64 self.pDataTransfered v.pDataTransfered =
        self.pDataTransfered + v.pDataTransfered := by
      unfold add64 U64
      unfold exactBelow at hsum
      omega
    rw [hadd]
    obtain ⟨k1, hk1, e1⟩ := roundFrac_exact self.pDataTransfered (by omega)
    obtain ⟨k2, hk2, e2⟩ := roundFrac_exact (self.pDataTransfered + v.pDataTransfered) hsum
    obtain ⟨k3, hk3, e3⟩ := roundFrac_exact r hr
    have hne : (self.pDataTransfered + v.pDataTransfered) * k2 ≠ 0 :=
      Nat.mul_ne_zero (by omega) (by omega)
    simp only [Dbl.ofUInt64, Dbl.round, e1, e2, e3, Dbl.div, hne, if_false, Dbl.mul]
    -- the quotient is at most one
    have hQpos : 0 < k1 * ((self.pDataTransfered + v.pDataTransfered) * k2) :=
      Nat.mul_pos hk1 (Nat.pos_of_ne_zero hne)
    have hPQ : self.pDataTransfered * k1 * k2 ≤
        1 * (k1 * ((self.pDataTransfered + v.pDataTransfered) * k2)) := by
      have : self.pDataTransfered * k1 * k2 = k1 * (self.pDataTransfered * k2) := by ring
      rw [this, Nat.one_mul]
      exact Nat.mul_le_mul_left _ (Nat.mul_le_mul_right _ (by omega))
    have hF := roundFrac_le _ _ 1 hQpos hPQ (by unfold exactBelow; omega)
    have hFd := roundFrac_den_pos (self.pDataTransfered * k1 * k2)
      (k1 * ((self.pDataTransfered + v.pDataTransfered) * k2))
    generalize roundFrac (self.pDataTransfered * k1 * k2)
      (k1 * ((self.pDataTransfered + v.pDataTransfered) * k2)) = F at hF hFd ⊢
    -- the product is at most r
    have hQ2 : 0 < F.2 * k3 := Nat.mul_pos hFd hk3
    have hP2 : F.1 * (r * k3) ≤ r * (F.2 * k3) := by
      have : F.1 * (r * k3) = r * (F.1 * k3) := by ring
      rw [this]
      exact Nat.mul_le_mul_left _ (Nat.mul_le_mul_right _ (by omega))
    have hlt : F.1 * (r * k3) < exactBelow * (F.2 * k3) :=
      lt_of_le_of_lt hP2 (Nat.mul_lt_mul_of_pos_right hr hQ2)
    have hR := roundFrac_le _ _ r hQ2 hP2 hlt
    have hRd := roundFrac_den_pos (F.1 * (r * k3)) (F.2 * k3)
    generalize roundFrac (F.1 * (r * k3)) (F.2 * k3) = R at hR hRd ⊢
    have hdiv : R.1 / R.2 ≤ r := by
      have := Nat.div_le_div_right (c := R.2) hR
      rwa [Nat.mul_div_cancel _ hRd] at this
    have hU : R.1 / R.2 < U64 := by
      unfold U64; unfold exactBelow at hr; omega
    simp only [Dbl.toUInt64, hU, if_true]
    exact ⟨_, rfl, hdiv, fun h => h.elim⟩

set_option maxRecDepth 100000 in
/-- Counterexample to C1 as stated: the thief has transferred 1 byte, the
victim 48 bytes, and 49 bytes are left in the victim's block.  The claimed
amount is 1 * 49 / (1 + 48) = 1, so the thief's block would be `[48, 49)`, but
the double product (1.0 / 49.0) * 49.0 is below 1 and truncates to 0: the
thief's block is the empty `[49, 49)` and the victim keeps `[0, 49)`. -/
theorem Steal_fraction_truncates :
    fracThief.Steal (some fracVictim) =
      some (false, { fracThief with pCurrentOffset := 49, pBlkEnd := 49 }, some fracVictim) ∧
    fracThief.pChunkSize < fracVictim.pBlkEnd - fracVictim.pCurrentOffset ∧
    fracThief.pDataTransfered * (fracVictim.pBlkEnd - fracVictim.pCurrentOffset) /
      (fracThief.pDataTransfered + fracVictim.pDataTransfered) = 1 := by
  decide

/-- C1 (amended): suffix split.  For every thief and every victim whose status
is OK and not Done and whose block is non-empty, with remainder r = end - cur,
and, when r exceeds the thief's chunk size, with r and the sum of the two byte
counters below 2^53 and that sum positive: `Steal` returns false; the amount
`steal` is r if r <= chunk_size and otherwise the double product
(double(a) / double(a + b)) * double(r) truncated to an integer; steal <= r;
the thief's block becomes `[end - steal, end)` and the victim's block
`[cur, end - steal)`, which are disjoint and whose union is the victim's former
block; the other fields of both sources, the ongoing and stolen maps among
them, are unchanged. -/
theorem Steal_suffix_split (self v : XCpSrc) (hok : v.pStatus.IsOK = true)
    (hcode : v.pStatus.code ≠ suDone) (hblk : v.pCurrentOffset < v.pBlkEnd)
    (hend : v.pBlkEnd < U64)
    (hexact : self.pChunkSize < v.pBlkEnd - v.pCurrentOffset →
      v.pBlkEnd - v.pCurrentOffset < exactBelow ∧
      0 < self.pDataTransfered + v.pDataTransfered ∧
      self.pDataTransfered + v.pDataTransfered < exactBelow) :
    ∃ steal,
      self.Steal (some v) =
        some (false, { self with pCurrentOffset := v.pBlkEnd - steal, pBlkEnd := v.pBlkEnd },
          some { v with pBlkEnd := v.pBlkEnd - steal }) ∧
      (v.pBlkEnd - v.pCurrentOffset ≤ self.pChunkSize → steal = v.pBlkEnd - v.pCurrentOffset) ∧
      (self.pChunkSize < v.pBlkEnd - v.pCurrentOffset →
        (Dbl.mul
          (Dbl.div (Dbl.ofUInt64 self.pDataTransfered)
            (Dbl.ofUInt64 (self.pDataTransfered + v.pDataTransfered)))
          (Dbl.ofUInt64 (v.pBlkEnd - v.pCurrentOffset))).toUInt64 = some steal) ∧
      steal ≤ v.pBlkEnd - v.pCurrentOffset ∧
      (∀ x, (v.pCurrentOffset ≤ x ∧ x < v.pBlkEnd) ↔
        ((v.pCurrentOffset ≤ x ∧ x < v.pBlkEnd - steal) ∨
          (v.pBlkEnd - steal ≤ x ∧ x < v.pBlkEnd))) ∧
      (∀ x, ¬ ((v.pCurrentOffset ≤ x ∧ x < v.pBlkEnd - steal) ∧
          (v.pBlkEnd - steal ≤ x ∧ x < v.pBlkEnd))) := by
  have hsub : sub64 v.pBlkEnd v.pCurrentOffset = v.pBlkEnd - v.pCurrentOffset := by
    unfold sub64; unfold U64 at hend ⊢; omega
  have hS := XCpSrc.Steal_block self v hok hcode hblk
  rw [hsub] at hS
  have hamt : ∃ steal, XCpSrc.stealAmount self v (v.pBlkEnd - v.pCurrentOffset) = some steal ∧
      steal ≤ v.pBlkEnd - v.pCurrentOffset ∧
      (v.pBlkEnd - v.pCurrentOffset ≤ self.pChunkSize →
        steal = v.pBlkEnd - v.pCurrentOffset) := by
    by_cases hc : v.pBlkEnd - v.pCurrentOffset ≤ self.pChunkSize
    · exact ⟨_, by simp [XCpSrc.stealAmount, hc], le_refl _, fun _ => rfl⟩
    · obtain ⟨h1, h2, h3⟩ := hexact (by omega)
      exact XCpSrc.stealAmount_le self v _ h1 h2 h3
  obtain ⟨steal, hsteal, hle, hwhole⟩ := hamt
  have hsub2 : sub64 v.pBlkEnd steal = v.pBlkEnd - steal := by
    unfold sub64; unfold U64 at hend ⊢; omega
  refine ⟨steal, ?_, hwhole, ?_, hle, ?_, ?_⟩
  · rw [hS, hsteal]
    simp only [hsub2]
  · intro hc
    have hadd : add64 self.pDataTransfered v.pDataTransfered =
        self.pDataTransfered + v.pDataTransfered := by
      have := (hexact hc).2.2
      unfold add64 U64
      unfold exactBelow at this
      omega
    have : ¬ v.pBlkEnd - v.pCurrentOffset ≤ self.pChunkSize := by omega
    simp only [XCpSrc.stealAmount, this, if_false, hadd] at hsteal
    exact hsteal
  · intro x; omega
  · intro x; omega

/-- Witness of C1 (amended): the thief with one byte transferred takes nothing
of the 49 bytes left to a victim that has transferred 48 bytes. -/
theorem Steal_suffix_split_witness :
    ∃ steal, fracThief.Steal (some fracVictim) =
        some (false, { fracThief with pCurrentOffset := fracVictim.pBlkEnd - steal,
                                      pBlkEnd := fracVictim.pBlkEnd },
          some { fracVictim with pBlkEnd := fracVictim.pBlkEnd - steal }) ∧
      steal ≤ fracVictim.pBlkEnd - fracVictim.pCurrentOffset := by
  obtain ⟨steal, h, -, -, hle, -⟩ :=
    Steal_suffix_split fracThief fracVictim (by decide) (by decide) (by decide) (by decide)
      (fun _ => by decide)
  exact ⟨steal, h, hle⟩
/-! ## Facts about `Initialize` -/

theorem toUInt64_toInt64 (n : Nat) : toUInt64 (toInt64 n) = n % U64 := by
  unfold toUInt64 toInt64
  have hlt : n % U64 < U64 := Nat.mod_lt _ (by decide)
  unfold U64 at hlt ⊢
  split
  · omega
  · omega

theorem toUInt64_ofNat (i : Int) (h0 : 0 ≤ i) (h1 : i < (U64 : Int)) :
    toUInt64 i = i.toNat := by
  unfold toUInt64
  unfold U64 at h1 ⊢
  omega

namespace XCpCtx

theorem adjustBlockSize_eq (blockSize chunkSize size n : Nat) :
    adjustBlockSize blockSize chunkSize size n = max chunkSize (min blockSize (size / n)) := by
  unfold adjustBlockSize
  simp only
  split <;> split <;> omega


theorem initLoop_sources (parallelSrc chunkSize parallelChunks : Nat) (fileSize : Int)
    (urls : List Url) : ∀ (srcs : List XCpSrc) (s : XCpSrc),
    s ∈ (initLoop parallelSrc chunkSize parallelChunks fileSize urls srcs).2 →
    s ∈ srcs ∨ ∃ url ∈ urls,
      ((XCpSrc.new url chunkSize parallelChunks).Initialize fileSize).1.IsOK = true ∧
      s = ((XCpSrc.new url chunkSize parallelChunks).Initialize fileSize).2 := by
  induction urls with
  | nil => intro srcs s h; exact Or.inl h
  | cons url rest ih =>
    intro srcs s h
    unfold initLoop at h
    split at h
    · split at h
      · rename_i hok
        rcases ih _ s h with h1 | ⟨u, hu, h2⟩
        · rcases List.mem_append.mp h1 with h3 | h3
          · exact Or.inl h3
          · right
            refine ⟨url, List.mem_cons_self _ _, hok, ?_⟩
            simpa using h3
        · exact Or.inr ⟨u, List.mem_cons_of_mem _ hu, h2⟩
      · rcases ih _ s h with h1 | ⟨u, hu, h2⟩
        · exact Or.inl h1
        · exact Or.inr ⟨u, List.mem_cons_of_mem _ hu, h2⟩
    · exact Or.inl h

theorem Initialize_source_size (url : Url) (chunkSize parallel : Nat) (fileSize : Int)
    (hneg : fileSize < 0)
    (hok : ((XCpSrc.new url chunkSize parallel).Initialize fileSize).1.IsOK = true) :
    ((XCpSrc.new url chunkSize parallel).Initialize fileSize).2.GetSize = toInt64 url.statSize ∧
    ((XCpSrc.new url chunkSize parallel).Initialize fileSize).2.pUrl = url := by
  by_cases h1 : url.openStatus.IsOK = true
  · by_cases h2 : url.statStatus.IsOK = true
    · simp [XCpSrc.Initialize, XCpSrc.new, XCpSrc.GetSize, h1, h2, hneg]
    · simp [XCpSrc.Initialize, XCpSrc.new, h1, h2, hneg] at hok
  · simp [XCpSrc.Initialize, XCpSrc.new, h1] at hok

theorem Initialize_ok (ctx : XCpCtx) (fileSize : Int) (front : XCpSrc) (rest : List XCpSrc)
    (hs : (ctx.InitNewSrc fileSize).pSources = front :: rest) :
    ctx.Initialize fileSize =
      (XRootDStatus.ok,
        { ctx.InitNewSrc fileSize with
          pSize := if fileSize < 0 then toUInt64 front.GetSize else toUInt64 fileSize,
          pBlockSize := adjustBlockSize (ctx.InitNewSrc fileSize).pBlockSize
            (ctx.InitNewSrc fileSize).pChunkSize
            (if fileSize < 0 then toUInt64 front.GetSize else toUInt64 fileSize)
            (front :: rest).length,
          pSources := (assignBlocks
            (adjustBlockSize (ctx.InitNewSrc fileSize).pBlockSize
              (ctx.InitNewSrc fileSize).pChunkSize
              (if fileSize < 0 then toUInt64 front.GetSize else toUInt64 fileSize)
              (front :: rest).length)
            (if fileSize < 0 then toUInt64 front.GetSize else toUInt64 fileSize)
            (front :: rest) (ctx.InitNewSrc fileSize).pOffset).1,
          pOffset := (assignBlocks
            (adjustBlockSize (ctx.InitNewSrc fileSize).pBlockSize
              (ctx.InitNewSrc fileSize).pChunkSize
              (if fileSize < 0 then toUInt64 front.GetSize else toUInt64 fileSize)
              (front :: rest).length)
            (if fileSize < 0 then toUInt64 front.GetSize else toUInt64 fileSize)
            (front :: rest) (ctx.InitNewSrc fileSize).pOffset).2 }) := by
  unfold Initialize
  simp only [hs]

theorem Initialize_fail (ctx : XCpCtx) (fileSize : Int)
    (hs : (ctx.InitNewSrc fileSize).pSources = []) :
    (ctx.Initialize fileSize).1.IsOK = false := by
  unfold Initialize
  simp only [hs]
  rfl

end XCpCtx

/-- C10: block-size normalisation.  When `Initialize` of a new context
succeeds, at least one source has been initialised; the adopted size is the
`fileSize` argument when it is non-negative and the stat size of the first
source otherwise; and the block size used afterwards is
max(chunk_size, min(block_size, size / n)) for the n initialised sources. -/
theorem Initialize_block_size (urls : List Url)
    (blockSize parallelSrc chunkSize parallelChunks : Nat) (fileSize : Int)
    (hrange : fileSize < 9223372036854775808)
    (h : ((XCpCtx.new urls blockSize parallelSrc chunkSize parallelChunks).Initialize
      fileSize).1.IsOK = true) :
    ∃ front rest,
      ((XCpCtx.new urls blockSize parallelSrc chunkSize parallelChunks).InitNewSrc
        fileSize).pSources = front :: rest ∧
      (0 ≤ fileSize →
        ((XCpCtx.new urls blockSize parallelSrc chunkSize parallelChunks).Initialize
          fileSize).2.pSize = fileSize.toNat) ∧
      (fileSize < 0 →
        ((XCpCtx.new urls blockSize parallelSrc chunkSize parallelChunks).Initialize
          fileSize).2.pSize = front.pUrl.statSize % U64) ∧
      ((XCpCtx.new urls blockSize parallelSrc chunkSize parallelChunks).Initialize
        fileSize).2.pBlockSize =
        max (chunkSize % U32) (min (blockSize % U64)
          (((XCpCtx.new urls blockSize parallelSrc chunkSize parallelChunks).Initialize
            fileSize).2.pSize / (front :: rest).length)) := by
  have hsrc := XCpCtx.initLoop_sources (parallelSrc % U8) (chunkSize % U32) (parallelChunks % U8)
    fileSize urls []
  cases hsrcs : ((XCpCtx.new urls blockSize parallelSrc chunkSize parallelChunks).InitNewSrc
      fileSize).pSources with
  | nil =>
    rw [XCpCtx.Initialize_fail _ _ hsrcs] at h
    cases h
  | cons front rest =>
    rw [XCpCtx.Initialize_ok _ _ front rest hsrcs]
    refine ⟨front, rest, rfl, ?_, ?_, ?_⟩
    · intro h0
      have : ¬ fileSize < 0 := by omega
      simp only [this, if_false]
      exact toUInt64_ofNat fileSize h0 (by unfold U64; omega)
    · intro hneg
      simp only [hneg, if_true]
      have hmem : front ∈ (XCpCtx.initLoop (parallelSrc % U8) (chunkSize % U32)
          (parallelChunks % U8) fileSize urls []).2 := by
        have : ((XCpCtx.new urls blockSize parallelSrc chunkSize parallelChunks).InitNewSrc
          fileSize).pSources = (XCpCtx.initLoop (parallelSrc % U8) (chunkSize % U32)
          (parallelChunks % U8) fileSize urls []).2 := rfl
        rw [← this, hsrcs]; exact List.mem_cons_self _ _
      rcases hsrc front hmem with h1 | ⟨u, _, hok, he⟩
      · cases h1
      · have := XCpCtx.Initialize_source_size u _ _ fileSize hneg hok
        rw [he, this.1, this.2, toUInt64_toInt64]
    · simp only [XCpCtx.adjustBlockSize_eq]
      rfl

/-- Witness of C10: two replicas of 4096 bytes, block size 1024 and chunk size
512 give the size 4096 and the block size 1024. -/
theorem Initialize_block_size_witness :
    ((XCpCtx.new [url4096, url4096] 1024 2 512 2).Initialize (-1)).2.pSize = 4096 ∧
    ((XCpCtx.new [url4096, url4096] 1024 2 512 2).Initialize (-1)).2.pBlockSize = 1024 := by
  obtain ⟨front, rest, hs, -, hneg, hblk⟩ :=
    Initialize_block_size [url4096, url4096] 1024 2 512 2 (-1) (by decide) (by decide)
  have hfront : front = ((XCpSrc.new url4096 512 2).Initialize (-1)).2 ∧
      rest = [((XCpSrc.new url4096 512 2).Initialize (-1)).2] := by
    have : ((XCpCtx.new [url4096, url4096] 1024 2 512 2).InitNewSrc (-1)).pSources =
        [((XCpSrc.new url4096 512 2).Initialize (-1)).2,
         ((XCpSrc.new url4096 512 2).Initialize (-1)).2] := by decide
    rw [this] at hs
    simp only [List.cons.injEq] at hs
    exact ⟨hs.1.symm, hs.2.symm⟩
  have hsize := hneg (by decide)
  rw [hfront.1] at hsize
  have hsz : ((XCpCtx.new [url4096, url4096] 1024 2 512 2).Initialize (-1)).2.pSize = 4096 := by
    rw [hsize]; decide
  refine ⟨hsz, ?_⟩
  rw [hblk, hsz, hfront.2]
  simp only [List.length_cons, List.length_nil]
  decide
/-! ## Facts about `GetChunk` -/

namespace XCpCtx

theorem AllocBlock_flags (ctx : XCpCtx) (i : Nat) (b : Bool) (ctx1 : XCpCtx)
    (h : ctx.AllocBlock i = some (b, ctx1)) :
    ctx1.pBewareDuplicates = ctx.pBewareDuplicates ∧ ctx1.pReceived = ctx.pReceived ∧
    ctx1.pSink = ctx.pSink ∧ ctx1.pSize = ctx.pSize ∧ ctx1.pBlockSize = ctx.pBlockSize ∧
    ctx1.pSources.length = ctx.pSources.length := by
  unfold AllocBlock at h
  split at h
  · simp at h
  · split at h
    · simp only [Option.some.injEq, Prod.mk.injEq] at h
      obtain ⟨-, rfl⟩ := h
      simp
    · split at h
      · split at h
        · simp at h
        · simp only [Option.some.injEq, Prod.mk.injEq] at h
          obtain ⟨-, rfl⟩ := h
          simp
      · split at h
        · simp only [Option.some.injEq, Prod.mk.injEq] at h
          obtain ⟨-, rfl⟩ := h
          simp
        · split at h
          · simp at h
          · split at h
            · simp at h
            · simp only [Option.some.injEq, Prod.mk.injEq] at h
              obtain ⟨-, rfl⟩ := h
              simp

theorem pumpSource_flags (ctx : XCpCtx) (i : Nat) (rd : List XRootDStatus) (ctx1 : XCpCtx)
    (h : ctx.pumpSource i rd = some ctx1) :
    (ctx.pBewareDuplicates = true → ctx1.pBewareDuplicates = true) ∧
    ctx1.pReceived = ctx.pReceived ∧ ctx1.pSources.length = ctx.pSources.length := by
  unfold pumpSource at h
  split at h
  · simp at h
  · split at h
    · simp at h
    · split at h
      · split at h
        · simp at h
        · rename_i b ctx2 ha
          have hf := AllocBlock_flags _ _ _ _ ha
          simp only [Option.some.injEq] at h
          subst h
          refine ⟨fun hb => ?_, hf.2.1, ?_⟩
          · show (ctx2.pBewareDuplicates || b) = true
            rw [hf.1]
            show (ctx.pBewareDuplicates || b) = true
            rw [hb]; rfl
          · show ctx2.pSources.length = ctx.pSources.length
            rw [hf.2.2.2.2.2]
            simp
      · simp only [Option.some.injEq] at h
        subst h
        exact ⟨id, rfl, by simp⟩

theorem pumpFrom_flags (n : Nat) : ∀ (i : Nat) (ctx : XCpCtx) (rds : List (List XRootDStatus))
    (ctx1 : XCpCtx), pumpFrom n i ctx rds = some ctx1 →
    (ctx.pBewareDuplicates = true → ctx1.pBewareDuplicates = true) ∧
    ctx1.pReceived = ctx.pReceived ∧ ctx1.pSources.length = ctx.pSources.length := by
  induction n with
  | zero =>
    intro i ctx rds ctx1 h
    simp only [pumpFrom, Option.some.injEq] at h
    subst h
    exact ⟨id, rfl, rfl⟩
  | succ n ih =>
    intro i ctx rds ctx1 h
    unfold pumpFrom at h
    split at h
    · simp at h
    · rename_i c hp
      have h1 := pumpSource_flags _ _ _ _ hp
      have h2 := ih _ _ _ _ h
      exact ⟨fun hb => h2.1 (h1.1 hb), by rw [h2.2.1, h1.2.1], by rw [h2.2.2, h1.2.2]⟩

theorem deliver_cases (ctx : XCpCtx) (st : XRootDStatus) (ci : Option ChunkInfo)
    (ctx1 : XCpCtx) (h : ctx.deliver = GetChunkResult.returned st ci ctx1) :
    ctx1.pBewareDuplicates = ctx.pBewareDuplicates ∧
    ((ci = none ∧ ctx1.pReceived = ctx.pReceived) ∨
      (∃ c, ci = some c ∧ st = ⟨stOK, suContinue⟩ ∧
        (ctx.pBewareDuplicates = true →
          c.offset ∉ ctx.pReceived ∧ ctx1.pReceived = c.offset :: ctx.pReceived))) := by
  unfold deliver at h
  split at h
  · cases h
  · simp only [GetChunkResult.returned.injEq] at h
    obtain ⟨-, rfl, rfl⟩ := h
    exact ⟨rfl, Or.inl ⟨rfl, rfl⟩⟩
  · rename_i chunk rest hs
    split at h
    · rename_i hb
      split at h
      · simp only [GetChunkResult.returned.injEq] at h
        obtain ⟨-, rfl, rfl⟩ := h
        exact ⟨rfl, Or.inl ⟨rfl, rfl⟩⟩
      · rename_i hmem
        simp only [GetChunkResult.returned.injEq] at h
        obtain ⟨rfl, rfl, rfl⟩ := h
        exact ⟨rfl, Or.inr ⟨chunk, rfl, rfl, fun _ => ⟨hmem, rfl⟩⟩⟩
    · rename_i hb
      simp only [GetChunkResult.returned.injEq] at h
      obtain ⟨rfl, rfl, rfl⟩ := h
      exact ⟨rfl, Or.inr ⟨chunk, rfl, rfl, fun hb2 => absurd hb2 hb⟩⟩

theorem GetChunk_cases (ctx : XCpCtx) (rds : List (List XRootDStatus)) (st : XRootDStatus)
    (ci : Option ChunkInfo) (ctx1 : XCpCtx)
    (h : ctx.GetChunk rds = GetChunkResult.returned st ci ctx1) :
    (ctx.pBewareDuplicates = true → ctx1.pBewareDuplicates = true) ∧
    ((ci = none ∧ ctx1.pReceived = ctx.pReceived) ∨
      (∃ c, ci = some c ∧ st = ⟨stOK, suContinue⟩ ∧
        (ctx.pBewareDuplicates = true →
          c.offset ∉ ctx.pReceived ∧ ctx1.pReceived = c.offset :: ctx.pReceived))) := by
  unfold GetChunk at h
  simp only at h
  split at h
  · simp only [GetChunkResult.returned.injEq] at h
    obtain ⟨-, rfl, rfl⟩ := h
    exact ⟨id, Or.inl ⟨rfl, rfl⟩⟩
  · split at h
    · cases h
    · rename_i ctx2 hp
      have hf := pumpFrom_flags _ _ _ _ _ hp
      have hb0 : ctx.pBewareDuplicates = true → ctx2.pBewareDuplicates = true := hf.1
      have hr0 : ctx2.pReceived = ctx.pReceived := hf.2.1
      split at h
      · simp only [GetChunkResult.returned.injEq] at h
        obtain ⟨-, rfl, rfl⟩ := h
        exact ⟨hb0, Or.inl ⟨rfl, hr0⟩⟩
      · have hd := deliver_cases _ _ _ _ h
        refine ⟨fun hb => by rw [hd.1]; exact hb0 hb, ?_⟩
        rcases hd.2 with ⟨h1, h2⟩ | ⟨c, h1, h2, h3⟩
        · exact Or.inl ⟨h1, by rw [h2, hr0]⟩
        · refine Or.inr ⟨c, h1, h2, fun hb => ?_⟩
          have := h3 (hb0 hb)
          rw [hr0] at this
          exact this

theorem GetChunk_blocked (ctx : XCpCtx) (rds : List (List XRootDStatus)) (ctx1 : XCpCtx)
    (h : ctx.GetChunk rds = GetChunkResult.blocked ctx1) :
    (ctx.pBewareDuplicates = true → ctx1.pBewareDuplicates = true) ∧
    ctx1.pReceived = ctx.pReceived := by
  unfold GetChunk at h
  simp only at h
  split at h
  · cases h
  · split at h
    · cases h
    · rename_i ctx2 hp
      have hf := pumpFrom_flags _ _ _ _ _ hp
      split at h
      · cases h
      · unfold deliver at h
        split at h
        · simp only [GetChunkResult.blocked.injEq] at h
          subst h
          exact ⟨hf.1, hf.2.1⟩
        · cases h
        · split at h
          · split at h <;> cases h
          · cases h

theorem complete_flags (ctx : XCpCtx) :
    (∀ i status response ctx1, ctx.completeLive i status response = some ctx1 →
      ctx1.pBewareDuplicates = ctx.pBewareDuplicates ∧ ctx1.pReceived = ctx.pReceived) ∧
    (∀ j status response ctx1, ctx.completeFailed j status response = some ctx1 →
      ctx1.pBewareDuplicates = ctx.pBewareDuplicates ∧ ctx1.pReceived = ctx.pReceived) := by
  constructor
  · intro i status response ctx1 h
    unfold completeLive at h
    split at h
    · simp at h
    · split at h
      · simp at h
      · simp only [Option.some.injEq] at h
        subst h
        exact ⟨rfl, rfl⟩
  · intro j status response ctx1 h
    unfold completeFailed at h
    split at h
    · simp at h
    · split at h
      · simp at h
      · simp only [Option.some.injEq] at h
        subst h
        exact ⟨rfl, rfl⟩

theorem Deliveries_distinct {ctx ctx2 : XCpCtx} {l : List ChunkInfo}
    (h : XCpCtx.Deliveries ctx l ctx2) : ctx.pBewareDuplicates = true →
    (l.map (fun c => c.offset)).Nodup ∧ ∀ c ∈ l, c.offset ∉ ctx.pReceived := by
  have key : ∀ (a : XCpCtx) (b : XCpCtx) (ci : Option ChunkInfo) (st : XRootDStatus)
      (l : List ChunkInfo),
      ((ci = none ∧ b.pReceived = a.pReceived) ∨
        (∃ c, ci = some c ∧ st = ⟨stOK, suContinue⟩ ∧
          (a.pBewareDuplicates = true →
            c.offset ∉ a.pReceived ∧ b.pReceived = c.offset :: a.pReceived))) →
      a.pBewareDuplicates = true →
      ((l.map (fun c => c.offset)).Nodup ∧ ∀ c ∈ l, c.offset ∉ b.pReceived) →
      ((ci.toList ++ l).map (fun c => c.offset)).Nodup ∧
        ∀ c ∈ ci.toList ++ l, c.offset ∉ a.pReceived := by
    intro a b ci st l hc hb ih
    rcases hc with ⟨h1, h2⟩ | ⟨c, h1, -, h3⟩
    · subst h1
      rw [h2] at ih
      simpa using ih
    · subst h1
      obtain ⟨hn, hr⟩ := h3 hb
      rw [hr] at ih
      simp only [Option.toList_some, List.singleton_append, List.map_cons, List.nodup_cons,
        List.mem_map, not_exists, not_and, List.mem_cons, forall_eq_or_imp]
      refine ⟨⟨?_, ih.1⟩, hn, ?_⟩
      · intro c2 hc2 heq
        have := ih.2 c2 hc2
        simp [heq] at this
      · intro c2 hc2
        have := ih.2 c2 hc2
        simp only [List.mem_cons, not_or] at this
        exact this.2
  induction h with
  | done ctx => intro _; simp
  | call rds st ci hg _ ih =>
    intro hb
    have hc := GetChunk_cases _ _ _ _ _ hg
    exact key _ _ ci st _ hc.2 hb (ih (hc.1 hb))
  | wait rds hg _ ih =>
    intro hb
    have hc := GetChunk_blocked _ _ _ hg
    have := ih (hc.1 hb)
    rw [hc.2] at this
    exact this
  | wake st ci hd _ ih =>
    intro hb
    have hc := deliver_cases _ _ _ _ hd
    exact key _ _ ci st _ hc.2 hb (ih (by rw [hc.1]; exact hb))
  | completeLive i status response hcmp _ ih =>
    intro hb
    have hc := (complete_flags _).1 _ _ _ _ hcmp
    have := ih (by rw [hc.1]; exact hb)
    rw [hc.2] at this
    exact this
  | completeFailed j status response hcmp _ ih =>
    intro hb
    have hc := (complete_flags _).2 _ _ _ _ hcmp
    have := ih (by rw [hc.1]; exact hb)
    rw [hc.2] at this
    exact this
  | completeReleased _ ih =>
    intro hb
    exact ih hb

end XCpCtx
/-- C5: duplicate filtering.  When `GetChunk` takes a chunk from the sink:
with `pBewareDuplicates` set, a chunk whose offset is already in `pReceived`
is dropped, `pReceived` is unchanged and the result is `Retry`; otherwise the
offset is added to `pReceived` and the result is `Continue` with that chunk;
with `pBewareDuplicates` clear the chunk is returned with `Continue` and
`pReceived` is not modified.  `GetChunk` ends with this step whenever it
neither fails nor returns `Done`.  Hence, from a state in which
`pBewareDuplicates` is set, the chunks returned with `Continue` along any run
have pairwise different offsets. -/
theorem duplicate_filtering :
    (∀ (ctx : XCpCtx) (chunk : ChunkInfo) (rest : Sink), ctx.pSink = some chunk :: rest →
      (ctx.pBewareDuplicates = true → chunk.offset ∈ ctx.pReceived →
        ctx.deliver = GetChunkResult.returned ⟨stOK, suRetry⟩ none { ctx with pSink := rest }) ∧
      (ctx.pBewareDuplicates = true → chunk.offset ∉ ctx.pReceived →
        ctx.deliver = GetChunkResult.returned ⟨stOK, suContinue⟩ (some chunk)
          { ctx with pSink := rest, pReceived := chunk.offset :: ctx.pReceived }) ∧
      (ctx.pBewareDuplicates = false →
        ctx.deliver = GetChunkResult.returned ⟨stOK, suContinue⟩ (some chunk)
          { ctx with pSink := rest })) ∧
    (∀ (ctx : XCpCtx) (rds : List (List XRootDStatus)) (ctx2 : XCpCtx),
      (ctx.RemoveFailed.InitNewSrc (toInt64 ctx.pSize)).pSources.isEmpty = false →
      XCpCtx.pumpFrom (ctx.RemoveFailed.InitNewSrc (toInt64 ctx.pSize)).pSources.length 0
        (ctx.RemoveFailed.InitNewSrc (toInt64 ctx.pSize)) rds = some ctx2 →
      ¬ (ctx2.AcumulateDone = ctx2.pSources.length ∧ ctx2.pSink.isEmpty = true) →
      ctx.GetChunk rds = ctx2.deliver) ∧
    (∀ (ctx ctx2 : XCpCtx) (l : List ChunkInfo), ctx.pBewareDuplicates = true →
      XCpCtx.Deliveries ctx l ctx2 → (l.map (fun c => c.offset)).Nodup) := by
  refine ⟨?_, ?_, ?_⟩
  · intro ctx chunk rest hs
    refine ⟨?_, ?_, ?_⟩
    · intro hb hm
      simp [XCpCtx.deliver, hs, hb, hm]
    · intro hb hm
      simp [XCpCtx.deliver, hs, hb, hm]
    · intro hb
      simp [XCpCtx.deliver, hs, hb]
  · intro ctx rds ctx2 hne hp hnd
    unfold XCpCtx.GetChunk
    simp only [hne, Bool.false_eq_true, if_false, hp, hnd]
  · intro ctx ctx2 l hb h
    exact (XCpCtx.Deliveries_distinct h hb).1

/-- Witness of C5: the chunk at offset 0 is queued twice while duplicates are
expected; the first delivery returns it with `Continue`, the second one is
dropped with `Retry`. -/
theorem duplicate_filtering_witness :
    dupCtx.deliver = GetChunkResult.returned ⟨stOK, suContinue⟩ (some ⟨0, 512⟩)
      { dupCtx with pSink := [some ⟨0, 512⟩], pReceived := [0] } ∧
    ({ dupCtx with pSink := [some ⟨0, 512⟩], pReceived := [0] } : XCpCtx).deliver =
      GetChunkResult.returned ⟨stOK, suRetry⟩ none { dupCtx with pSink := [], pReceived := [0] } :=
  ⟨(duplicate_filtering.1 dupCtx ⟨0, 512⟩ [some ⟨0, 512⟩] rfl).2.1 rfl (by decide),
   (duplicate_filtering.1 { dupCtx with pSink := [some ⟨0, 512⟩], pReceived := [0] }
      ⟨0, 512⟩ [] rfl).1 rfl (by decide)⟩

set_option maxRecDepth 100000 in
/-- C6, evaluation of the code: two replicas, a file of 6 bytes, blocks of 3
bytes, chunks of one byte and one read at a time; every read succeeds and no
source ever fails.  The states are written `staleCtx a b sink` with
`staleSrc code cur end data ongoing` for the two sources.  The second source
reads `3`, `4` and `5` and, while the read `(0, 1)` of the first source is
still in flight, steals its remainder `[1, 3)`.  The first source then has no
work; its attempts to steal from `[1, 3)` yield 0 bytes (the double products
`1/3 * 2` and `1/4 * 2` truncate to 0) until the second source has read byte
`1`.  In the sixth call the remainder `[2, 3)` is not larger than a chunk:
`ReadChunk` of the first source finds no work and sets the status `Done`,
`AllocBlock` lets it steal the block `[2, 3)`, and `Steal` leaves the status
`Done`; the second source has no work left, its `Steal` returns at once because
the first source is `Done`, and `GetChunk` returns `Done` with the block
`[2, 3)` outstanding: byte `2` has never been read.  In every state of the
scenario `RemoveFailed` erases nothing and has a defined result. -/
theorem GetChunk_done_with_stolen_work :
    (XCpCtx.new [urlOk, urlOk] 3 2 1 1).Initialize 6 =
      (XRootDStatus.ok, staleCtx (staleSrc 1 0 3 0 []) (staleSrc 1 3 6 0 []) []) ∧
    (staleCtx (staleSrc 1 0 3 0 []) (staleSrc 1 3 6 0 []) []).GetChunk [[], []] =
      GetChunkResult.blocked (staleCtx (staleSrc 1 1 3 0 [(0, 1)]) (staleSrc 1 4 6 0 [(3, 1)]) []) ∧
    (staleCtx (staleSrc 1 1 3 0 [(0, 1)]) (staleSrc 1 4 6 0 [(3, 1)]) []).completeLive 1
        XRootDStatus.ok (some ⟨3, 1⟩) =
      some (staleCtx (staleSrc 1 1 3 0 [(0, 1)]) (staleSrc 1 4 6 1 []) [some ⟨3, 1⟩]) ∧
    (staleCtx (staleSrc 1 1 3 0 [(0, 1)]) (staleSrc 1 4 6 1 []) [some ⟨3, 1⟩]).deliver =
      GetChunkResult.returned ⟨stOK, suContinue⟩ (some ⟨3, 1⟩)
        (staleCtx (staleSrc 1 1 3 0 [(0, 1)]) (staleSrc 1 4 6 1 []) []) ∧
    (staleCtx (staleSrc 1 1 3 0 [(0, 1)]) (staleSrc 1 4 6 1 []) []).GetChunk [[], []] =
      GetChunkResult.blocked (staleCtx (staleSrc 1 1 3 0 [(0, 1)]) (staleSrc 1 5 6 1 [(4, 1)]) []) ∧
    (staleCtx (staleSrc 1 1 3 0 [(0, 1)]) (staleSrc 1 5 6 1 [(4, 1)]) []).completeLive 1
        XRootDStatus.ok (some ⟨4, 1⟩) =
      some (staleCtx (staleSrc 1 1 3 0 [(0, 1)]) (staleSrc 1 5 6 2 []) [some ⟨4, 1⟩]) ∧
    (staleCtx (staleSrc 1 1 3 0 [(0, 1)]) (staleSrc 1 5 6 2 []) [some ⟨4, 1⟩]).deliver =
      GetChunkResult.returned ⟨stOK, suContinue⟩ (some ⟨4, 1⟩)
        (staleCtx (staleSrc 1 1 3 0 [(0, 1)]) (staleSrc 1 5 6 2 []) []) ∧
    (staleCtx (staleSrc 1 1 3 0 [(0, 1)]) (staleSrc 1 5 6 2 []) []).GetChunk [[], []] =
      GetChunkResult.blocked (staleCtx (staleSrc 1 1 1 0 [(0, 1)]) (staleSrc 1 1 3 2 [(5, 1)]) []) ∧
    (staleCtx (staleSrc 1 1 1 0 [(0, 1)]) (staleSrc 1 1 3 2 [(5, 1)]) []).completeLive 0
        XRootDStatus.ok (some ⟨0, 1⟩) =
      some (staleCtx (staleSrc 1 1 1 1 []) (staleSrc 1 1 3 2 [(5, 1)]) [some ⟨0, 1⟩]) ∧
    (staleCtx (staleSrc 1 1 1 1 []) (staleSrc 1 1 3 2 [(5, 1)]) [some ⟨0, 1⟩]).deliver =
      GetChunkResult.returned ⟨stOK, suContinue⟩ (some ⟨0, 1⟩)
        (staleCtx (staleSrc 1 1 1 1 []) (staleSrc 1 1 3 2 [(5, 1)]) []) ∧
    (staleCtx (staleSrc 1 1 1 1 []) (staleSrc 1 1 3 2 [(5, 1)]) []).GetChunk [[], []] =
      GetChunkResult.blocked (staleCtx (staleSrc 0 3 3 1 []) (staleSrc 1 1 3 2 [(5, 1)]) []) ∧
    (staleCtx (staleSrc 0 3 3 1 []) (staleSrc 1 1 3 2 [(5, 1)]) []).completeLive 1
        XRootDStatus.ok (some ⟨5, 1⟩) =
      some (staleCtx (staleSrc 0 3 3 1 []) (staleSrc 1 1 3 3 []) [some ⟨5, 1⟩]) ∧
    (staleCtx (staleSrc 0 3 3 1 []) (staleSrc 1 1 3 3 []) [some ⟨5, 1⟩]).deliver =
      GetChunkResult.returned ⟨stOK, suContinue⟩ (some ⟨5, 1⟩)
        (staleCtx (staleSrc 0 3 3 1 []) (staleSrc 1 1 3 3 []) []) ∧
    (staleCtx (staleSrc 0 3 3 1 []) (staleSrc 1 1 3 3 []) []).GetChunk [[], []] =
      GetChunkResult.blocked (staleCtx (staleSrc 0 3 3 1 []) (staleSrc 1 2 3 3 [(1, 1)]) []) ∧
    (staleCtx (staleSrc 0 3 3 1 []) (staleSrc 1 2 3 3 [(1, 1)]) []).completeLive 1
        XRootDStatus.ok (some ⟨1, 1⟩) =
      some (staleCtx (staleSrc 0 3 3 1 []) (staleSrc 1 2 3 4 []) [some ⟨1, 1⟩]) ∧
    (staleCtx (staleSrc 0 3 3 1 []) (staleSrc 1 2 3 4 []) [some ⟨1, 1⟩]).deliver =
      GetChunkResult.returned ⟨stOK, suContinue⟩ (some ⟨1, 1⟩)
        (staleCtx (staleSrc 0 3 3 1 []) (staleSrc 1 2 3 4 []) []) ∧
    (staleCtx (staleSrc 0 3 3 1 []) (staleSrc 1 2 3 4 []) []).GetChunk [[], []] =
      GetChunkResult.returned ⟨stOK, suDone⟩ none
        (staleCtx (staleSrc 0 2 3 1 []) (staleSrc 0 2 2 4 []) []) ∧
    (staleSrc 0 2 3 1 []).HasWork = true ∧
    (staleSrc 0 2 3 1 []).HasBlock = true ∧
    (∀ (c1 u1 e1 d1 c2 u2 e2 d2 : Nat) (o1 o2 : OffMap) (sink : Sink),
      (staleCtx (staleSrc c1 u1 e1 d1 o1) (staleSrc c2 u2 e2 d2 o2) sink).RemoveFailedStrict =
        some (staleCtx (staleSrc c1 u1 e1 d1 o1) (staleSrc c2 u2 e2 d2 o2) sink)) := by
  refine ⟨by decide!, by decide!, by decide!, by decide!, by decide!, by decide!, by decide!, by decide!, by decide!, by decide!, by decide!, by decide!, by decide!, by decide!, by decide!, by decide!, by decide!, by decide!, by decide!, ?_⟩
  intro c1 u1 e1 d1 c2 u2 e2 d2 o1 o2 sink
  rfl

/-! ## Facts about the multiplicity of a byte -/

namespace OffMap

theorem count_nil (x : Nat) : count [] x = 0 := rfl

theorem count_cons (e : Nat × Nat) (t : OffMap) (x : Nat) :
    count (e :: t) x = (if e.1 ≤ x ∧ x < e.1 + e.2 then 1 else 0) + count t x := by
  unfold count
  by_cases h : e.1 ≤ x ∧ x < e.1 + e.2
  · simp [List.filter_cons, h]; omega
  · simp [List.filter_cons, h]

theorem count_ordInsert (m : OffMap) (k v x : Nat) :
    count (ordInsert m k v) x = (if k ≤ x ∧ x < k + v then 1 else 0) + count m x := by
  induction m with
  | nil => simp [ordInsert, count_cons, count_nil]
  | cons e t ih =>
    simp only [ordInsert]
    split
    · simp only [count_cons]
    · simp only [count_cons, ih]; omega

theorem count_insert_le (m : OffMap) (k v x : Nat) :
    count (insert m k v) x ≤ (if k ≤ x ∧ x < k + v then 1 else 0) + count m x := by
  unfold insert
  split
  · omega
  · rw [count_ordInsert]

theorem count_update_le (m : OffMap) (k v x : Nat) :
    count (update m k v) x ≤ (if k ≤ x ∧ x < k + v then 1 else 0) + count m x := by
  induction m with
  | nil => simp [update, count_nil]
  | cons e t ih =>
    simp only [update]
    split
    · rename_i hk
      simp only [count_cons, hk]
      split <;> split <;> omega
    · simp only [count_cons]; omega

theorem count_assign_le (m : OffMap) (k v x : Nat) :
    count (assign m k v) x ≤ (if k ≤ x ∧ x < k + v then 1 else 0) + count m x := by
  unfold assign
  split
  · exact count_update_le m k v x
  · rw [count_ordInsert]

theorem count_filter_le (p : Nat × Nat → Bool) (m : OffMap) (x : Nat) :
    count (m.filter p) x ≤ count m x := by
  induction m with
  | nil => simp
  | cons e t ih =>
    rw [List.filter_cons]
    split
    · rw [count_cons, count_cons]; omega
    · rw [count_cons]; omega

theorem count_erase_le (m : OffMap) (k x : Nat) : count (erase m k) x ≤ count m x :=
  count_filter_le _ m x

theorem count_insertAll_le (other m : OffMap) (x : Nat) :
    count (insertAll m other) x ≤ count m x + count other x := by
  induction other generalizing m with
  | nil => simp [insertAll, count_nil]
  | cons e t ih =>
    have hstep : insertAll m (e :: t) = insertAll (insert m e.1 e.2) t := rfl
    rw [hstep, count_cons]
    have h1 := ih (insert m e.1 e.2)
    have h2 := count_insert_le m e.1 e.2 x
    omega

theorem covers_iff_count (m : OffMap) (x : Nat) : covers m x ↔ 0 < count m x := by
  induction m with
  | nil => simp [covers, count_nil]
  | cons e t ih =>
    rw [count_cons]
    unfold covers at ih ⊢
    constructor
    · rintro ⟨e', he', h⟩
      rcases List.mem_cons.mp he' with rfl | ht
      · simp [h]
      · have := ih.mp ⟨e', ht, h⟩
        omega
    · intro h
      by_cases hc : e.1 ≤ x ∧ x < e.1 + e.2
      · exact ⟨e, List.mem_cons_self _ _, hc⟩
      · simp only [hc, if_false, Nat.zero_add] at h
        obtain ⟨e', he', h'⟩ := ih.mpr h
        exact ⟨e', List.mem_cons_of_mem _ he', h'⟩

theorem mem_ordInsert (m : OffMap) (k v : Nat) (e : Nat × Nat) (h : e ∈ ordInsert m k v) :
    e ∈ m ∨ e = (k, v) := by
  induction m with
  | nil => simp [ordInsert] at h; exact Or.inr h
  | cons a t ih =>
    simp only [ordInsert] at h
    split at h
    · rcases List.mem_cons.mp h with h1 | h1
      · exact Or.inr h1
      · exact Or.inl h1
    · rcases List.mem_cons.mp h with h1 | h1
      · exact Or.inl (h1 ▸ List.mem_cons_self _ _)
      · rcases ih h1 with h2 | h2
        · exact Or.inl (List.mem_cons_of_mem _ h2)
        · exact Or.inr h2

theorem mem_insert (m : OffMap) (k v : Nat) (e : Nat × Nat) (h : e ∈ insert m k v) :
    e ∈ m ∨ e = (k, v) := by
  unfold insert at h
  split at h
  · exact Or.inl h
  · exact mem_ordInsert m k v e h

theorem mem_update (m : OffMap) (k v : Nat) (e : Nat × Nat) (h : e ∈ update m k v) :
    e ∈ m ∨ e = (k, v) := by
  induction m with
  | nil => simp [update] at h
  | cons a t ih =>
    simp only [update] at h
    split at h
    · rename_i hk
      rcases List.mem_cons.mp h with h1 | h1
      · right; rw [h1, hk]
      · exact Or.inl (List.mem_cons_of_mem _ h1)
    · rcases List.mem_cons.mp h with h1 | h1
      · exact Or.inl (h1 ▸ List.mem_cons_self _ _)
      · rcases ih h1 with h2 | h2
        · exact Or.inl (List.mem_cons_of_mem _ h2)
        · exact Or.inr h2

theorem mem_assign (m : OffMap) (k v : Nat) (e : Nat × Nat) (h : e ∈ assign m k v) :
    e ∈ m ∨ e = (k, v) := by
  unfold assign at h
  split at h
  · exact mem_update m k v e h
  · exact mem_ordInsert m k v e h

theorem mem_erase (m : OffMap) (k : Nat) (e : Nat × Nat) (h : e ∈ erase m k) : e ∈ m := by
  unfold erase at h
  exact (List.mem_filter.mp h).1

theorem mem_insertAll (other m : OffMap) (e : Nat × Nat) (h : e ∈ insertAll m other) :
    e ∈ m ∨ e ∈ other := by
  induction other generalizing m with
  | nil => exact Or.inl h
  | cons a t ih =>
    have hstep : insertAll m (a :: t) = insertAll (insert m a.1 a.2) t := rfl
    rw [hstep] at h
    rcases ih _ h with h1 | h1
    · rcases mem_insert _ _ _ _ h1 with h2 | h2
      · exact Or.inl h2
      · exact Or.inr (h2 ▸ List.mem_cons_self _ _)
    · exact Or.inr (List.mem_cons_of_mem _ h1)

end OffMap
namespace XCpSrc

theorem mult_congr (s t : XCpSrc) (h1 : t.pCurrentOffset = s.pCurrentOffset)
    (h2 : t.pBlkEnd = s.pBlkEnd) (h3 : t.pOngoing = s.pOngoing) (h4 : t.pStolen = s.pStolen)
    (x : Nat) : t.mult x = s.mult x := by
  unfold mult; rw [h1, h2, h3, h4]

theorem within_congr (s t : XCpSrc) (K : Nat) (h0 : t.pChunkSize = s.pChunkSize)
    (h1 : t.pCurrentOffset = s.pCurrentOffset)
    (h2 : t.pBlkEnd = s.pBlkEnd) (h3 : t.pOngoing = s.pOngoing) (h4 : t.pStolen = s.pStolen)
    (h : s.within K) : t.within K := by
  unfold within at h ⊢; rw [h0, h1, h2, h3, h4]; exact h

theorem within_mono (s : XCpSrc) (K K1 : Nat) (hK : K ≤ K1) (h : s.within K) : s.within K1 := by
  obtain ⟨h1, h2, h3, h4⟩ := h
  exact ⟨h1, h2, le_trans h3 hK, fun e he => le_trans (h4 e he) hK⟩

theorem outstanding_iff_mult (s : XCpSrc) (x : Nat) : s.outstanding x ↔ 0 < s.mult x := by
  unfold outstanding mult
  rw [OffMap.covers_iff_count, OffMap.covers_iff_count]
  by_cases h : s.pCurrentOffset ≤ x ∧ x < s.pBlkEnd
  · simp [h]
  · simp only [h, if_false, false_or]; omega

theorem ReportResult_effect (s : XCpSrc) (sink : Sink) (st : XRootDStatus)
    (c : Option ChunkInfo) (r : XCpSrc × Sink) (h : s.ReportResult sink st c = some r) :
    r.1.pChunkSize = s.pChunkSize ∧ r.1.pCurrentOffset = s.pCurrentOffset ∧
    r.1.pBlkEnd = s.pBlkEnd ∧ r.1.pStolen = s.pStolen ∧
    (r.1.pOngoing = s.pOngoing ∨ ∃ k, r.1.pOngoing = OffMap.erase s.pOngoing k) ∧
    (st.IsOK = false → r.1.pOngoing = s.pOngoing ∧ r.1.pDataTransfered = s.pDataTransfered) := by
  unfold ReportResult at h
  by_cases hst : st.IsOK = true
  · simp only [hst, Bool.not_true, Bool.false_eq_true, if_false] at h
    by_cases hs : s.pStatus.IsOK = true
    · simp only [hs, Bool.not_true, Bool.false_eq_true, if_false] at h
      cases c with
      | none => simp at h
      | some c =>
        simp only [Option.some.injEq] at h
        subst h
        exact ⟨rfl, rfl, rfl, rfl, Or.inr ⟨_, rfl⟩, fun hf => by rw [hst] at hf; cases hf⟩
    · simp only [hs, Bool.not_false, if_true, Option.some.injEq] at h
      subst h
      exact ⟨rfl, rfl, rfl, rfl, Or.inl rfl, fun _ => ⟨rfl, rfl⟩⟩
  · simp only [hst, Bool.not_false, if_true, Option.some.injEq] at h
    subst h
    exact ⟨rfl, rfl, rfl, rfl, Or.inl rfl, fun _ => ⟨rfl, rfl⟩⟩

theorem ReportResult_mult (s : XCpSrc) (sink : Sink) (st : XRootDStatus)
    (c : Option ChunkInfo) (r : XCpSrc × Sink) (h : s.ReportResult sink st c = some r) :
    (∀ x, r.1.mult x ≤ s.mult x) ∧ (∀ K, s.within K → r.1.within K) := by
  obtain ⟨h0, h1, h2, h3, h4, -⟩ := ReportResult_effect s sink st c r h
  constructor
  · intro x
    unfold mult
    rw [h1, h2, h3]
    rcases h4 with h4 | ⟨k, h4⟩
    · rw [h4]
    · rw [h4]
      have := OffMap.count_erase_le s.pOngoing k x
      omega
  · intro K hw
    obtain ⟨w1, w2, w3, w4⟩ := hw
    refine ⟨by rw [h0]; exact w1, by rw [h1, h2]; exact w2, by rw [h2]; exact w3, ?_⟩
    intro e he
    rw [h3] at he
    apply w4
    rcases List.mem_append.mp he with he | he
    · rcases h4 with h4 | ⟨k, h4⟩
      · rw [h4] at he; exact List.mem_append_left _ he
      · rw [h4] at he; exact List.mem_append_left _ (OffMap.mem_erase _ _ _ he)
    · exact List.mem_append_right _ he

theorem readStolen_effect (fuel : Nat) : ∀ (s : XCpSrc) (sink : Sink) (rd : List XRootDStatus)
    (r : XCpSrc × Sink × List XRootDStatus) (K : Nat),
    s.within K → readStolen fuel s sink rd = some r →
    r.1.within K ∧ (∀ x, r.1.mult x ≤ s.mult x) ∧ r.1.pDataTransfered = s.pDataTransfered := by
  induction fuel with
  | zero =>
    intro s sink rd r K hw h
    unfold readStolen at h
    split at h
    · simp only [Option.some.injEq] at h; subst h; exact ⟨hw, fun _ => le_refl _, rfl⟩
    · split at h
      · simp at h
      · simp only [Option.some.injEq] at h; subst h; exact ⟨hw, fun _ => le_refl _, rfl⟩
  | succ n ih =>
    intro s sink rd r K hw h
    unfold readStolen at h
    split at h
    · simp only [Option.some.injEq] at h; subst h; exact ⟨hw, fun _ => le_refl _, rfl⟩
    · rename_i p rest hp
      split at h
      · simp only at h
        -- the entry moves from the stolen to the ongoing map
        have hw1 : ({ s with pOngoing := OffMap.insert s.pOngoing p.1 p.2, pStolen := rest } : XCpSrc).within K := by
          obtain ⟨w1, w2, w3, w4⟩ := hw
          refine ⟨w1, w2, w3, ?_⟩
          intro e he
          apply w4
          rw [hp]
          rcases List.mem_append.mp he with he | he
          · rcases OffMap.mem_insert _ _ _ _ he with h1 | h1
            · exact List.mem_append_left _ h1
            · exact List.mem_append_right _ (by rw [h1]; exact List.mem_cons_self _ _)
          · exact List.mem_append_right _ (List.mem_cons_of_mem _ he)
        have hm1 : ∀ x, ({ s with pOngoing := OffMap.insert s.pOngoing p.1 p.2, pStolen := rest } : XCpSrc).mult x ≤ s.mult x := by
          intro x
          unfold mult
          simp only [hp, OffMap.count_cons]
          have := OffMap.count_insert_le s.pOngoing p.1 p.2 x
          omega
        by_cases hbad : (rd.headD XRootDStatus.ok).IsOK = true
        · simp only [hbad, Bool.not_true, Bool.false_eq_true, if_false] at h
          have := ih _ sink rd.tail r K hw1 h
          exact ⟨this.1, fun x => le_trans (this.2.1 x) (hm1 x), this.2.2⟩
        · have hbad1 : (rd.headD XRootDStatus.ok).IsOK = false := by simpa using hbad
          simp only [hbad1, Bool.not_false, if_true] at h
          split at h
          · simp at h
          · rename_i s2 sink2 hrr
            have he := ReportResult_effect _ _ _ _ _ hrr
            have hr := ReportResult_mult _ _ _ _ _ hrr
            have := ih s2 sink2 rd.tail r K (hr.2 K hw1) h
            refine ⟨this.1, fun x => le_trans (this.2.1 x) (le_trans (hr.1 x) (hm1 x)), ?_⟩
            rw [this.2.2, (he.2.2.2.2.2 hbad1).2]
      · simp only [Option.some.injEq] at h; subst h; exact ⟨hw, fun _ => le_refl _, rfl⟩

theorem readBlock_effect (fuel : Nat) : ∀ (s : XCpSrc) (sink : Sink) (rd : List XRootDStatus)
    (r : XCpSrc × Sink × List XRootDStatus) (K : Nat), K + U32 ≤ U64 →
    s.within K → readBlock fuel s sink rd = some r →
    r.1.within K ∧ (∀ x, r.1.mult x ≤ s.mult x) ∧ r.1.pDataTransfered = s.pDataTransfered := by
  induction fuel with
  | zero =>
    intro s sink rd r K hK hw h
    unfold readBlock at h
    split at h
    · simp at h
    · simp only [Option.some.injEq] at h; subst h; exact ⟨hw, fun _ => le_refl _, rfl⟩
  | succ n ih =>
    intro s sink rd r K hK hw h
    unfold readBlock at h
    split at h
    · rename_i hc
      simp only at h
      obtain ⟨w1, w2, w3, w4⟩ := hw
      have hadd : add64 s.pCurrentOffset s.pChunkSize = s.pCurrentOffset + s.pChunkSize := by
        unfold add64; unfold U64 U32 at *; omega
      have hsub : sub64 s.pBlkEnd s.pCurrentOffset = s.pBlkEnd - s.pCurrentOffset := by
        unfold sub64; unfold U64 U32 at *; omega
      rw [hadd, hsub] at h
      generalize hcs : (if s.pBlkEnd < s.pCurrentOffset + s.pChunkSize
        then s.pBlkEnd - s.pCurrentOffset else s.pChunkSize) = cs at h
      have hcs1 : s.pCurrentOffset + cs ≤ s.pBlkEnd := by
        rw [← hcs]; split <;> omega
      have hadd2 : add64 s.pCurrentOffset cs = s.pCurrentOffset + cs := by
        unfold add64; unfold U64 U32 at *; omega
      rw [hadd2] at h
      have hw1 : ({ s with pOngoing := OffMap.assign s.pOngoing s.pCurrentOffset cs, pCurrentOffset := s.pCurrentOffset + cs } : XCpSrc).within K := by
        refine ⟨w1, hcs1, w3, ?_⟩
        intro e he
        rcases List.mem_append.mp he with he | he
        · rcases OffMap.mem_assign _ _ _ _ he with h1 | h1
          · exact w4 e (List.mem_append_left _ h1)
          · rw [h1]; simp only; omega
        · exact w4 e (List.mem_append_right _ he)
      have hm1 : ∀ x, ({ s with pOngoing := OffMap.assign s.pOngoing s.pCurrentOffset cs, pCurrentOffset := s.pCurrentOffset + cs } : XCpSrc).mult x ≤ s.mult x := by
        intro x
        unfold mult
        simp only
        have := OffMap.count_assign_le s.pOngoing s.pCurrentOffset cs x
        split <;> split <;> split at this <;> omega
      by_cases hbad : (rd.headD XRootDStatus.ok).IsOK = true
      · simp only [hbad, Bool.not_true, Bool.false_eq_true, if_false] at h
        have := ih _ sink rd.tail r K hK hw1 h
        exact ⟨this.1, fun x => le_trans (this.2.1 x) (hm1 x), this.2.2⟩
      · have hbad1 : (rd.headD XRootDStatus.ok).IsOK = false := by simpa using hbad
        simp only [hbad1, Bool.not_false, if_true] at h
        split at h
        · simp at h
        · rename_i s2 sink2 hrr
          have he := ReportResult_effect _ _ _ _ _ hrr
          have hr := ReportResult_mult _ _ _ _ _ hrr
          have := ih s2 sink2 rd.tail r K hK (hr.2 K hw1) h
          refine ⟨this.1, fun x => le_trans (this.2.1 x) (le_trans (hr.1 x) (hm1 x)), ?_⟩
          rw [this.2.2, (he.2.2.2.2.2 hbad1).2]
    · simp only [Option.some.injEq] at h; subst h; exact ⟨hw, fun _ => le_refl _, rfl⟩

end XCpSrc
namespace XCpSrc

theorem ReadChunk_effect (s : XCpSrc) (sink : Sink) (rd : List XRootDStatus)
    (r : XRootDStatus × XCpSrc × Sink) (K : Nat) (hK : K + U32 ≤ U64) (hw : s.within K)
    (h : s.ReadChunk sink rd = some r) :
    r.2.1.within K ∧ (∀ x, r.2.1.mult x ≤ s.mult x) ∧
    r.2.1.pDataTransfered = s.pDataTransfered := by
  have hc := checkOpen_fields s
  have hcc : (checkOpen s).pChunkSize = s.pChunkSize ∧
      (checkOpen s).pDataTransfered = s.pDataTransfered := by
    unfold checkOpen; split <;> exact ⟨rfl, rfl⟩
  have hw0 : (checkOpen s).within K :=
    within_congr s _ K hcc.1 hc.2.2.2.1 hc.2.2.2.2 hc.1 hc.2.2.1 hw
  have hm0 : ∀ x, (checkOpen s).mult x = s.mult x :=
    mult_congr s _ hc.2.2.2.1 hc.2.2.2.2 hc.1 hc.2.2.1
  unfold ReadChunk at h
  split at h
  · simp only [Option.some.injEq] at h; subst h
    exact ⟨hw0, fun x => le_of_eq (hm0 x), hcc.2⟩
  · split at h
    · simp at h
    · rename_i s1 sink1 rd1 h1
      split at h
      · simp at h
      · rename_i s2 sink2 rd2 h2
        simp only [Option.some.injEq] at h; subst h
        have e1 := readStolen_effect _ _ _ _ _ K hw0 h1
        have e2 := readBlock_effect _ _ _ _ _ K hK e1.1 h2
        have hr := refreshStatus_fields s2
        have hrc : (refreshStatus s2).pChunkSize = s2.pChunkSize ∧
            (refreshStatus s2).pDataTransfered = s2.pDataTransfered := by
          unfold refreshStatus
          split
          · split <;> exact ⟨rfl, rfl⟩
          · exact ⟨rfl, rfl⟩
        refine ⟨within_congr s2 _ K hrc.1 hr.2.2.2.1 hr.2.2.2.2 hr.1 hr.2.2.1 e2.1, ?_, ?_⟩
        · intro x
          rw [mult_congr s2 _ hr.2.2.2.1 hr.2.2.2.2 hr.1 hr.2.2.1 x, ← hm0 x]
          exact le_trans (e2.2.1 x) (e1.2.1 x)
        · show (refreshStatus s2).pDataTransfered = s.pDataTransfered
          rw [hrc.2, e2.2.2, e1.2.2, hcc.2]

theorem stealAmount_some_le (self v : XCpSrc) (r steal : Nat) (hr : r < exactBelow)
    (hsum : self.pDataTransfered + v.pDataTransfered < exactBelow)
    (h : stealAmount self v r = some steal) : steal ≤ r := by
  by_cases hpos : 0 < self.pDataTransfered + v.pDataTransfered
  · obtain ⟨st, h1, h2, -⟩ := stealAmount_le self v r hr hpos hsum
    rw [h1] at h
    simp only [Option.some.injEq] at h
    omega
  · have ha : self.pDataTransfered = 0 := by omega
    have hb : v.pDataTransfered = 0 := by omega
    unfold stealAmount at h
    split at h
    · simp only [Option.some.injEq] at h; omega
    · rw [ha, hb] at h
      have : Dbl.div (Dbl.ofUInt64 0) (Dbl.ofUInt64 (add64 0 0)) = Dbl.nan := by decide
      rw [this] at h
      cases hd : Dbl.ofUInt64 r <;> rw [hd] at h <;> simp [Dbl.mul, Dbl.toUInt64] at h

theorem Steal_effect (t v : XCpSrc) (K : Nat) (b : Bool) (t1 : XCpSrc) (v1 : Option XCpSrc)
    (hK : K < exactBelow) (ht : t.within K) (hv : v.within K)
    (hsum : t.pDataTransfered + v.pDataTransfered < exactBelow)
    (h : t.Steal (some v) = some (b, t1, v1)) :
    ∃ w, v1 = some w ∧ t1.within K ∧ w.within K ∧
      t1.pDataTransfered = t.pDataTransfered ∧ w.pDataTransfered = v.pDataTransfered ∧
      (∀ x, t1.mult x ≤ t.mult x + v.mult x) ∧
      (b = false → ∀ x, t1.mult x + w.mult x ≤ t.mult x + v.mult x) := by
  obtain ⟨t0, t2, t3, t4⟩ := ht
  obtain ⟨v0, v2, v3, v4⟩ := hv
  by_cases hok : v.pStatus.IsOK = true
  · by_cases hcode : v.pStatus.code = suDone
    · rw [Steal_done t v hok hcode] at h
      simp only [Option.some.injEq, Prod.mk.injEq] at h
      obtain ⟨-, rfl, rfl⟩ := h
      exact ⟨v, rfl, ⟨t0, t2, t3, t4⟩, ⟨v0, v2, v3, v4⟩, rfl, rfl, fun x => by omega,
        fun _ x => le_refl _⟩
    · by_cases hblk : v.pCurrentOffset < v.pBlkEnd
      · rw [Steal_block t v hok hcode hblk] at h
        have hsub : sub64 v.pBlkEnd v.pCurrentOffset = v.pBlkEnd - v.pCurrentOffset := by
          unfold sub64; unfold U64; unfold exactBelow at hK; omega
        rw [hsub] at h
        split at h
        · simp at h
        · rename_i steal hsteal
          have hle := stealAmount_some_le t v _ steal
            (by unfold exactBelow at hK ⊢; omega) hsum hsteal
          have hsub2 : sub64 v.pBlkEnd steal = v.pBlkEnd - steal := by
            unfold sub64; unfold U64; unfold exactBelow at hK; omega
          rw [hsub2] at h
          simp only [Option.some.injEq, Prod.mk.injEq] at h
          obtain ⟨hb, rfl, rfl⟩ := h
          refine ⟨_, rfl, ⟨t0, by simp only; omega, v3, t4⟩,
            ⟨v0, by simp only; omega, by simp only; omega, v4⟩, rfl, rfl, ?_, ?_⟩
          · intro x
            unfold mult
            simp only
            split <;> split <;> split <;> omega
          · intro _ x
            unfold mult
            simp only
            split <;> split <;> split <;> split <;> omega
      · have hle : v.pBlkEnd ≤ v.pCurrentOffset := by omega
        by_cases hst : v.pStolen = []
        · by_cases hdt : v.pDataTransfered < t.pDataTransfered
          · rw [Steal_racing t v hok hcode hle hst hdt] at h
            simp only [Option.some.injEq, Prod.mk.injEq] at h
            obtain ⟨hb, rfl, rfl⟩ := h
            refine ⟨v, rfl, ⟨t0, t2, t3, ?_⟩, ⟨v0, v2, v3, v4⟩, rfl, rfl, ?_, ?_⟩
            · intro e he
              rcases List.mem_append.mp he with he | he
              · exact t4 e (List.mem_append_left _ he)
              · rcases OffMap.mem_insertAll _ _ _ he with h1 | h1
                · exact t4 e (List.mem_append_right _ h1)
                · exact v4 e (List.mem_append_left _ h1)
            · intro x
              unfold mult
              simp only
              have := OffMap.count_insertAll_le v.pOngoing t.pStolen x
              split <;> split <;> omega
            · intro hf; rw [← hb] at hf; cases hf
          · rw [Steal_nothing t v hok hcode hle hst hdt] at h
            simp only [Option.some.injEq, Prod.mk.injEq] at h
            obtain ⟨-, rfl, rfl⟩ := h
            exact ⟨v, rfl, ⟨t0, t2, t3, t4⟩, ⟨v0, v2, v3, v4⟩, rfl, rfl, fun x => by omega,
              fun _ x => le_refl _⟩
        · rw [Steal_stolen t v hok hcode hle hst] at h
          simp only [Option.some.injEq, Prod.mk.injEq] at h
          obtain ⟨-, rfl, rfl⟩ := h
          have hcnt : ∀ x, OffMap.count (OffMap.insertAll t.pStolen v.pStolen) x ≤
              OffMap.count t.pStolen x + OffMap.count v.pStolen x :=
            fun x => OffMap.count_insertAll_le v.pStolen t.pStolen x
          refine ⟨_, rfl, ⟨t0, t2, t3, ?_⟩, ⟨v0, v2, v3, ?_⟩, rfl, rfl, ?_, ?_⟩
          · intro e he
            rcases List.mem_append.mp he with he | he
            · exact t4 e (List.mem_append_left _ he)
            · rcases OffMap.mem_insertAll _ _ _ he with h1 | h1
              · exact t4 e (List.mem_append_right _ h1)
              · exact v4 e (List.mem_append_right _ h1)
          · intro e he
            simp only [List.append_nil] at he
            exact v4 e (List.mem_append_left _ he)
          · intro x
            unfold mult
            simp only
            have := hcnt x
            split <;> split <;> omega
          · intro _ x
            unfold mult
            simp only [OffMap.count_nil]
            have := hcnt x
            split <;> split <;> omega
  · have herr : v.pStatus.IsOK = false := by simpa using hok
    rw [Steal_error t v herr] at h
    simp only [Option.some.injEq, Prod.mk.injEq] at h
    obtain ⟨-, rfl, rfl⟩ := h
    have hcnt : ∀ x, OffMap.count
        (OffMap.insertAll (OffMap.insertAll t.pStolen v.pOngoing) v.pStolen) x ≤
        OffMap.count t.pStolen x + OffMap.count v.pOngoing x + OffMap.count v.pStolen x := by
      intro x
      have h1 := OffMap.count_insertAll_le v.pStolen (OffMap.insertAll t.pStolen v.pOngoing) x
      have h2 := OffMap.count_insertAll_le v.pOngoing t.pStolen x
      omega
    refine ⟨_, rfl, ⟨t0, v2, v3, ?_⟩, ⟨v0, le_refl _, Nat.zero_le _, ?_⟩, rfl, rfl, ?_, ?_⟩
    · intro e he
      rcases List.mem_append.mp he with he | he
      · exact t4 e (List.mem_append_left _ he)
      · rcases OffMap.mem_insertAll _ _ _ he with h1 | h1
        · rcases OffMap.mem_insertAll _ _ _ h1 with h2 | h2
          · exact t4 e (List.mem_append_right _ h2)
          · exact v4 e (List.mem_append_left _ h2)
        · exact v4 e (List.mem_append_right _ h1)
    · intro e he
      simp at he
    · intro x
      unfold mult
      simp only
      have := hcnt x
      split <;> split <;> omega
    · intro _ x
      unfold mult
      simp only [OffMap.count_nil]
      have := hcnt x
      split <;> split <;> omega

end XCpSrc
/-! ## Facts about lists of sources -/

theorem totalMult_nil (x : Nat) : totalMult [] x = 0 := rfl

theorem totalMult_cons (s : XCpSrc) (l : List XCpSrc) (x : Nat) :
    totalMult (s :: l) x = s.mult x + totalMult l x := by
  simp [totalMult]

theorem totalMult_append (l1 l2 : List XCpSrc) (x : Nat) :
    totalMult (l1 ++ l2) x = totalMult l1 x + totalMult l2 x := by
  simp [totalMult]

theorem totalMult_set (l : List XCpSrc) (i : Nat) (a s : XCpSrc) (x : Nat)
    (h : l[i]? = some a) : totalMult (l.set i s) x + a.mult x = totalMult l x + s.mult x := by
  induction l generalizing i with
  | nil => simp at h
  | cons b t ih =>
    cases i with
    | zero =>
      simp only [List.getElem?_cons_zero, Option.some.injEq] at h
      subst h
      simp only [List.set_cons_zero, totalMult_cons]
      omega
    | succ n =>
      simp only [List.getElem?_cons_succ] at h
      simp only [List.set_cons_succ, totalMult_cons]
      have := ih n h
      omega

theorem totalMult_pair (l : List XCpSrc) (i j : Nat) (a b : XCpSrc) (x : Nat) (hij : i ≠ j)
    (hi : l[i]? = some a) (hj : l[j]? = some b) : a.mult x + b.mult x ≤ totalMult l x := by
  have h1 := totalMult_set l i a a x hi
  have hj2 : (l.set i a)[j]? = some b := by
    rw [List.getElem?_set_ne hij]; exact hj
  have h2 := totalMult_set (l.set i a) j b b x hj2
  have h3 : ∀ (l : List XCpSrc) (k : Nat) (c : XCpSrc), l[k]? = some c →
      c.mult x ≤ totalMult l x := by
    intro l k c hk
    induction l generalizing k with
    | nil => simp at hk
    | cons d t ih =>
      rw [totalMult_cons]
      cases k with
      | zero =>
        simp only [List.getElem?_cons_zero, Option.some.injEq] at hk
        subst hk; omega
      | succ n =>
        simp only [List.getElem?_cons_succ] at hk
        have := ih n hk
        omega
  -- remove the entry at position i, the entry at j remains
  have hz : ∀ (l : List XCpSrc) (i j : Nat) (a b : XCpSrc), i ≠ j → l[i]? = some a →
      l[j]? = some b → a.mult x + b.mult x ≤ totalMult l x := by
    intro l
    induction l with
    | nil => intro i j a b _ hi; simp at hi
    | cons d t ih =>
      intro i j a b hne hi hj
      rw [totalMult_cons]
      cases i with
      | zero =>
        simp only [List.getElem?_cons_zero, Option.some.injEq] at hi
        subst hi
        cases j with
        | zero => exact absurd rfl hne
        | succ m =>
          simp only [List.getElem?_cons_succ] at hj
          have := h3 t m b hj
          omega
      | succ n =>
        simp only [List.getElem?_cons_succ] at hi
        cases j with
        | zero =>
          simp only [List.getElem?_cons_zero, Option.some.injEq] at hj
          subst hj
          have := h3 t n a hi
          omega
        | succ m =>
          simp only [List.getElem?_cons_succ] at hj
          have := ih n m a b (by omega) hi hj
          omega
  exact hz l i j a b hij hi hj

theorem totalMult_filter_two (p q : XCpSrc → Bool) (l : List XCpSrc) (x : Nat)
    (hpq : ∀ s, q s = true → p s = false) :
    totalMult (l.filter p) x + totalMult (l.filter q) x ≤ totalMult l x := by
  induction l with
  | nil => simp [totalMult_nil]
  | cons s t ih =>
    rw [List.filter_cons, List.filter_cons, totalMult_cons]
    by_cases hq : q s = true
    · have hp := hpq s hq
      simp only [hp, hq, Bool.false_eq_true, if_false, if_true, totalMult_cons]
      omega
    · have hq1 : q s = false := by simpa using hq
      by_cases hp : p s = true
      · simp only [hp, hq1, Bool.false_eq_true, if_false, if_true, totalMult_cons]
        omega
      · have hp1 : p s = false := by simpa using hp
        simp only [hp1, hq1, Bool.false_eq_true, if_false]
        omega

theorem totalMult_zero (l : List XCpSrc) (x : Nat) (h : ∀ s ∈ l, s.mult x = 0) :
    totalMult l x = 0 := by
  induction l with
  | nil => rfl
  | cons s t ih =>
    rw [totalMult_cons, h s (List.mem_cons_self _ _),
      ih (fun s hs => h s (List.mem_cons_of_mem _ hs))]

namespace XCpSrc

theorem mult_zero_of_within (s : XCpSrc) (K x : Nat) (h : s.within K) (hx : K ≤ x) :
    s.mult x = 0 := by
  obtain ⟨-, h2, h3, h4⟩ := h
  have hcount : ∀ (m : OffMap), (∀ e ∈ m, e.1 + e.2 ≤ K) → OffMap.count m x = 0 := by
    intro m hm
    induction m with
    | nil => rfl
    | cons e t ih =>
      rw [OffMap.count_cons, ih (fun e he => hm e (List.mem_cons_of_mem _ he))]
      have := hm e (List.mem_cons_self _ _)
      have hn : ¬ (e.1 ≤ x ∧ x < e.1 + e.2) := by omega
      simp [hn]
  unfold mult
  rw [hcount s.pOngoing (fun e he => h4 e (List.mem_append_left _ he)),
    hcount s.pStolen (fun e he => h4 e (List.mem_append_right _ he))]
  have hn : ¬ (s.pCurrentOffset ≤ x ∧ x < s.pBlkEnd) := by omega
  simp [hn]

theorem fresh_within (s : XCpSrc) (K : Nat) (h : s.fresh) : s.within K := by
  obtain ⟨h1, h2, h3, h4, h5⟩ := h
  refine ⟨h1, by omega, by omega, ?_⟩
  rw [h4, h5]
  intro e he
  simp at he

theorem fresh_mult (s : XCpSrc) (x : Nat) (h : s.fresh) : s.mult x = 0 :=
  mult_zero_of_within s 0 x (fresh_within s 0 h) (Nat.zero_le _)

theorem fresh_new (url : Url) (chunkSize parallel : Nat) (fileSize : Int) :
    ((XCpSrc.new url chunkSize parallel).Initialize fileSize).2.fresh := by
  have hlt : chunkSize % U32 < U32 := Nat.mod_lt _ (by decide)
  unfold XCpSrc.Initialize
  split
  · exact ⟨hlt, rfl, rfl, rfl, rfl⟩
  · split
    · split <;> exact ⟨hlt, rfl, rfl, rfl, rfl⟩
    · exact ⟨hlt, rfl, rfl, rfl, rfl⟩

theorem new_counter (url : Url) (chunkSize parallel : Nat) (fileSize : Int) :
    ((XCpSrc.new url chunkSize parallel).Initialize fileSize).2.pDataTransfered = 0 := by
  unfold XCpSrc.Initialize
  split
  · rfl
  · split
    · split <;> rfl
    · rfl

end XCpSrc

namespace XCpCtx

theorem initLoop_append (parallelSrc chunkSize parallelChunks : Nat) (fileSize : Int)
    (urls : List Url) : ∀ (srcs : List XCpSrc),
    ∃ extra, (initLoop parallelSrc chunkSize parallelChunks fileSize urls srcs).2 =
        srcs ++ extra ∧
      ∀ s ∈ extra, s.fresh ∧ s.pDataTransfered = 0 := by
  induction urls with
  | nil => intro srcs; exact ⟨[], by simp [initLoop], by simp⟩
  | cons url rest ih =>
    intro srcs
    unfold initLoop
    split
    · split
      · obtain ⟨extra, he, hf⟩ := ih
          (srcs ++ [((XCpSrc.new url chunkSize parallelChunks).Initialize fileSize).2])
        refine ⟨((XCpSrc.new url chunkSize parallelChunks).Initialize fileSize).2 :: extra,
          by rw [he]; simp, ?_⟩
        intro s hs
        rcases List.mem_cons.mp hs with h1 | h1
        · rw [h1]
          exact ⟨XCpSrc.fresh_new _ _ _ _, XCpSrc.new_counter _ _ _ _⟩
        · exact hf s h1
      · exact ih srcs
    · exact ⟨[], by simp, by simp⟩

end XCpCtx
/-! ## Preservation of the invariant by the steps of the context -/

namespace XCpCtx

theorem Inv_congr (ctx ctx1 : XCpCtx) (h1 : ctx1.pSources = ctx.pSources)
    (h2 : ctx1.pFailed = ctx.pFailed) (h3 : ctx1.pOffset = ctx.pOffset)
    (h4 : ctx1.pSize = ctx.pSize) (h5 : ctx1.pBlockSize = ctx.pBlockSize)
    (h6 : ctx1.pBewareDuplicates = true ∨ ctx1.pBewareDuplicates = ctx.pBewareDuplicates)
    (h : ctx.Inv) : ctx1.Inv := by
  unfold Inv Ranges all at h ⊢
  rw [h1, h2, h3, h4, h5]
  refine ⟨h.1, fun hb => ?_⟩
  rcases h6 with h6 | h6
  · rw [h6] at hb; cases hb
  · exact h.2 (by rw [← h6]; exact hb)

theorem Inv_removeFailed (ctx : XCpCtx) (h : ctx.Inv) : ctx.RemoveFailed.Inv := by
  unfold Inv Ranges all at h ⊢
  obtain ⟨⟨hw, ho⟩, ht⟩ := h
  unfold RemoveFailed
  simp only
  refine ⟨⟨?_, ho⟩, ?_⟩
  · intro s hs
    apply hw
    rcases List.mem_append.mp hs with h1 | h1
    · exact List.mem_append_left _ (List.mem_filter.mp h1).1
    · rcases List.mem_append.mp h1 with h2 | h2
      · exact List.mem_append_right _ h2
      · exact List.mem_append_left _ (List.mem_filter.mp h2).1
  · intro hb x
    have := ht hb x
    rw [totalMult_append] at this
    rw [totalMult_append, totalMult_append]
    have h2 := totalMult_filter_two (fun s => s.GetStatus.IsOK)
      (fun s => !s.GetStatus.IsOK && s.HasWork) ctx.pSources x (by
        intro s hs
        simp only [Bool.and_eq_true, Bool.not_eq_true'] at hs
        exact hs.1)
    omega

theorem Inv_initNewSrc (ctx : XCpCtx) (fileSize : Int) (h : ctx.Inv) :
    (ctx.InitNewSrc fileSize).Inv := by
  unfold Inv Ranges all at h ⊢
  obtain ⟨⟨hw, ho⟩, ht⟩ := h
  obtain ⟨extra, he, hf⟩ := initLoop_append ctx.pParallelSrc ctx.pChunkSize ctx.pParallelChunks
    fileSize ctx.pUrls ctx.pSources
  unfold InitNewSrc
  simp only [he]
  refine ⟨⟨?_, ho⟩, ?_⟩
  · intro s hs
    rcases List.mem_append.mp hs with h1 | h1
    · rcases List.mem_append.mp h1 with h2 | h2
      · exact hw s (List.mem_append_left _ h2)
      · exact XCpSrc.fresh_within s _ (hf s h2).1
    · exact hw s (List.mem_append_right _ h1)
  · intro hb x
    have := ht hb x
    rw [totalMult_append] at this
    rw [totalMult_append, totalMult_append,
      totalMult_zero extra x (fun s hs => XCpSrc.fresh_mult s x (hf s hs).1)]
    omega

theorem Inv_setLive (ctx ctx1 : XCpCtx) (i : Nat) (src src1 : XCpSrc)
    (hi : ctx.pSources[i]? = some src)
    (h1 : ctx1.pSources = ctx.pSources.set i src1)
    (h2 : ctx1.pFailed = ctx.pFailed) (h3 : ctx1.pOffset = ctx.pOffset)
    (h4 : ctx1.pSize = ctx.pSize) (h5 : ctx1.pBlockSize = ctx.pBlockSize)
    (h6 : ctx1.pBewareDuplicates = ctx.pBewareDuplicates)
    (hw1 : src1.within ctx.pOffset) (hm : ∀ x, src1.mult x ≤ src.mult x)
    (h : ctx.Inv) : ctx1.Inv := by
  unfold Inv Ranges all at h ⊢
  obtain ⟨⟨hw, ho⟩, ht⟩ := h
  rw [h1, h2, h3, h4, h5, h6]
  refine ⟨⟨?_, ho⟩, ?_⟩
  · intro s hs
    rcases List.mem_append.mp hs with hs | hs
    · rcases List.mem_or_eq_of_mem_set hs with h7 | h7
      · exact hw s (List.mem_append_left _ h7)
      · rw [h7]; exact hw1
    · exact hw s (List.mem_append_right _ hs)
  · intro hb x
    have := ht hb x
    rw [totalMult_append] at this ⊢
    have hset := totalMult_set ctx.pSources i src src1 x hi
    have := hm x
    omega

theorem Inv_setFailed (ctx ctx1 : XCpCtx) (j : Nat) (src src1 : XCpSrc)
    (hj : ctx.pFailed[j]? = some src)
    (h1 : ctx1.pSources = ctx.pSources)
    (h2 : ctx1.pFailed = ctx.pFailed.set j src1) (h3 : ctx1.pOffset = ctx.pOffset)
    (h4 : ctx1.pSize = ctx.pSize) (h5 : ctx1.pBlockSize = ctx.pBlockSize)
    (h6 : ctx1.pBewareDuplicates = ctx.pBewareDuplicates)
    (hw1 : src1.within ctx.pOffset) (hm : ∀ x, src1.mult x ≤ src.mult x)
    (h : ctx.Inv) : ctx1.Inv := by
  unfold Inv Ranges all at h ⊢
  obtain ⟨⟨hw, ho⟩, ht⟩ := h
  rw [h1, h2, h3, h4, h5, h6]
  refine ⟨⟨?_, ho⟩, ?_⟩
  · intro s hs
    rcases List.mem_append.mp hs with hs | hs
    · exact hw s (List.mem_append_left _ hs)
    · rcases List.mem_or_eq_of_mem_set hs with h7 | h7
      · exact hw s (List.mem_append_right _ h7)
      · rw [h7]; exact hw1
  · intro hb x
    have := ht hb x
    rw [totalMult_append] at this ⊢
    have hset := totalMult_set ctx.pFailed j src src1 x hj
    have := hm x
    omega

theorem mem_of_getElem? {l : List XCpSrc} {i : Nat} {a : XCpSrc} (h : l[i]? = some a) :
    a ∈ l := by
  rw [List.getElem?_eq_some] at h
  obtain ⟨hi, rfl⟩ := h
  exact List.getElem_mem _

theorem Inv_readChunk (ctx : XCpCtx) (i : Nat) (rd : List XRootDStatus) (src : XCpSrc)
    (st : XRootDStatus) (src1 : XCpSrc) (sink1 : Sink) (hi : ctx.pSources[i]? = some src)
    (hr : src.ReadChunk ctx.pSink rd = some (st, src1, sink1)) (hs : ctx.Small) (h : ctx.Inv) :
    ({ ctx with pSources := ctx.pSources.set i src1, pSink := sink1 } : XCpCtx).Inv := by
  have hw : src.within ctx.pOffset :=
    h.1.1 src (List.mem_append_left _ (mem_of_getElem? hi))
  have hK : ctx.pOffset + U32 ≤ U64 := by
    have := hs.2.2.1
    unfold exactBelow at this; unfold U32 U64; omega
  have he := XCpSrc.ReadChunk_effect src ctx.pSink rd _ ctx.pOffset hK hw hr
  exact Inv_setLive ctx _ i src src1 hi rfl rfl rfl rfl rfl rfl he.1 he.2.1 h

theorem HandleResponse_effect (s : XCpSrc) (sink : Sink) (status : XRootDStatus)
    (response : Option ChunkInfo) (r : XCpSrc × Sink)
    (h : ChunkHandler.HandleResponse s sink status response = some r) :
    (∀ x, r.1.mult x ≤ s.mult x) ∧ (∀ K, s.within K → r.1.within K) := by
  unfold ChunkHandler.HandleResponse at h
  exact XCpSrc.ReportResult_mult _ _ _ _ _ h

theorem Inv_completeLive (ctx : XCpCtx) (i : Nat) (status : XRootDStatus)
    (response : Option ChunkInfo) (ctx1 : XCpCtx)
    (hc : ctx.completeLive i status response = some ctx1) (h : ctx.Inv) : ctx1.Inv := by
  unfold completeLive at hc
  split at hc
  · simp at hc
  · rename_i s hi
    split at hc
    · simp at hc
    · rename_i s1 sink1 hh
      simp only [Option.some.injEq] at hc
      subst hc
      have he := HandleResponse_effect _ _ _ _ _ hh
      have hw : s.within ctx.pOffset :=
        h.1.1 s (List.mem_append_left _ (mem_of_getElem? hi))
      exact Inv_setLive ctx _ i s s1 hi rfl rfl rfl rfl rfl rfl (he.2 _ hw) he.1 h

theorem Inv_completeFailed (ctx : XCpCtx) (j : Nat) (status : XRootDStatus)
    (response : Option ChunkInfo) (ctx1 : XCpCtx)
    (hc : ctx.completeFailed j status response = some ctx1) (h : ctx.Inv) : ctx1.Inv := by
  unfold completeFailed at hc
  split at hc
  · simp at hc
  · rename_i s hj
    split at hc
    · simp at hc
    · rename_i s1 sink1 hh
      simp only [Option.some.injEq] at hc
      subst hc
      have he := HandleResponse_effect _ _ _ _ _ hh
      have hw : s.within ctx.pOffset :=
        h.1.1 s (List.mem_append_right _ (mem_of_getElem? hj))
      exact Inv_setFailed ctx _ j s s1 hj rfl rfl rfl rfl rfl rfl (he.2 _ hw) he.1 h

theorem deliver_fields (ctx : XCpCtx) (st : XRootDStatus) (ci : Option ChunkInfo)
    (ctx1 : XCpCtx) (h : ctx.deliver = GetChunkResult.returned st ci ctx1) :
    ctx1.pSources = ctx.pSources ∧ ctx1.pFailed = ctx.pFailed ∧ ctx1.pOffset = ctx.pOffset ∧
    ctx1.pSize = ctx.pSize ∧ ctx1.pBlockSize = ctx.pBlockSize ∧
    ctx1.pBewareDuplicates = ctx.pBewareDuplicates := by
  unfold deliver at h
  split at h
  · cases h
  · simp only [GetChunkResult.returned.injEq] at h
    obtain ⟨-, -, rfl⟩ := h
    exact ⟨rfl, rfl, rfl, rfl, rfl, rfl⟩
  · split at h
    · split at h
      · simp only [GetChunkResult.returned.injEq] at h
        obtain ⟨-, -, rfl⟩ := h
        exact ⟨rfl, rfl, rfl, rfl, rfl, rfl⟩
      · simp only [GetChunkResult.returned.injEq] at h
        obtain ⟨-, -, rfl⟩ := h
        exact ⟨rfl, rfl, rfl, rfl, rfl, rfl⟩
    · simp only [GetChunkResult.returned.injEq] at h
      obtain ⟨-, -, rfl⟩ := h
      exact ⟨rfl, rfl, rfl, rfl, rfl, rfl⟩

end XCpCtx
namespace XCpCtx

theorem weakestLoop_ne (exclude : Nat) (l : List XCpSrc) : ∀ (i0 : Nat) (eff : Dbl)
    (ret : Option Nat) (j : Nat), weakestLoop exclude l i0 eff ret = some j →
    ret = some j ∨ j ≠ exclude := by
  induction l with
  | nil => intro i0 eff ret j h; exact Or.inl h
  | cons s t ih =>
    intro i0 eff ret j h
    unfold weakestLoop at h
    split at h
    · exact ih _ _ _ _ h
    · rename_i hne
      split at h
      · rcases ih _ _ _ _ h with h1 | h1
        · simp only [Option.some.injEq] at h1
          right; rw [← h1]; exact hne
        · exact Or.inr h1
      · exact ih _ _ _ _ h

theorem WeakestLink_ne (ctx : XCpCtx) (exclude j : Nat) (h : ctx.WeakestLink exclude = some j) :
    j ≠ exclude := by
  rcases weakestLoop_ne exclude ctx.pSources 0 Dbl.zero none j h with h1 | h1
  · cases h1
  · exact h1

theorem Inv_allocBlock (ctx : XCpCtx) (i : Nat) (src : XCpSrc) (b : Bool) (ctx1 : XCpCtx)
    (hi : ctx.pSources[i]? = some src) (hb : src.HasBlock = false)
    (ha : ctx.AllocBlock i = some (b, ctx1)) (hs : ctx.Small) (h : ctx.Inv) :
    ({ ctx1 with pBewareDuplicates := ctx1.pBewareDuplicates || b } : XCpCtx).Inv := by
  obtain ⟨hsz, hbs, hoff, hdt⟩ := hs
  have hinv := h
  obtain ⟨⟨hw, ho⟩, ht⟩ := h
  unfold all at hw ht hdt
  have hsrcw : src.within ctx.pOffset :=
    hw src (List.mem_append_left _ (mem_of_getElem? hi))
  have hsrcdt : 2 * src.pDataTransfered < exactBelow :=
    hdt src (List.mem_append_left _ (mem_of_getElem? hi))
  have hnoblk : ¬ (src.pCurrentOffset < src.pBlkEnd) := by
    simpa [XCpSrc.HasBlock] using hb
  unfold AllocBlock at ha
  rw [hi] at ha
  simp only at ha
  split at ha
  · -- a fresh block
    rename_i hlt
    simp only [Option.some.injEq, Prod.mk.injEq] at ha
    obtain ⟨rfl, rfl⟩ := ha
    have hadd : add64 ctx.pOffset ctx.pBlockSize = ctx.pOffset + ctx.pBlockSize := by
      unfold add64 U64; unfold exactBelow at hsz hbs hoff; omega
    have hsub : sub64 ctx.pSize ctx.pOffset = ctx.pSize - ctx.pOffset := by
      unfold sub64 U64; unfold exactBelow at hsz hbs hoff; omega
    rw [hadd, hsub]
    generalize hblk : (if ctx.pSize < ctx.pOffset + ctx.pBlockSize
      then ctx.pSize - ctx.pOffset else ctx.pBlockSize) = block
    have hble : ctx.pOffset + block ≤ ctx.pSize := by
      rw [← hblk]; split <;> omega
    have hadd2 : add64 ctx.pOffset block = ctx.pOffset + block := by
      unfold add64 U64; unfold exactBelow at hsz hbs hoff; omega
    unfold Inv Ranges all
    simp only [XCpSrc.SetBlock, hadd2, Bool.or_false]
    refine ⟨⟨?_, by omega⟩, ?_⟩
    · intro s hs
      rcases List.mem_append.mp hs with hs | hs
      · rcases List.mem_or_eq_of_mem_set hs with h7 | h7
        · exact XCpSrc.within_mono s _ _ (by omega) (hw s (List.mem_append_left _ h7))
        · rw [h7]
          obtain ⟨w1, w2, w3, w4⟩ := hsrcw
          exact ⟨w1, by simp only; omega, le_refl _, fun e he => by
            have := w4 e he; omega⟩
      · exact XCpSrc.within_mono s _ _ (by omega) (hw s (List.mem_append_right _ hs))
    · intro hbw x
      have hold := ht hbw x
      rw [totalMult_append] at hold ⊢
      have hset := totalMult_set ctx.pSources i src { src with pCurrentOffset := ctx.pOffset, pBlkEnd := ctx.pOffset + block, pStatus := ⟨stOK, suContinue⟩ } x hi
      by_cases hx : ctx.pOffset ≤ x
      · have hz : ∀ s ∈ ctx.pSources ++ ctx.pFailed, s.mult x = 0 :=
          fun s hs => XCpSrc.mult_zero_of_within s _ x (hw s hs) hx
        have hz1 := totalMult_zero ctx.pSources x
          (fun s hs => hz s (List.mem_append_left _ hs))
        have hz2 := totalMult_zero ctx.pFailed x
          (fun s hs => hz s (List.mem_append_right _ hs))
        have hz3 := XCpSrc.mult_zero_of_within src _ x hsrcw hx
        have hnew : ({ src with pCurrentOffset := ctx.pOffset, pBlkEnd := ctx.pOffset + block, pStatus := ⟨stOK, suContinue⟩ } : XCpSrc).mult x ≤ 1 := by
          unfold XCpSrc.mult at hz3 ⊢
          simp only
          split <;> omega
        omega
      · have hnew : ({ src with pCurrentOffset := ctx.pOffset, pBlkEnd := ctx.pOffset + block, pStatus := ⟨stOK, suContinue⟩ } : XCpSrc).mult x = src.mult x := by
          unfold XCpSrc.mult
          simp only
          have h1 : ¬ (ctx.pOffset ≤ x ∧ x < ctx.pOffset + block) := by omega
          have h2 : ¬ (src.pCurrentOffset ≤ x ∧ x < src.pBlkEnd) := by omega
          simp only [h1, h2, if_false]
        omega
  · split at ha
    · -- a failed source is taken over
      rename_i failed rest hf
      split at ha
      · simp at ha
      · rename_i b1 src1 v1 hst
        simp only [Option.some.injEq, Prod.mk.injEq] at ha
        obtain ⟨rfl, rfl⟩ := ha
        have hfmem : failed ∈ ctx.pSources ++ ctx.pFailed :=
          List.mem_append_right _ (by rw [hf]; exact List.mem_cons_self _ _)
        have he := XCpSrc.Steal_effect src failed ctx.pOffset b1 src1 v1 hoff hsrcw
          (hw failed hfmem) (by have := hdt failed hfmem; omega) hst
        obtain ⟨w, -, hw1, -, -, -, hm, -⟩ := he
        unfold Inv Ranges all
        simp only [Bool.or_false]
        refine ⟨⟨?_, ho⟩, ?_⟩
        · intro s hs
          rcases List.mem_append.mp hs with hs | hs
          · rcases List.mem_or_eq_of_mem_set hs with h7 | h7
            · exact hw s (List.mem_append_left _ h7)
            · rw [h7]; exact hw1
          · exact hw s (List.mem_append_right _ (by rw [hf]; exact List.mem_cons_of_mem _ hs))
        · intro hbw x
          have hold := ht hbw x
          rw [totalMult_append, hf, totalMult_cons] at hold
          rw [totalMult_append]
          have hset := totalMult_set ctx.pSources i src src1 x hi
          have := hm x
          omega
    · -- the weakest link
      split at ha
      · simp only [Option.some.injEq, Prod.mk.injEq] at ha
        obtain ⟨rfl, rfl⟩ := ha
        exact Inv_congr ctx _ rfl rfl rfl rfl rfl (Or.inr (by simp)) hinv
      · rename_i j hwl
        have hji : j ≠ i := WeakestLink_ne ctx i j hwl
        split at ha
        · simp at ha
        · rename_i wLink hj
          split at ha
          · simp at ha
          · rename_i b1 src1 v1 hst
            simp only [Option.some.injEq, Prod.mk.injEq] at ha
            obtain ⟨rfl, rfl⟩ := ha
            have hwmem : wLink ∈ ctx.pSources ++ ctx.pFailed :=
              List.mem_append_left _ (mem_of_getElem? hj)
            have he := XCpSrc.Steal_effect src wLink ctx.pOffset b1 src1 v1 hoff hsrcw
              (hw wLink hwmem) (by have := hdt wLink hwmem; omega) hst
            obtain ⟨w, rfl, hw1, hw2, -, -, -, hm⟩ := he
            unfold Inv Ranges all
            simp only [Option.getD_some]
            refine ⟨⟨?_, ho⟩, ?_⟩
            · intro s hs
              rcases List.mem_append.mp hs with hs | hs
              · rcases List.mem_or_eq_of_mem_set hs with h7 | h7
                · rcases List.mem_or_eq_of_mem_set h7 with h8 | h8
                  · exact hw s (List.mem_append_left _ h8)
                  · rw [h8]; exact hw1
                · rw [h7]; exact hw2
              · exact hw s (List.mem_append_right _ hs)
            · intro hbw x
              simp only [Bool.or_eq_false_iff] at hbw
              have hold := ht hbw.1 x
              rw [totalMult_append] at hold ⊢
              have hset := totalMult_set ctx.pSources i src src1 x hi
              have hj2 : (ctx.pSources.set i src1)[j]? = some wLink := by
                rw [List.getElem?_set_ne (Ne.symm hji)]; exact hj
              have hset2 := totalMult_set (ctx.pSources.set i src1) j wLink w x hj2
              have := hm hbw.2 x
              omega

end XCpCtx
namespace XCpCtx

theorem assignBlocks_inv (X size : Nat) (hX : X < exactBelow) (hsize : size < exactBelow) :
    ∀ (l : List XCpSrc) (off : Nat), off ≤ size → (∀ s ∈ l, s.fresh) →
    off ≤ (assignBlocks X size l off).2 ∧ (assignBlocks X size l off).2 ≤ size + X ∧
    (∀ s ∈ (assignBlocks X size l off).1, s.within (assignBlocks X size l off).2) ∧
    (∀ x, totalMult (assignBlocks X size l off).1 x ≤
      if off ≤ x ∧ x < (assignBlocks X size l off).2 then 1 else 0) := by
  intro l
  induction l with
  | nil =>
    intro off hoff _
    simp only [assignBlocks]
    exact ⟨le_refl _, by omega, by simp, fun x => by simp [totalMult_nil]⟩
  | cons s rest ih =>
    intro off hoff hfresh
    have hadd : add64 off X = off + X := by
      unfold add64 U64; unfold exactBelow at hX hsize; omega
    have hs := hfresh s (List.mem_cons_self _ _)
    have hrest : ∀ t ∈ rest, t.fresh := fun t ht => hfresh t (List.mem_cons_of_mem _ ht)
    have hset : (s.SetBlock off X).within (off + X) := by
      obtain ⟨h1, h2, h3, h4, h5⟩ := hs
      refine ⟨h1, ?_, ?_, ?_⟩
      · simp only [XCpSrc.SetBlock, hadd]; omega
      · simp only [XCpSrc.SetBlock, hadd]; omega
      · simp only [XCpSrc.SetBlock, h4, h5]
        intro e he
        simp at he
    have hmult : ∀ x, (s.SetBlock off X).mult x = if off ≤ x ∧ x < off + X then 1 else 0 := by
      intro x
      obtain ⟨h1, h2, h3, h4, h5⟩ := hs
      unfold XCpSrc.mult
      simp only [XCpSrc.SetBlock, hadd, h4, h5, OffMap.count_nil, Nat.add_zero]
    unfold assignBlocks
    rw [hadd]
    split
    · simp only
      refine ⟨by omega, by omega, ?_, ?_⟩
      · intro t ht
        rcases List.mem_cons.mp ht with h1 | h1
        · rw [h1]; exact hset
        · exact XCpSrc.fresh_within t _ (hrest t h1)
      · intro x
        rw [totalMult_cons, hmult x,
          totalMult_zero rest x (fun t ht => XCpSrc.fresh_mult t x (hrest t ht))]
        omega
    · rename_i hle
      simp only
      obtain ⟨i1, i2, i3, i4⟩ := ih (off + X) (by omega) hrest
      refine ⟨by omega, i2, ?_, ?_⟩
      · intro t ht
        rcases List.mem_cons.mp ht with h1 | h1
        · rw [h1]; exact XCpSrc.within_mono _ _ _ i1 hset
        · exact i3 t h1
      · intro x
        rw [totalMult_cons, hmult x]
        have := i4 x
        split at this <;> split <;> split <;> omega

theorem Initialize_Inv (urls : List Url) (blockSize parallelSrc chunkSize parallelChunks : Nat)
    (fileSize : Int) (ctx : XCpCtx)
    (h : (XCpCtx.new urls blockSize parallelSrc chunkSize parallelChunks).Initialize fileSize =
      (XRootDStatus.ok, ctx)) (hs : ctx.Small) : ctx.Inv := by
  cases hsrcs : ((XCpCtx.new urls blockSize parallelSrc chunkSize parallelChunks).InitNewSrc
      fileSize).pSources with
  | nil =>
    have := Initialize_fail _ _ hsrcs
    rw [h] at this
    cases this
  | cons front rest =>
    rw [Initialize_ok _ _ front rest hsrcs] at h
    simp only [Prod.mk.injEq, true_and] at h
    obtain ⟨extra, he, hf⟩ := initLoop_append (parallelSrc % U8) (chunkSize % U32)
      (parallelChunks % U8) fileSize urls []
    have hfresh : ∀ s ∈ front :: rest, s.fresh := by
      intro s hs
      have hmem : s ∈ ((XCpCtx.new urls blockSize parallelSrc chunkSize
          parallelChunks).InitNewSrc fileSize).pSources := by rw [hsrcs]; exact hs
      have hmem2 : s ∈ (initLoop (parallelSrc % U8) (chunkSize % U32) (parallelChunks % U8)
          fileSize urls []).2 := hmem
      rw [he] at hmem2
      simp only [List.nil_append] at hmem2
      exact (hf s hmem2).1
    generalize (if fileSize < 0 then toUInt64 front.GetSize else toUInt64 fileSize) = size at h
    generalize adjustBlockSize
      ((XCpCtx.new urls blockSize parallelSrc chunkSize parallelChunks).InitNewSrc
        fileSize).pBlockSize
      ((XCpCtx.new urls blockSize parallelSrc chunkSize parallelChunks).InitNewSrc
        fileSize).pChunkSize size (front :: rest).length = X at h
    have hoff : ((XCpCtx.new urls blockSize parallelSrc chunkSize parallelChunks).InitNewSrc
        fileSize).pOffset = 0 := rfl
    rw [hoff] at h
    obtain ⟨hsz, hbs, -, -⟩ := hs
    rw [← h] at hsz hbs
    simp only at hsz hbs
    have hi := assignBlocks_inv X size hbs hsz (front :: rest) 0 (Nat.zero_le _) hfresh
    rw [← h]
    unfold Inv Ranges all
    have hfailed : ((XCpCtx.new urls blockSize parallelSrc chunkSize parallelChunks).InitNewSrc
        fileSize).pFailed = [] := rfl
    simp only [hfailed, List.append_nil]
    refine ⟨⟨hi.2.2.1, hi.2.1⟩, fun _ x => ?_⟩
    refine le_trans (hi.2.2.2 x) ?_
    split <;> omega

theorem Step_preserves {ctx ctx1 : XCpCtx} (hstep : Step ctx ctx1) (hs : ctx.Small)
    (h : ctx.Inv) : ctx1.Inv := by
  cases hstep with
  | removeFailed => exact Inv_removeFailed ctx h
  | initNewSrc => exact Inv_initNewSrc ctx _ h
  | readChunk i rd src st src1 sink1 hi hr => exact Inv_readChunk ctx i rd src st src1 sink1 hi hr hs h
  | allocBlock i src b c1 hi hb ha => exact Inv_allocBlock ctx i src b c1 hi hb ha hs h
  | completeLive =>
    rename_i i status response hc
    exact Inv_completeLive ctx i status response ctx1 hc h
  | completeFailed =>
    rename_i j status response hc
    exact Inv_completeFailed ctx j status response ctx1 hc h
  | completeReleased => exact Inv_congr ctx _ rfl rfl rfl rfl rfl (Or.inr rfl) h
  | deliver =>
    rename_i st ci hd
    have hf := deliver_fields ctx st ci ctx1 hd
    exact Inv_congr ctx ctx1 hf.1 hf.2.1 hf.2.2.1 hf.2.2.2.1 hf.2.2.2.2.1
      (Or.inr hf.2.2.2.2.2) h

theorem ReachWithin_holds {P : XCpCtx → Prop} {ctx : XCpCtx} (h : ReachWithin P ctx) : P ctx := by
  cases h with
  | init _ _ _ _ _ _ _ _ hp => exact hp
  | step _ _ hp => exact hp

theorem ReachWithin_Inv {ctx : XCpCtx} (h : ReachWithin Small ctx) : ctx.Inv := by
  induction h with
  | init urls blockSize parallelSrc chunkSize parallelChunks fileSize ctx hi hp =>
    exact Initialize_Inv urls blockSize parallelSrc chunkSize parallelChunks fileSize ctx hi hp
  | step hr hstep _ ih => exact Step_preserves hstep (ReachWithin_holds hr) ih

theorem Inv_Disjoint (ctx : XCpCtx) (h : ctx.Inv) (hb : ctx.pBewareDuplicates = false) :
    ctx.Disjoint := by
  intro i j a b hi hj hij x hab
  have h1 := (XCpSrc.outstanding_iff_mult a x).mp hab.1
  have h2 := (XCpSrc.outstanding_iff_mult b x).mp hab.2
  have h3 := totalMult_pair ctx.all i j a b x hij hi hj
  have h4 := h.2 hb x
  omega

end XCpCtx
/-! ## Calls of `GetChunk` as sequences of steps -/

namespace XCpCtx

theorem Reach_step {ctx ctx1 : XCpCtx} (h : ctx.Reach) (hs : Step ctx ctx1) : ctx1.Reach :=
  ReachWithin.step h hs trivial

theorem pumpSource_Reach (ctx : XCpCtx) (i : Nat) (rd : List XRootDStatus) (ctx1 : XCpCtx)
    (h : ctx.Reach) (hp : ctx.pumpSource i rd = some ctx1) : ctx1.Reach := by
  unfold pumpSource at hp
  split at hp
  · simp at hp
  · rename_i src hi
    split at hp
    · simp at hp
    · rename_i st src1 sink1 hr
      have h1 : Reach { ctx with pSources := ctx.pSources.set i src1, pSink := sink1 } :=
        Reach_step h (Step.readChunk ctx i rd src st src1 sink1 hi hr)
      split at hp
      · rename_i hnb
        split at hp
        · simp at hp
        · rename_i b ctx2 ha
          simp only [Option.some.injEq] at hp
          subst hp
          have hlt : i < ctx.pSources.length := by
            rw [List.getElem?_eq_some] at hi
            exact hi.1
          exact Reach_step h1 (Step.allocBlock _ i src1 b ctx2
            (by simp [List.getElem?_set_self, hlt]) (by simpa using hnb) ha)
      · simp only [Option.some.injEq] at hp
        subst hp
        exact h1

theorem pumpFrom_Reach (n : Nat) : ∀ (i : Nat) (ctx : XCpCtx) (rds : List (List XRootDStatus))
    (ctx1 : XCpCtx), ctx.Reach → pumpFrom n i ctx rds = some ctx1 → ctx1.Reach := by
  induction n with
  | zero =>
    intro i ctx rds ctx1 h hp
    simp only [pumpFrom, Option.some.injEq] at hp
    subst hp
    exact h
  | succ n ih =>
    intro i ctx rds ctx1 h hp
    unfold pumpFrom at hp
    split at hp
    · simp at hp
    · rename_i c hc
      exact ih _ _ _ _ (pumpSource_Reach _ _ _ _ h hc) hp

theorem GetChunk_Reach (ctx : XCpCtx) (rds : List (List XRootDStatus)) (h : ctx.Reach) :
    (∀ st ci ctx1, ctx.GetChunk rds = GetChunkResult.returned st ci ctx1 → ctx1.Reach) ∧
    (∀ ctx1, ctx.GetChunk rds = GetChunkResult.blocked ctx1 → ctx1.Reach) := by
  have h1 : (ctx.RemoveFailed.InitNewSrc (toInt64 ctx.pSize)).Reach := by
    have ha := Reach_step h (Step.removeFailed ctx)
    have hb := Reach_step ha (Step.initNewSrc ctx.RemoveFailed)
    exact hb
  constructor
  · intro st ci ctx1 hg
    unfold GetChunk at hg
    simp only at hg
    split at hg
    · simp only [GetChunkResult.returned.injEq] at hg
      obtain ⟨-, -, rfl⟩ := hg
      exact h1
    · split at hg
      · cases hg
      · rename_i ctx2 hp
        have h2 := pumpFrom_Reach _ _ _ _ _ h1 hp
        split at hg
        · simp only [GetChunkResult.returned.injEq] at hg
          obtain ⟨-, -, rfl⟩ := hg
          exact h2
        · exact Reach_step h2 (Step.deliver ctx2 st ci ctx1 hg)
  · intro ctx1 hg
    unfold GetChunk at hg
    simp only at hg
    split at hg
    · cases hg
    · split at hg
      · cases hg
      · rename_i ctx2 hp
        have h2 := pumpFrom_Reach _ _ _ _ _ h1 hp
        split at hg
        · cases hg
        · unfold deliver at hg
          split at hg
          · simp only [GetChunkResult.blocked.injEq] at hg
            subst hg
            exact h2
          · cases hg
          · split at hg
            · split at hg <;> cases hg
            · cases hg

end XCpCtx

/-- C4 (amended): disjointness before duplicates.  In every context state
reachable from a successful `Initialize` of a new context through steps of
`GetChunk` that have a defined result (`RemoveFailed`, `InitNewSrc`,
`ReadChunk`, completions, `AllocBlock` with `Steal`, delivery) along which the
file size, the block size and the cursor stay below 2^53 and every byte counter
below 2^52, and in which `pBewareDuplicates` is still false, the outstanding
sets of any two distinct sources, live or in the failed queue, share no byte
offset.

A step is a member call taken as a whole (`XCpCtx.Step`).  An `AllocBlock`
whose `Steal` has no defined amount is not a step: that is the steal from a
block larger than a chunk while both byte counters are 0, where the code
converts the product of `0.0 / 0.0` to `uint64_t` (the case of claim C22);
nothing is stated about the states the code goes through after it.
`RemoveFailed` is a step in the reading in which its loop visits every node
once; this covers every call that erases nothing, the only calls with a
defined result by the rules of `std::list`. -/
theorem disjoint_before_duplicates (ctx : XCpCtx)
    (h : XCpCtx.ReachWithin XCpCtx.Small ctx) (hb : ctx.pBewareDuplicates = false) :
    ctx.Disjoint :=
  XCpCtx.Inv_Disjoint ctx (XCpCtx.ReachWithin_Inv h) hb

/-- Witness of C4 (amended): two sources with the blocks `[0, 1024)` and
`[1024, 2048)`, after the first one has issued its two chunks. -/
theorem disjoint_before_duplicates_witness :
    XCpCtx.ReachWithin XCpCtx.Small twoBlocksReading ∧
    twoBlocksReading.pBewareDuplicates = false ∧ twoBlocksReading.Disjoint := by
  have h0 : XCpCtx.ReachWithin XCpCtx.Small twoBlocks :=
    XCpCtx.ReachWithin.init [urlOk, urlOk] 1024 2 512 2 2048 twoBlocks (by decide)
      (by unfold XCpCtx.Small XCpCtx.all; decide)
  have h1 : XCpCtx.ReachWithin XCpCtx.Small twoBlocksReading :=
    XCpCtx.ReachWithin.step h0
      (XCpCtx.Step.readChunk twoBlocks 0 [] _ ⟨stOK, suContinue⟩ _ [] rfl (by decide))
      (by unfold XCpCtx.Small XCpCtx.all; decide)
  exact ⟨h1, rfl, disjoint_before_duplicates twoBlocksReading h1 rfl⟩

/-- Counterexample to C9 as stated: one replica, a file of 100 bytes and
chunks of 256 bytes.  `Initialize` succeeds, raises the block size to the chunk
size and hands out the block `[0, 256)`: the cursor 256 and the end of the
block are beyond the size 100. -/
theorem Initialize_beyond_size :
    (XCpCtx.new [urlOk] 1024 1 256 4).Initialize 100 = (XRootDStatus.ok, shortFile) ∧
    shortFile.pSize < shortFile.pOffset ∧
    shortFile.pSources.map (fun s => (s.pCurrentOffset, s.pBlkEnd)) = [(0, 256)] ∧
    shortFile.pSize = 100 := by
  decide

/-- C9 (amended): range bounds.  In every context state reachable from a
successful `Initialize` of a new context through steps of `GetChunk` that
have a defined result, along which the file size, the block size and the
cursor stay below 2^53 and every byte counter below 2^52: every source, live
or failed, satisfies cur <= end <= offset, and offset <= size + block_size for
the block size adjusted by `Initialize`.  Moreover `AllocBlock` called with
offset < size returns false, gives the source a block that starts at the
cursor with cur <= end <= size, and leaves offset <= size.

A step is a member call taken as a whole (`XCpCtx.Step`).  An `AllocBlock`
whose `Steal` has no defined amount is not a step: that is the steal from a
block larger than a chunk while both byte counters are 0, where the code
converts the product of `0.0 / 0.0` to `uint64_t` (the case of claim C22);
nothing is stated about the states the code goes through after it.
`RemoveFailed` is a step in the reading in which its loop visits every node
once; this covers every call that erases nothing, the only calls with a
defined result by the rules of `std::list`. -/
theorem range_bounds (ctx : XCpCtx) (h : XCpCtx.ReachWithin XCpCtx.Small ctx) :
    (∀ s ∈ ctx.all, s.pCurrentOffset ≤ s.pBlkEnd ∧ s.pBlkEnd ≤ ctx.pOffset) ∧
    ctx.pOffset ≤ ctx.pSize + ctx.pBlockSize ∧
    (∀ (i : Nat) (b : Bool) (ctx1 : XCpCtx), ctx.pOffset < ctx.pSize →
      ctx.AllocBlock i = some (b, ctx1) →
      b = false ∧ ctx1.pOffset ≤ ctx1.pSize ∧ ctx1.pSize = ctx.pSize ∧
      ∃ s, ctx1.pSources[i]? = some s ∧ s.pCurrentOffset = ctx.pOffset ∧
        s.pCurrentOffset ≤ s.pBlkEnd ∧ s.pBlkEnd ≤ ctx1.pSize ∧ s.pBlkEnd = ctx1.pOffset) := by
  have hinv := XCpCtx.ReachWithin_Inv h
  obtain ⟨hsz, hbs, hoff, -⟩ := XCpCtx.ReachWithin_holds h
  refine ⟨fun s hs => ⟨(hinv.1.1 s hs).2.1, (hinv.1.1 s hs).2.2.1⟩, hinv.1.2, ?_⟩
  intro i b ctx1 hlt ha
  unfold XCpCtx.AllocBlock at ha
  split at ha
  · simp at ha
  · rename_i src hi
    have hadd : add64 ctx.pOffset ctx.pBlockSize = ctx.pOffset + ctx.pBlockSize := by
      unfold add64 U64; unfold exactBelow at hsz hbs hoff; omega
    have hsub : sub64 ctx.pSize ctx.pOffset = ctx.pSize - ctx.pOffset := by
      unfold sub64 U64; unfold exactBelow at hsz hbs hoff; omega
    simp only [hlt, if_true, hadd, hsub, Option.some.injEq, Prod.mk.injEq] at ha
    generalize hblk : (if ctx.pSize < ctx.pOffset + ctx.pBlockSize
      then ctx.pSize - ctx.pOffset else ctx.pBlockSize) = block at ha
    have hble : ctx.pOffset + block ≤ ctx.pSize := by
      rw [← hblk]; split <;> omega
    have hadd2 : add64 ctx.pOffset block = ctx.pOffset + block := by
      unfold add64 U64; unfold exactBelow at hsz hbs hoff; omega
    obtain ⟨rfl, rfl⟩ := ha
    have hilt : i < ctx.pSources.length := by
      rw [List.getElem?_eq_some] at hi
      exact hi.1
    refine ⟨rfl, by simp only [hadd2]; exact hble, rfl, src.SetBlock ctx.pOffset block, ?_, rfl,
      ?_, ?_, ?_⟩
    · simp [List.getElem?_set_self, hilt]
    · simp only [XCpSrc.SetBlock, hadd2]; omega
    · simp only [XCpSrc.SetBlock, hadd2]; exact hble
    · simp only [XCpSrc.SetBlock, hadd2]

/-- Witness of C9 (amended): two sources with the blocks `[0, 1024)` and
`[1024, 2048)` of a file of 2048 bytes. -/
theorem range_bounds_witness :
    XCpCtx.ReachWithin XCpCtx.Small twoBlocks ∧
    (∀ s ∈ twoBlocks.all, s.pCurrentOffset ≤ s.pBlkEnd ∧ s.pBlkEnd ≤ 2048) ∧
    twoBlocks.pOffset ≤ twoBlocks.pSize + twoBlocks.pBlockSize := by
  have h0 : XCpCtx.ReachWithin XCpCtx.Small twoBlocks :=
    XCpCtx.ReachWithin.init [urlOk, urlOk] 1024 2 512 2 2048 twoBlocks (by decide)
      (by unfold XCpCtx.Small XCpCtx.all; decide)
  exact ⟨h0, (range_bounds twoBlocks h0).1, (range_bounds twoBlocks h0).2.1⟩

/-! ## `AllocBlock`: a fresh block -/

set_option maxRecDepth 100000 in
/-- Counterexample to C11 as stated: a file of 2^64 - 1 bytes on replicas read
two at a time.  After `Initialize` the cursor is 2^64 - 2, below the size, and
the block size is 2^63 - 1.  The sum `pOffset + block` wraps around, so
`AllocBlock` does not clip the block: the source gets the cursor 2^64 - 2 and
the end 2^63 - 3 instead of the block `[2^64 - 2, 2^64 - 1)`, and the cursor
of the context becomes 2^63 - 3. -/
theorem AllocBlock_wrapped_block :
    (XCpCtx.new [urlHuge, urlHuge, urlHuge] 18446744073709551615 2 512 1).Initialize (-1) =
      (XRootDStatus.ok, huge1) ∧
    huge1.pOffset < huge1.pSize ∧
    huge1.pOffset + min huge1.pBlockSize (huge1.pSize - huge1.pOffset) = 18446744073709551615 ∧
    (huge1.AllocBlock 0).map (fun r => (r.1, r.2.pOffset,
      r.2.pSources.map (fun s => (s.pCurrentOffset, s.pBlkEnd)))) =
      some (false, 9223372036854775805,
        [(18446744073709551614, 9223372036854775805),
         (9223372036854775807, 18446744073709551614)]) := by
  decide

/-- C11 (amended): `AllocBlock`, fresh block.  For every context whose size is
a `uint64_t`, with offset < size and offset + block_size < 2^64, and every live
source `src` (at position `i`): `AllocBlock( src )` returns false, gives `src`
exactly the block `[offset, offset + min(block_size, size - offset))` with the
status `Continue`, advances the cursor by that length, so that the new cursor
is at most the size, and changes nothing else: the failed queue, the other
sources, `pBewareDuplicates`, and the ongoing map, the stolen map and the byte
counter of `src` are as before. -/
theorem AllocBlock_fresh_block (ctx : XCpCtx) (i : Nat) (src : XCpSrc)
    (hi : ctx.pSources[i]? = some src) (hlt : ctx.pOffset < ctx.pSize)
    (hsize : ctx.pSize < U64) (hsum : ctx.pOffset + ctx.pBlockSize < U64) :
    ctx.AllocBlock i = some (false,
      { ctx with
        pSources := ctx.pSources.set i
          { src with pCurrentOffset := ctx.pOffset,
                     pBlkEnd := ctx.pOffset + min ctx.pBlockSize (ctx.pSize - ctx.pOffset),
                     pStatus := ⟨stOK, suContinue⟩ },
        pOffset := ctx.pOffset + min ctx.pBlockSize (ctx.pSize - ctx.pOffset) }) ∧
    ctx.pOffset + min ctx.pBlockSize (ctx.pSize - ctx.pOffset) ≤ ctx.pSize ∧
    (∀ j, j ≠ i → (ctx.pSources.set i
          { src with pCurrentOffset := ctx.pOffset,
                     pBlkEnd := ctx.pOffset + min ctx.pBlockSize (ctx.pSize - ctx.pOffset),
                     pStatus := ⟨stOK, suContinue⟩ })[j]? = ctx.pSources[j]?) := by
  have hadd : add64 ctx.pOffset ctx.pBlockSize = ctx.pOffset + ctx.pBlockSize := by
    unfold add64; exact Nat.mod_eq_of_lt hsum
  have hsub : sub64 ctx.pSize ctx.pOffset = ctx.pSize - ctx.pOffset := by
    unfold sub64 U64; unfold U64 at hsize; omega
  have hblk : (if ctx.pSize < ctx.pOffset + ctx.pBlockSize then ctx.pSize - ctx.pOffset
      else ctx.pBlockSize) = min ctx.pBlockSize (ctx.pSize - ctx.pOffset) := by
    split <;> omega
  have hle : ctx.pOffset + min ctx.pBlockSize (ctx.pSize - ctx.pOffset) ≤ ctx.pSize := by omega
  have hadd2 : add64 ctx.pOffset (min ctx.pBlockSize (ctx.pSize - ctx.pOffset)) =
      ctx.pOffset + min ctx.pBlockSize (ctx.pSize - ctx.pOffset) := by
    unfold add64; exact Nat.mod_eq_of_lt (by omega)
  refine ⟨?_, hle, ?_⟩
  · unfold XCpCtx.AllocBlock
    simp only [hi, hlt, if_true, hadd, hsub, hblk, hadd2, XCpSrc.SetBlock]
  · intro j hj
    exact List.getElem?_set_ne (Ne.symm hj)

/-- Witness of C11 (amended): a file of 4096 bytes, blocks of 1024 bytes and
the cursor at 2048; the second source gets the block `[2048, 3072)`. -/
theorem AllocBlock_fresh_block_witness :
    ({ twoBlocks with pSize := 4096 } : XCpCtx).AllocBlock 1 = some (false,
      { twoBlocks with
        pSize := 4096,
        pSources := ({ twoBlocks with pSize := 4096 } : XCpCtx).pSources.set 1
          { pStatus := ⟨stOK, suContinue⟩, pUrl := urlOk, isOpen := true, pSize := 2048,
            pCurrentOffset := 2048, pBlkEnd := 2048 + min 1024 (4096 - 2048), pChunkSize := 512,
            pParallel := 2, pDataTransfered := 0, pOngoing := [], pStolen := [] },
        pOffset := 2048 + min 1024 (4096 - 2048) }) :=
  (AllocBlock_fresh_block { twoBlocks with pSize := 4096 } 1 _ rfl (by decide) (by decide)
    (by decide)).1

/-! ## `AllocBlock`: take-over of a failed source -/

namespace XCpCtx

theorem ReportResult_failure (s : XCpSrc) (sink : Sink) (st : XRootDStatus)
    (c : Option ChunkInfo) (hst : st.IsOK = false) :
    s.ReportResult sink st c = some ({ s with pStatus := st }, sink.Put none) := by
  unfold XCpSrc.ReportResult
  simp [hst]

theorem ReportResult_discard (s : XCpSrc) (sink : Sink) (st : XRootDStatus)
    (c : Option ChunkInfo) (hst : st.IsOK = true) (herr : s.pStatus.IsOK = false) :
    s.ReportResult sink st c = some (s, sink.Put none) := by
  unfold XCpSrc.ReportResult
  simp [hst, herr]

theorem ReportResult_success (s : XCpSrc) (sink : Sink) (st : XRootDStatus)
    (c : ChunkInfo) (hst : st.IsOK = true) (hok : s.pStatus.IsOK = true) :
    s.ReportResult sink st (some c) =
      some ({ s with pOngoing := OffMap.erase s.pOngoing c.offset,
                     pDataTransfered := add64 s.pDataTransfered c.length },
            sink.Put (some c)) := by
  unfold XCpSrc.ReportResult
  simp [hst, hok]

end XCpCtx

theorem OffMap.find_erase (m : OffMap) (k k' : Nat) :
    OffMap.find (OffMap.erase m k) k' = if k = k' then none else OffMap.find m k' := by
  induction m with
  | nil => simp [OffMap.erase, OffMap.find]
  | cons e t ih =>
    obtain ⟨a, b⟩ := e
    unfold OffMap.erase at ih ⊢
    by_cases ha : a = k
    · subst ha
      simp only [List.filter_cons, ne_eq, not_true_eq_false, decide_False, Bool.false_eq_true,
        if_false]
      rw [ih]
      by_cases hk : a = k'
      · simp [hk]
      · simp [hk, OffMap.find]
    · simp only [List.filter_cons, ne_eq, ha, not_false_eq_true, decide_True, if_true,
        OffMap.find]
      rw [ih]
      by_cases hk : k = k'
      · subst hk
        simp [ha]
      · simp [hk]

/-- Counterexample to C15 as stated: the byte counter is a `uint64_t`.  A
source whose counter is 2^64 - 1 receives the chunk `(0, 10)`: the counter
becomes 9, it does not increase by 10. -/
theorem ReportResult_counter_wraps :
    fullCounter.pStatus.IsOK = true ∧ fullCounter.pDataTransfered = 18446744073709551615 ∧
    (fullCounter.ReportResult [] XRootDStatus.ok (some ⟨0, 10⟩)).map
      (fun r => r.1.pDataTransfered) = some 9 := by
  decide

/-- C15 (amended): `ReportResult` on success.  For every source whose status
is not an error and every successful completion carrying a chunk with offset
`o` and length `l` such that data_transferred + l < 2^64, `ReportResult`
removes the key `o` from the ongoing map and keeps the other keys, increases
data_transferred by exactly `l`, appends exactly that chunk to the sink, and
leaves cur, end, the stolen map, the status and all other fields unchanged.
(In general the counter becomes data_transferred + l modulo 2^64.) -/
theorem ReportResult_on_success (s : XCpSrc) (sink : Sink) (st : XRootDStatus) (c : ChunkInfo)
    (hok : s.pStatus.IsOK = true) (hst : st.IsOK = true)
    (hsum : s.pDataTransfered + c.length < U64) :
    s.ReportResult sink st (some c) =
      some ({ s with pOngoing := OffMap.erase s.pOngoing c.offset,
                     pDataTransfered := s.pDataTransfered + c.length },
            sink ++ [some c]) ∧
    OffMap.find (OffMap.erase s.pOngoing c.offset) c.offset = none ∧
    (∀ k, k ≠ c.offset →
      OffMap.find (OffMap.erase s.pOngoing c.offset) k = OffMap.find s.pOngoing k) := by
  refine ⟨?_, ?_, ?_⟩
  · rw [XCpCtx.ReportResult_success s sink st c hst hok]
    unfold add64 Sink.Put
    rw [Nat.mod_eq_of_lt hsum]
  · rw [OffMap.find_erase]
    simp
  · intro k hk
    rw [OffMap.find_erase]
    simp [Ne.symm hk]

/-- Witness of C15 (amended): the read of the only chunk `(0, 10)` of a source
completes. -/
theorem ReportResult_on_success_witness :
    oneChunkIssued.ReportResult [] XRootDStatus.ok (some ⟨0, 10⟩) =
      some ({ oneChunkIssued with pOngoing := OffMap.erase oneChunkIssued.pOngoing 0,
                                  pDataTransfered := 0 + 10 },
            [some ⟨0, 10⟩]) :=
  (ReportResult_on_success oneChunkIssued [] XRootDStatus.ok ⟨0, 10⟩ (by decide) (by decide)
    (by decide)).1

/-- C19: `ReportResult` on failure keeps the work.  For every source and every
failed completion (with or without a chunk), `ReportResult` stores the failure
as the status of the source, appends exactly one null pointer to the sink and
changes no other field: cur, end, the ongoing map, the stolen map and the byte
counter are as before.  A successful completion that arrives at a source whose
status is an error appends exactly one null pointer to the sink, the chunk is
not published, and the source is unchanged. -/
theorem ReportResult_on_failure (s : XCpSrc) (sink : Sink) (st : XRootDStatus)
    (c : Option ChunkInfo) :
    (st.IsOK = false →
      s.ReportResult sink st c = some ({ s with pStatus := st }, sink ++ [none])) ∧
    (st.IsOK = true → s.pStatus.IsOK = false →
      s.ReportResult sink st c = some (s, sink ++ [none])) :=
  ⟨fun hst => XCpCtx.ReportResult_failure s sink st c hst,
   fun hst herr => XCpCtx.ReportResult_discard s sink st c hst herr⟩

/-- Witness of C19: the read `(0, 10)` of a source fails, and a late success
for the same read is discarded. -/
theorem ReportResult_on_failure_witness :
    oneChunkIssued.ReportResult [] ⟨stError, errInternal⟩ none =
      some ({ oneChunkIssued with pStatus := ⟨stError, errInternal⟩ }, [none]) ∧
    ({ oneChunkIssued with pStatus := ⟨stError, errInternal⟩ } : XCpSrc).ReportResult [none]
      XRootDStatus.ok (some ⟨0, 10⟩) =
      some ({ oneChunkIssued with pStatus := ⟨stError, errInternal⟩ }, [none, none]) :=
  ⟨(ReportResult_on_failure oneChunkIssued [] ⟨stError, errInternal⟩ none).1 (by decide),
   (ReportResult_on_failure { oneChunkIssued with pStatus := ⟨stError, errInternal⟩ } [none]
      XRootDStatus.ok (some ⟨0, 10⟩)).2 (by decide) (by decide)⟩

/-! ## The error status of a source -/

/-- C16, evaluation of the code: one replica and a file of two blocks of 512
bytes, one read at a time.  In the first call of `GetChunk` the read `(0, 512)`
fails when it is issued, so that `ReadChunk` returns the error and the source
has an error status; the block is used up, `AllocBlock` calls `SetBlock`, and
`SetBlock` sets the status to `Continue`.  The call returns `Retry`; the source
is then live with an `OK` status and the dead entry `(0, 512)` in its ongoing
map, and the next call issues no read and waits on the empty sink. -/
theorem SetBlock_clears_error :
    (XCpCtx.new [urlOk] 512 1 512 1).Initialize 1024 = (XRootDStatus.ok, lostStart) ∧
    lostSrc.ReadChunk [] [⟨stError, errInternal⟩] =
      some (⟨stError, errInternal⟩, lostFailedSrc, [none]) ∧
    lostFailedSrc.GetStatus.IsOK = false ∧
    (lostFailedSrc.SetBlock 512 512).GetStatus = ⟨stOK, suContinue⟩ ∧
    lostStart.GetChunk [[⟨stError, errInternal⟩]] =
      GetChunkResult.returned ⟨stOK, suRetry⟩ none lostError ∧
    lostError.pSources.map (fun s => (s.GetStatus.IsOK, s.pOngoing)) = [(true, [(0, 512)])] ∧
    lostError.GetChunk [[]] = GetChunkResult.blocked lostError := by
  refine ⟨by decide, by decide, by decide, by decide, by decide, by decide, by decide⟩

/-! ## `RemoveFailed` -/

/-- C20, evaluation of the code: the live list holds one source, which is in
error and has the read `(0, 512)` outstanding.  `RemoveFailed` erases its node
and the loop then increments the erased iterator: by the rules of `std::list`
the call has no defined result.  Only in the reading in which the link of the
erased node is still intact the call does what the claim says: the live list
becomes empty and the source is appended to the failed queue. -/
theorem RemoveFailed_erased_iterator :
    takeoverRetry.pSources.map (fun s => (s.GetStatus.IsOK, s.HasWork)) = [(false, true)] ∧
    takeoverRetry.RemoveFailedStrict = none ∧
    takeoverStart.RemoveFailedStrict = some takeoverStart ∧
    takeoverRetry.RemoveFailed =
      { takeoverRetry with pSources := [], pFailed := takeoverRetry.pSources } := by
  refine ⟨by decide, by decide, by decide, by decide⟩

/-! ## `WeakestLink` -/

namespace Dbl

theorem cross_lt_trans {p1 q1 p2 q2 p3 q3 : Nat} (hq3 : 0 < q3)
    (h1 : p2 * q1 < p1 * q2) (h2 : p3 * q2 ≤ p2 * q3) : p3 * q1 < p1 * q3 := by
  by_contra hc
  have hc1 : p1 * q3 ≤ p3 * q1 := Nat.le_of_not_lt hc
  have a1 : p1 * q3 * q2 ≤ p3 * q1 * q2 := Nat.mul_le_mul_right q2 hc1
  have a2 : p3 * q2 * q1 ≤ p2 * q3 * q1 := Nat.mul_le_mul_right q1 h2
  have a3 : p2 * q1 * q3 < p1 * q2 * q3 := Nat.mul_lt_mul_of_pos_right h1 hq3
  have e1 : p3 * q1 * q2 = p3 * q2 * q1 := by ring
  have e2 : p2 * q3 * q1 = p2 * q1 * q3 := by ring
  have e3 : p1 * q2 * q3 = p1 * q3 * q2 := by ring
  omega

theorem div_wf (a b : Dbl) : (Dbl.div a b).wf := by
  cases a with
  | fin p1 q1 =>
    cases b with
    | fin p2 q2 =>
      unfold Dbl.div
      by_cases h2 : p2 = 0
      · by_cases h1 : p1 = 0
        · simp only [h2, h1, if_true]; trivial
        · simp only [h2, h1, if_true, if_false]; trivial
      · simp only [h2, if_false, Dbl.round]
        exact roundFrac_den_pos _ _
    | inf => exact Nat.one_pos
    | nan => trivial
  | inf => cases b <;> trivial
  | nan => cases b <;> trivial

theorem gt_asymm (a b : Dbl) (h : gt a b = true) : gt b a = false := by
  cases a <;> cases b <;> simp only [gt, decide_eq_true_eq, decide_eq_false_iff_not] at h ⊢
  · omega
  all_goals first | rfl | cases h

theorem gt_trans (a b c : Dbl) (h1 : gt a b = true) (h2 : gt b c = true) :
    gt a c = true := by
  cases a <;> cases b <;> cases c <;>
    simp only [gt, decide_eq_true_eq, Bool.false_eq_true] at h1 h2 ⊢
  · rename_i p1 q1 p2 q2 p3 q3
    by_cases hq3 : q3 = 0
    · subst hq3
      simp at h2
    · exact cross_lt_trans (Nat.pos_of_ne_zero hq3) h1 (Nat.le_of_lt h2)

theorem gt_of_gt_of_not_gt (s e t : Dbl) (ht : t.wf) (hn : t ≠ nan)
    (h1 : gt s e = true) (h2 : gt t e = false) : gt s t = true := by
  cases s <;> cases e <;> cases t <;>
    simp only [gt, wf, decide_eq_true_eq, decide_eq_false_iff_not, Bool.false_eq_true, ne_eq,
      not_true_eq_false, not_false_eq_true, Bool.true_eq_false] at h1 h2 ht hn ⊢
  · exact cross_lt_trans ht h1 (Nat.le_of_not_lt h2)

theorem not_gt_of_not_gt (s e t : Dbl) (ht : t.wf)
    (h1 : gt s e = true) (h2 : gt t e = false) : gt t s = false := by
  by_cases hn : t = nan
  · subst hn
    rfl
  · exact gt_asymm s t (gt_of_gt_of_not_gt s e t ht hn h1 h2)

end Dbl

namespace XCpCtx

theorem EfficiencyIndicator_wf (s : XCpSrc) : s.EfficiencyIndicator.wf := by
  unfold XCpSrc.EfficiencyIndicator
  exact Dbl.div_wf _ _

theorem weakestLoop_spec (e : Nat) : ∀ (l : List XCpSrc) (i : Nat) (eff : Dbl)
    (ret : Option Nat),
    (weakestLoop e l i eff ret = ret ∧
      ∀ k t, l[k]? = some t → i + k ≠ e → Dbl.gt t.EfficiencyIndicator eff = false) ∨
    (∃ k s, weakestLoop e l i eff ret = some (i + k) ∧ l[k]? = some s ∧ i + k ≠ e ∧
      Dbl.gt s.EfficiencyIndicator eff = true ∧
      (∀ m t, l[m]? = some t → i + m ≠ e →
        Dbl.gt t.EfficiencyIndicator s.EfficiencyIndicator = false) ∧
      (∀ m t, l[m]? = some t → i + m ≠ e → m < k →
        t.EfficiencyIndicator = Dbl.nan ∨
        Dbl.gt s.EfficiencyIndicator t.EfficiencyIndicator = true)) := by
  intro l
  induction l with
  | nil =>
    intro i eff ret
    left
    refine ⟨rfl, ?_⟩
    intro k t hk
    simp at hk
  | cons h rest ih =>
    intro i eff ret
    unfold weakestLoop
    by_cases hie : i = e
    · simp only [hie, if_true]
      rcases ih (e + 1) eff ret with ⟨hr, hall⟩ | ⟨k, s, hr, hk, hne, hgt, hmax, hfirst⟩
      · left
        refine ⟨hr, ?_⟩
        intro k t hk hne
        cases k with
        | zero => exact absurd rfl hne
        | succ k =>
          simp only [List.getElem?_cons_succ] at hk
          exact hall k t hk (by omega)
      · right
        refine ⟨k + 1, s, ?_, ?_, by omega, hgt, ?_, ?_⟩
        · rw [hr]; congr 1; omega
        · simpa using hk
        · intro m t hm hne2
          cases m with
          | zero => exact absurd rfl hne2
          | succ m =>
            simp only [List.getElem?_cons_succ] at hm
            exact hmax m t hm (by omega)
        · intro m t hm hne2 hlt
          cases m with
          | zero => exact absurd rfl hne2
          | succ m =>
            simp only [List.getElem?_cons_succ] at hm
            exact hfirst m t hm (by omega) (by omega)
    · simp only [hie, if_false]
      by_cases hg : Dbl.gt h.EfficiencyIndicator eff = true
      · simp only [hg, if_true]
        rcases ih (i + 1) h.EfficiencyIndicator (some i) with
          ⟨hr, hall⟩ | ⟨k, s, hr, hk, hne, hgt, hmax, hfirst⟩
        · right
          refine ⟨0, h, by rw [hr]; rfl, by simp, by omega, hg, ?_, ?_⟩
          · intro m t hm hne2
            cases m with
            | zero =>
              simp only [List.getElem?_cons_zero, Option.some.injEq] at hm
              subst hm
              cases hx : Dbl.gt h.EfficiencyIndicator h.EfficiencyIndicator with
              | false => rfl
              | true => rw [Dbl.gt_asymm _ _ hx] at hx; cases hx
            | succ m =>
              simp only [List.getElem?_cons_succ] at hm
              exact hall m t hm (by omega)
          · intro m t hm hne2 hlt
            omega
        · right
          refine ⟨k + 1, s, ?_, ?_, by omega, ?_, ?_, ?_⟩
          · rw [hr]; congr 1; omega
          · simpa using hk
          · exact Dbl.gt_trans _ _ _ hgt hg
          · intro m t hm hne2
            cases m with
            | zero =>
              simp only [List.getElem?_cons_zero, Option.some.injEq] at hm
              subst hm
              exact Dbl.gt_asymm _ _ hgt
            | succ m =>
              simp only [List.getElem?_cons_succ] at hm
              exact hmax m t hm (by omega)
          · intro m t hm hne2 hlt
            cases m with
            | zero =>
              simp only [List.getElem?_cons_zero, Option.some.injEq] at hm
              subst hm
              exact Or.inr hgt
            | succ m =>
              simp only [List.getElem?_cons_succ] at hm
              exact hfirst m t hm (by omega) (by omega)
      · have hg0 : Dbl.gt h.EfficiencyIndicator eff = false := by
          cases hx : Dbl.gt h.EfficiencyIndicator eff with
          | false => rfl
          | true => exact absurd hx hg
        simp only [hg0, Bool.false_eq_true, if_false]
        rcases ih (i + 1) eff ret with ⟨hr, hall⟩ | ⟨k, s, hr, hk, hne, hgt, hmax, hfirst⟩
        · left
          refine ⟨hr, ?_⟩
          intro k t hk hne
          cases k with
          | zero =>
            simp only [List.getElem?_cons_zero, Option.some.injEq] at hk
            subst hk
            exact hg0
          | succ k =>
            simp only [List.getElem?_cons_succ] at hk
            exact hall k t hk (by omega)
        · right
          refine ⟨k + 1, s, ?_, ?_, by omega, hgt, ?_, ?_⟩
          · rw [hr]; congr 1; omega
          · simpa using hk
          · intro m t hm hne2
            cases m with
            | zero =>
              simp only [List.getElem?_cons_zero, Option.some.injEq] at hm
              subst hm
              exact Dbl.not_gt_of_not_gt _ _ _ (EfficiencyIndicator_wf _) hgt hg0
            | succ m =>
              simp only [List.getElem?_cons_succ] at hm
              exact hmax m t hm (by omega)
          · intro m t hm hne2 hlt
            cases m with
            | zero =>
              simp only [List.getElem?_cons_zero, Option.some.injEq] at hm
              subst hm
              by_cases hn : h.EfficiencyIndicator = Dbl.nan
              · exact Or.inl hn
              · exact Or.inr (Dbl.gt_of_gt_of_not_gt _ _ _ (EfficiencyIndicator_wf _) hn hgt hg0)
            | succ m =>
              simp only [List.getElem?_cons_succ] at hm
              exact hfirst m t hm (by omega) (by omega)

end XCpCtx

set_option maxRecDepth 100000 in
/-- Counterexample to C13 as stated: three sources after `Initialize` of a
file of 100 bytes with chunks of 256 bytes.  The second and the third source
have no work and have transferred nothing, so that their indicator is
`0.0 / 0.0`, not a number.  With the first source excluded, no candidate has an
indicator `<= 0`, and yet `WeakestLink` returns the null pointer. -/
theorem WeakestLink_skips_nan :
    (XCpCtx.new [urlOk, urlOk, urlOk] 1024 3 256 4).Initialize 100 =
      (XRootDStatus.ok, threeShort) ∧
    threeShort.WeakestLink 0 = none ∧
    threeShort.pSources.map (fun s => (s.EfficiencyIndicator,
      Dbl.le s.EfficiencyIndicator Dbl.zero)) =
      [(Dbl.inf, false), (Dbl.nan, false), (Dbl.nan, false)] := by
  refine ⟨by decide, by decide, by decide⟩

/-- C13 (amended): `WeakestLink` is a first argmax among the indicators that
are numbers.  For every list of live sources and every excluded position,
`WeakestLink( exclude )` returns the null pointer exactly when no candidate
other than `exclude` has an indicator `> 0` (a comparison with an indicator
that is not a number is false, so that such a candidate is never selected).
Otherwise it returns a candidate other than `exclude` whose indicator is
`> 0`, such that no candidate has a greater indicator and every earlier
candidate has a smaller indicator or one that is not a number. -/
theorem WeakestLink_first_argmax (ctx : XCpCtx) (exclude : Nat) :
    (ctx.WeakestLink exclude = none ↔
      ∀ j s, ctx.pSources[j]? = some s → j ≠ exclude →
        Dbl.gt s.EfficiencyIndicator Dbl.zero = false) ∧
    (∀ j, ctx.WeakestLink exclude = some j →
      j ≠ exclude ∧ ∃ s, ctx.pSources[j]? = some s ∧
        Dbl.gt s.EfficiencyIndicator Dbl.zero = true ∧
        (∀ k t, ctx.pSources[k]? = some t → k ≠ exclude →
          Dbl.gt t.EfficiencyIndicator s.EfficiencyIndicator = false) ∧
        (∀ k t, ctx.pSources[k]? = some t → k ≠ exclude → k < j →
          t.EfficiencyIndicator = Dbl.nan ∨
          Dbl.gt s.EfficiencyIndicator t.EfficiencyIndicator = true)) := by
  unfold XCpCtx.WeakestLink
  rcases XCpCtx.weakestLoop_spec exclude ctx.pSources 0 Dbl.zero none with
    ⟨hr, hall⟩ | ⟨k, s, hr, hk, hne, hgt, hmax, hfirst⟩
  · refine ⟨⟨fun _ j s hj hne => hall j s hj (by omega), fun _ => hr⟩, ?_⟩
    intro j hj
    rw [hr] at hj
    cases hj
  · simp only [Nat.zero_add] at hr hne hmax hfirst
    refine ⟨⟨fun hnone => ?_, fun hall => ?_⟩, ?_⟩
    · rw [hr] at hnone
      cases hnone
    · rw [hall k s hk hne] at hgt
      cases hgt
    · intro j hj
      rw [hr] at hj
      simp only [Option.some.injEq] at hj
      subst hj
      exact ⟨hne, s, hk, hgt, hmax, hfirst⟩

set_option maxRecDepth 100000 in
/-- Witness of C13 (amended): in `threeShort` with the second source excluded,
the first source, whose indicator is infinite, is returned. -/
theorem WeakestLink_first_argmax_witness :
    threeShort.WeakestLink 1 = some 0 ∧
    ((0 : Nat) ≠ 1 ∧ ∃ s, threeShort.pSources[0]? = some s ∧
        Dbl.gt s.EfficiencyIndicator Dbl.zero = true ∧
        (∀ k t, threeShort.pSources[k]? = some t → k ≠ 1 →
          Dbl.gt t.EfficiencyIndicator s.EfficiencyIndicator = false) ∧
        (∀ k t, threeShort.pSources[k]? = some t → k ≠ 1 → k < 0 →
          t.EfficiencyIndicator = Dbl.nan ∨
          Dbl.gt s.EfficiencyIndicator t.EfficiencyIndicator = true)) :=
  ⟨by decide, (WeakestLink_first_argmax threeShort 1).2 0 (by decide)⟩

/-! ## Runs of `ReadChunk` -/

namespace XCpSrc

theorem readStolen_nil (f : Nat) (s : XCpSrc) (sink : Sink) (rd : List XRootDStatus)
    (hs : s.pStolen = []) : readStolen f s sink rd = some (s, sink, rd) := by
  unfold readStolen
  simp only [hs]

theorem readStolen_full (f : Nat) (s : XCpSrc) (sink : Sink) (rd : List XRootDStatus)
    (hc : ¬ s.pOngoing.length < s.pParallel) : readStolen f s sink rd = some (s, sink, rd) := by
  unfold readStolen
  split
  · rfl
  · simp only [hc, if_false]

theorem readStolen_iter (f : Nat) (s : XCpSrc) (sink : Sink) (rd : List XRootDStatus)
    (p : Nat × Nat) (rest : OffMap) (hs : s.pStolen = p :: rest)
    (hc : s.pOngoing.length < s.pParallel) :
    readStolen (f + 1) s sink rd =
      readStolen f
        { s with pOngoing := OffMap.insert s.pOngoing p.1 p.2, pStolen := rest,
                 pStatus := if (rd.headD XRootDStatus.ok).IsOK then s.pStatus
                   else rd.headD XRootDStatus.ok }
        (if (rd.headD XRootDStatus.ok).IsOK then sink else sink.Put none) rd.tail := by
  rw [readStolen]
  simp only [hs, hc, if_true]
  cases hok : (rd.headD XRootDStatus.ok).IsOK with
  | true => simp
  | false =>
    simp only [Bool.not_false, if_true, Bool.false_eq_true, if_false]
    rw [XCpCtx.ReportResult_failure _ _ _ _ hok]

theorem readBlock_done (f : Nat) (s : XCpSrc) (sink : Sink) (rd : List XRootDStatus)
    (hc : ¬ (s.pOngoing.length < s.pParallel ∧ s.pCurrentOffset < s.pBlkEnd)) :
    readBlock f s sink rd = some (s, sink, rd) := by
  unfold readBlock
  simp only [hc, if_false]

theorem readBlock_iter (f : Nat) (s : XCpSrc) (sink : Sink) (rd : List XRootDStatus)
    (hc : s.pOngoing.length < s.pParallel ∧ s.pCurrentOffset < s.pBlkEnd) :
    readBlock (f + 1) s sink rd =
      readBlock f
        { s with
          pOngoing := OffMap.assign s.pOngoing s.pCurrentOffset
            (if s.pBlkEnd < add64 s.pCurrentOffset s.pChunkSize
              then sub64 s.pBlkEnd s.pCurrentOffset else s.pChunkSize),
          pCurrentOffset := add64 s.pCurrentOffset
            (if s.pBlkEnd < add64 s.pCurrentOffset s.pChunkSize
              then sub64 s.pBlkEnd s.pCurrentOffset else s.pChunkSize),
          pStatus := if (rd.headD XRootDStatus.ok).IsOK then s.pStatus
            else rd.headD XRootDStatus.ok }
        (if (rd.headD XRootDStatus.ok).IsOK then sink else sink.Put none) rd.tail := by
  rw [readBlock]
  simp only [hc, and_self, if_true]
  cases hok : (rd.headD XRootDStatus.ok).IsOK with
  | true => simp
  | false =>
    simp only [Bool.not_false, if_true, Bool.false_eq_true, if_false]
    rw [XCpCtx.ReportResult_failure _ _ _ _ hok]

theorem headD_ok (rd : List XRootDStatus) (h : ∀ st ∈ rd, st.IsOK = true) :
    (rd.headD XRootDStatus.ok).IsOK = true := by
  cases rd with
  | nil => rfl
  | cons a t => exact h a (List.mem_cons_self _ _)

theorem tail_ok (rd : List XRootDStatus) (h : ∀ st ∈ rd, st.IsOK = true) :
    ∀ st ∈ rd.tail, st.IsOK = true := fun st hst => h st (List.mem_of_mem_tail hst)

theorem readStolen_ok (fuel : Nat) : ∀ (s : XCpSrc) (sink : Sink) (rd : List XRootDStatus)
    (r : XCpSrc × Sink × List XRootDStatus), (∀ st ∈ rd, st.IsOK = true) →
    readStolen fuel s sink rd = some r →
    r.1.pStatus = s.pStatus ∧ r.2.1 = sink ∧ (∀ st ∈ r.2.2, st.IsOK = true) := by
  induction fuel with
  | zero =>
    intro s sink rd r hrd h
    unfold readStolen at h
    split at h
    · simp only [Option.some.injEq] at h; subst h; exact ⟨rfl, rfl, hrd⟩
    · split at h
      · simp at h
      · simp only [Option.some.injEq] at h; subst h; exact ⟨rfl, rfl, hrd⟩
  | succ n ih =>
    intro s sink rd r hrd h
    cases hs : s.pStolen with
    | nil =>
      rw [readStolen_nil _ _ _ _ hs] at h
      simp only [Option.some.injEq] at h; subst h; exact ⟨rfl, rfl, hrd⟩
    | cons p rest =>
      by_cases hc : s.pOngoing.length < s.pParallel
      · rw [readStolen_iter n s sink rd p rest hs hc] at h
        simp only [headD_ok rd hrd, if_true] at h
        have := ih _ _ _ r (tail_ok rd hrd) h
        exact this
      · rw [readStolen_full _ _ _ _ hc] at h
        simp only [Option.some.injEq] at h; subst h; exact ⟨rfl, rfl, hrd⟩

theorem readBlock_ok (fuel : Nat) : ∀ (s : XCpSrc) (sink : Sink) (rd : List XRootDStatus)
    (r : XCpSrc × Sink × List XRootDStatus), (∀ st ∈ rd, st.IsOK = true) →
    readBlock fuel s sink rd = some r →
    r.1.pStatus = s.pStatus ∧ r.2.1 = sink := by
  induction fuel with
  | zero =>
    intro s sink rd r hrd h
    unfold readBlock at h
    split at h
    · simp at h
    · simp only [Option.some.injEq] at h; subst h; exact ⟨rfl, rfl⟩
  | succ n ih =>
    intro s sink rd r hrd h
    by_cases hc : s.pOngoing.length < s.pParallel ∧ s.pCurrentOffset < s.pBlkEnd
    · rw [readBlock_iter n s sink rd hc] at h
      simp only [headD_ok rd hrd, if_true] at h
      have := ih _ _ _ r (tail_ok rd hrd) h
      exact this
    · rw [readBlock_done _ _ _ _ hc] at h
      simp only [Option.some.injEq] at h; subst h; exact ⟨rfl, rfl⟩

theorem readStolen_total (fuel : Nat) : ∀ (s : XCpSrc) (sink : Sink) (rd : List XRootDStatus),
    s.pStolen.length ≤ fuel →
    ∃ r, readStolen fuel s sink rd = some r ∧ r.1.pChunkSize = s.pChunkSize ∧
      r.1.pBlkEnd = s.pBlkEnd ∧ r.1.pParallel = s.pParallel ∧
      r.1.pCurrentOffset = s.pCurrentOffset := by
  induction fuel with
  | zero =>
    intro s sink rd hlen
    have hs : s.pStolen = [] := List.length_eq_zero.mp (by omega)
    exact ⟨_, readStolen_nil _ _ _ _ hs, rfl, rfl, rfl, rfl⟩
  | succ n ih =>
    intro s sink rd hlen
    cases hs : s.pStolen with
    | nil => exact ⟨_, readStolen_nil _ _ _ _ hs, rfl, rfl, rfl, rfl⟩
    | cons p rest =>
      by_cases hc : s.pOngoing.length < s.pParallel
      · rw [readStolen_iter n s sink rd p rest hs hc]
        rw [hs] at hlen
        simp only [List.length_cons] at hlen
        obtain ⟨r, hr, h1, h2, h3, h4⟩ := ih
          { s with pOngoing := OffMap.insert s.pOngoing p.1 p.2, pStolen := rest,
                   pStatus := if (rd.headD XRootDStatus.ok).IsOK then s.pStatus
                     else rd.headD XRootDStatus.ok }
          (if (rd.headD XRootDStatus.ok).IsOK then sink else sink.Put none) rd.tail
          (by simp only; omega)
        exact ⟨r, hr, h1, h2, h3, h4⟩
      · exact ⟨_, readStolen_full _ _ _ _ hc, rfl, rfl, rfl, rfl⟩

end XCpSrc

namespace OffMap

theorem keysFrom_le_length (m : OffMap) (c : Nat) : keysFrom m c ≤ m.length :=
  List.length_filter_le _ _

theorem keysFrom_cons (e : Nat × Nat) (t : OffMap) (c : Nat) :
    keysFrom (e :: t) c = (if c ≤ e.1 then 1 else 0) + keysFrom t c := by
  unfold keysFrom
  by_cases h : c ≤ e.1
  · simp [List.filter_cons, h]; omega
  · simp [List.filter_cons, h]

theorem keysFrom_mono (m : OffMap) (c c' : Nat) (h : c ≤ c') : keysFrom m c' ≤ keysFrom m c := by
  induction m with
  | nil => simp [keysFrom]
  | cons e t ih =>
    rw [keysFrom_cons, keysFrom_cons]
    split <;> split <;> omega

theorem keysFrom_ordInsert (m : OffMap) (k v c : Nat) :
    keysFrom (ordInsert m k v) c = (if c ≤ k then 1 else 0) + keysFrom m c := by
  induction m with
  | nil =>
    simp only [ordInsert, keysFrom_cons]
  | cons e t ih =>
    simp only [ordInsert]
    split
    · simp only [keysFrom_cons]
    · simp only [keysFrom_cons, ih]; omega

theorem keysFrom_update (m : OffMap) (k v c : Nat) :
    keysFrom (update m k v) c = keysFrom m c := by
  induction m with
  | nil => simp [update]
  | cons e t ih =>
    simp only [update]
    split
    · simp only [keysFrom_cons]
    · simp only [keysFrom_cons, ih]

theorem keysFrom_lt (m : OffMap) (k c c' : Nat) (hk : (find m k).isSome = true)
    (h1 : c ≤ k) (h2 : k < c') : keysFrom m c' + 1 ≤ keysFrom m c := by
  induction m with
  | nil => simp [find] at hk
  | cons e t ih =>
    obtain ⟨a, b⟩ := e
    rw [keysFrom_cons, keysFrom_cons]
    simp only [find] at hk
    by_cases ha : a = k
    · subst ha
      have := keysFrom_mono t c c' (by omega)
      simp only [show c ≤ a from h1, if_true, show ¬ c' ≤ a from by omega, if_false]
      omega
    · simp only [ha, if_false] at hk
      have := ih hk
      split <;> split <;> omega

theorem length_assign (m : OffMap) (k v : Nat) :
    (assign m k v).length = if (find m k).isSome then m.length else m.length + 1 := by
  unfold assign
  split
  · exact length_update m k v
  · exact length_ordInsert m k v

theorem keysFrom_assign (m : OffMap) (k v c : Nat) (hc : k < c) :
    keysFrom (assign m k v) c = keysFrom m c := by
  unfold assign
  split
  · exact keysFrom_update m k v c
  · rw [keysFrom_ordInsert]
    simp only [show ¬ c ≤ k from by omega, if_false, Nat.zero_add]

end OffMap

namespace XCpSrc

theorem readBlock_total (fuel : Nat) : ∀ (s : XCpSrc) (sink : Sink) (rd : List XRootDStatus),
    1 ≤ s.pChunkSize → s.pBlkEnd + s.pChunkSize ≤ U64 →
    (s.pOngoing.length < s.pParallel →
      (s.pParallel - s.pOngoing.length) + OffMap.keysFrom s.pOngoing s.pCurrentOffset ≤ fuel) →
    ∃ r, readBlock fuel s sink rd = some r := by
  induction fuel with
  | zero =>
    intro s sink rd _ _ hmu
    refine ⟨_, readBlock_done _ _ _ _ ?_⟩
    intro hc
    have := hmu hc.1
    omega
  | succ n ih =>
    intro s sink rd hcs hnw hmu
    by_cases hc : s.pOngoing.length < s.pParallel ∧ s.pCurrentOffset < s.pBlkEnd
    · rw [readBlock_iter n s sink rd hc]
      have hadd : add64 s.pCurrentOffset s.pChunkSize = s.pCurrentOffset + s.pChunkSize := by
        unfold add64; exact Nat.mod_eq_of_lt (by omega)
      have hsub : sub64 s.pBlkEnd s.pCurrentOffset = s.pBlkEnd - s.pCurrentOffset := by
        unfold sub64 U64; unfold U64 at hnw; omega
      rw [hadd, hsub]
      generalize hcsz : (if s.pBlkEnd < s.pCurrentOffset + s.pChunkSize
        then s.pBlkEnd - s.pCurrentOffset else s.pChunkSize) = cs
      have hcs1 : 1 ≤ cs ∧ s.pCurrentOffset + cs ≤ s.pBlkEnd := by
        rw [← hcsz]; split <;> omega
      have hadd2 : add64 s.pCurrentOffset cs = s.pCurrentOffset + cs := by
        unfold add64; exact Nat.mod_eq_of_lt (by omega)
      rw [hadd2]
      apply ih
      · exact hcs
      · exact hnw
      · intro hlt
        simp only at hlt ⊢
        have hm := hmu hc.1
        rw [OffMap.keysFrom_assign _ _ _ _ (by omega)]
        rw [OffMap.length_assign] at hlt ⊢
        by_cases hk : (OffMap.find s.pOngoing s.pCurrentOffset).isSome = true
        · simp only [hk, if_true] at hlt ⊢
          have := OffMap.keysFrom_lt s.pOngoing s.pCurrentOffset s.pCurrentOffset
            (s.pCurrentOffset + cs) hk (Nat.le_refl _) (by omega)
          omega
        · simp only [hk, Bool.false_eq_true, if_false] at hlt ⊢
          have := OffMap.keysFrom_mono s.pOngoing s.pCurrentOffset (s.pCurrentOffset + cs)
            (by omega)
          omega
    · exact ⟨_, readBlock_done _ _ _ _ hc⟩

theorem ReadChunk_returns (s : XCpSrc) (sink : Sink) (rd : List XRootDStatus)
    (hcs : 1 ≤ s.pChunkSize) (hnw : s.pBlkEnd + s.pChunkSize ≤ U64) :
    ∃ r, s.ReadChunk sink rd = some r := by
  unfold ReadChunk
  split
  · exact ⟨_, rfl⟩
  · obtain ⟨r1, hr1, h1, h2, h3, _⟩ :=
      readStolen_total (checkOpen s).pStolen.length (checkOpen s) sink rd (Nat.le_refl _)
    have hco : (checkOpen s).pChunkSize = s.pChunkSize ∧ (checkOpen s).pBlkEnd = s.pBlkEnd := by
      unfold checkOpen; split <;> exact ⟨rfl, rfl⟩
    obtain ⟨s1, sink1, rd1⟩ := r1
    simp only at h1 h2 h3
    rw [hr1]
    simp only
    obtain ⟨r2, hr2⟩ := readBlock_total (blockFuel s1) s1 sink1 rd1
      (by rw [h1, hco.1]; exact hcs) (by rw [h1, h2, hco.1, hco.2]; exact hnw)
      (by
        intro hlt
        have := OffMap.keysFrom_le_length s1.pOngoing s1.pCurrentOffset
        unfold blockFuel
        have : s1.pParallel ≤ (s1.pParallel + 1) * (s1.pParallel + 1) := by nlinarith
        omega)
    obtain ⟨s2, sink2, rd2⟩ := r2
    rw [hr2]
    exact ⟨_, rfl⟩

end XCpSrc

namespace XCpSrc

theorem checkOpen_open (s : XCpSrc) (h : s.isOpen = true) : checkOpen s = s := by
  unfold checkOpen
  simp [h]

theorem ReadChunk_latched (s : XCpSrc) (sink : Sink) (rd : List XRootDStatus)
    (hopen : s.isOpen = true) (herr : s.pStatus.IsOK = false) :
    s.ReadChunk sink rd = some (s.pStatus, s, sink) := by
  unfold ReadChunk
  rw [checkOpen_open s hopen]
  simp [herr]

theorem ReadChunk_closed (s : XCpSrc) (sink : Sink) (rd : List XRootDStatus)
    (hopen : s.isOpen = false) :
    s.ReadChunk sink rd = some (⟨stError, errUninitialized⟩,
      { s with pStatus := ⟨stError, errUninitialized⟩ }, sink) := by
  unfold ReadChunk checkOpen
  simp only [hopen, Bool.not_false, if_true]
  have : (⟨stError, errUninitialized⟩ : XRootDStatus).IsOK = false := by decide
  simp [this]

theorem ReadChunk_recomputed (s : XCpSrc) (sink : Sink) (rd : List XRootDStatus)
    (r : XRootDStatus × XCpSrc × Sink) (hopen : s.isOpen = true)
    (hok : s.pStatus.IsOK = true) (hrd : ∀ st ∈ rd, st.IsOK = true)
    (h : s.ReadChunk sink rd = some r) :
    r.2.1.pStatus = r.1 ∧
    r.1 = (if r.2.1.pBlkEnd ≤ r.2.1.pCurrentOffset ∧ r.2.1.pOngoing = [] ∧ r.2.1.pStolen = []
      then ⟨stOK, suDone⟩ else ⟨stOK, suContinue⟩) := by
  unfold ReadChunk at h
  rw [checkOpen_open s hopen] at h
  simp only [hok, Bool.not_true, Bool.false_eq_true, if_false] at h
  split at h
  · simp at h
  · rename_i s1 sink1 rd1 h1
    have ho1 := readStolen_ok _ _ _ _ _ hrd h1
    split at h
    · simp at h
    · rename_i s2 sink2 rd2 h2
      have ho2 := readBlock_ok _ _ _ _ _ ho1.2.2 h2
      simp only [Option.some.injEq] at h
      subst h
      refine ⟨rfl, ?_⟩
      have hs2 : s2.pStatus.IsOK = true := by
        rw [ho2.1, ho1.1]; exact hok
      simp only
      unfold refreshStatus
      simp only [hs2, if_true]
      by_cases hc : s2.pCurrentOffset < s2.pBlkEnd ∨ s2.pOngoing ≠ [] ∨ s2.pStolen ≠ []
      · simp only [hc, if_true]
        have : ¬ (s2.pBlkEnd ≤ s2.pCurrentOffset ∧ s2.pOngoing = [] ∧ s2.pStolen = []) := by
          intro hh
          rcases hc with hc | hc | hc
          · omega
          · exact hc hh.2.1
          · exact hc hh.2.2
        simp only [this, if_false]
      · simp only [hc, if_false]
        have : s2.pBlkEnd ≤ s2.pCurrentOffset ∧ s2.pOngoing = [] ∧ s2.pStolen = [] := by
          refine ⟨?_, ?_, ?_⟩
          · by_contra hh; exact hc (Or.inl (by omega))
          · by_contra hh; exact hc (Or.inr (Or.inl hh))
          · by_contra hh; exact hc (Or.inr (Or.inr hh))
        simp only [this, and_self, if_true]

end XCpSrc

namespace XCpSrc

theorem find_update_self (m : OffMap) (k v : Nat) (h : (OffMap.find m k).isSome = true) :
    (OffMap.find (OffMap.update m k v) k).isSome = true := by
  induction m with
  | nil => simp [OffMap.find] at h
  | cons e t ih =>
    obtain ⟨a, b⟩ := e
    simp only [OffMap.find] at h
    simp only [OffMap.update]
    by_cases ha : a = k
    · simp [ha, OffMap.find]
    · simp only [ha, if_false] at h ⊢
      simp only [OffMap.find, ha, if_false]
      exact ih h

theorem find_assign_self (m : OffMap) (k v : Nat) :
    (OffMap.find (OffMap.assign m k v) k).isSome = true := by
  unfold OffMap.assign
  by_cases h : (OffMap.find m k).isSome = true
  · simp only [h, if_true]
    exact find_update_self m k v h
  · simp only [h, Bool.false_eq_true, if_false]
    have hn : OffMap.find m k = none := by
      cases hf : OffMap.find m k with
      | none => rfl
      | some x => rw [hf] at h; simp at h
    rw [OffMap.find_ordInsert m k v k hn]
    simp

theorem readBlock_stuck (fuel : Nat) : ∀ (s : XCpSrc) (sink : Sink) (rd : List XRootDStatus),
    s.pChunkSize = 0 → s.pCurrentOffset < s.pBlkEnd → s.pBlkEnd < U64 →
    s.pOngoing.length < s.pParallel →
    (OffMap.find s.pOngoing s.pCurrentOffset).isSome = true →
    readBlock fuel s sink rd = none := by
  induction fuel with
  | zero =>
    intro s sink rd _ hlt _ hfree _
    unfold readBlock
    simp only [hfree, hlt, and_self, if_true]
  | succ n ih =>
    intro s sink rd hcs hlt hend hfree hkey
    rw [readBlock_iter n s sink rd ⟨hfree, hlt⟩]
    have hadd : add64 s.pCurrentOffset s.pChunkSize = s.pCurrentOffset := by
      rw [hcs]; unfold add64; exact Nat.mod_eq_of_lt (by omega)
    rw [hadd]
    simp only [show ¬ s.pBlkEnd < s.pCurrentOffset from by omega, if_false]
    rw [hadd]
    apply ih
    · exact hcs
    · exact hlt
    · exact hend
    · simp only
      rw [OffMap.length_assign, hkey]
      simpa using hfree
    · exact find_assign_self _ _ _

theorem ReadChunk_zero_chunk (s : XCpSrc) (sink : Sink) (rd : List XRootDStatus)
    (hopen : s.isOpen = true) (hok : s.pStatus.IsOK = true) (hst : s.pStolen = [])
    (hcs : s.pChunkSize = 0) (hlt : s.pCurrentOffset < s.pBlkEnd) (hend : s.pBlkEnd < U64)
    (hfree : s.pOngoing.length + 1 < s.pParallel) : s.ReadChunk sink rd = none := by
  unfold ReadChunk
  rw [checkOpen_open s hopen]
  simp only [hok, Bool.not_true, Bool.false_eq_true, if_false]
  rw [readStolen_nil _ _ _ _ hst]
  simp only
  have hfuel : blockFuel s = (blockFuel s - 1) + 1 := by
    unfold blockFuel
    have : 1 ≤ (s.pParallel + 1) * (s.pParallel + 1) := Nat.mul_pos (by omega) (by omega)
    omega
  rw [hfuel, readBlock_iter _ s sink rd ⟨by omega, hlt⟩]
  have hadd : add64 s.pCurrentOffset s.pChunkSize = s.pCurrentOffset := by
    rw [hcs]; unfold add64; exact Nat.mod_eq_of_lt (by omega)
  rw [hadd]
  simp only [show ¬ s.pBlkEnd < s.pCurrentOffset from by omega, if_false]
  rw [hadd]
  have hstuck := readBlock_stuck (s.blockFuel - 1)
    { s with
      pOngoing := OffMap.assign s.pOngoing s.pCurrentOffset s.pChunkSize,
      pCurrentOffset := s.pCurrentOffset,
      pStatus := if (rd.headD XRootDStatus.ok).IsOK then s.pStatus
        else rd.headD XRootDStatus.ok }
    (if (rd.headD XRootDStatus.ok).IsOK then sink else sink.Put none) rd.tail hcs hlt hend
    (by
      simp only
      have := OffMap.length_assign_le s.pOngoing s.pCurrentOffset s.pChunkSize
      omega)
    (find_assign_self _ _ _)
  rw [hstuck]

end XCpSrc

/-- Counterexample to C14 as stated.  A source whose status is the error
`errInternal` and whose file is not open: `ReadChunk` returns the error
`errUninitialized`, not the status on entry, and stores it.  An open source
with an `OK` status, chunks of 0 bytes, two free slots and the block
`[0, 1024)`: the second loop of `ReadChunk` rewrites the entry at the cursor
without advancing, so that the call does not return. -/
theorem ReadChunk_closed_file :
    closedFailed.pStatus = ⟨stError, errInternal⟩ ∧
    closedFailed.ReadChunk [] [] = some (⟨stError, errUninitialized⟩,
      { closedFailed with pStatus := ⟨stError, errUninitialized⟩ }, []) ∧
    zeroChunk.isOpen = true ∧ zeroChunk.pStatus.IsOK = true ∧ zeroChunk.pChunkSize = 0 ∧
    zeroChunk.ReadChunk [] [] = none := by
  refine ⟨by decide, by decide, by decide, by decide, by decide, ?_⟩
  exact XCpSrc.ReadChunk_zero_chunk zeroChunk [] [] (by decide) (by decide) (by decide)
    (by decide) (by decide) (by decide) (by decide)

/-- C14 (amended): the status returned by `ReadChunk`.  For every source whose
file is open and whose status on entry is an error, `ReadChunk` returns that
status and changes no field of the source.  For every source whose file is not
open, `ReadChunk` sets the status to the error `errUninitialized`, returns it
and changes no other field.  For every source whose file is open and whose
status on entry is OK, if no read fails when it is issued: whenever `ReadChunk`
returns, it returns `Done` exactly when afterwards cur >= end and the ongoing
and the stolen map are both empty, `Continue` otherwise, and the returned value
is the status of the source; and `ReadChunk` does return when
chunk_size >= 1 and end + chunk_size <= 2^64. -/
theorem ReadChunk_returned_status (s : XCpSrc) (sink : Sink) (rd : List XRootDStatus) :
    (s.isOpen = true → s.pStatus.IsOK = false →
      s.ReadChunk sink rd = some (s.pStatus, s, sink)) ∧
    (s.isOpen = false →
      s.ReadChunk sink rd = some (⟨stError, errUninitialized⟩,
        { s with pStatus := ⟨stError, errUninitialized⟩ }, sink)) ∧
    (s.isOpen = true → s.pStatus.IsOK = true → (∀ st ∈ rd, st.IsOK = true) →
      (∀ r, s.ReadChunk sink rd = some r →
        r.2.1.pStatus = r.1 ∧
        r.1 = (if r.2.1.pBlkEnd ≤ r.2.1.pCurrentOffset ∧ r.2.1.pOngoing = [] ∧
            r.2.1.pStolen = []
          then ⟨stOK, suDone⟩ else ⟨stOK, suContinue⟩)) ∧
      (1 ≤ s.pChunkSize → s.pBlkEnd + s.pChunkSize ≤ U64 →
        ∃ r, s.ReadChunk sink rd = some r)) :=
  ⟨XCpSrc.ReadChunk_latched s sink rd, XCpSrc.ReadChunk_closed s sink rd,
   fun hopen hok hrd =>
    ⟨fun r h => XCpSrc.ReadChunk_recomputed s sink rd r hopen hok hrd h,
     fun hcs hnw => XCpSrc.ReadChunk_returns s sink rd hcs hnw⟩⟩

/-- Witness of C14 (amended): a failed source with an open file keeps its
status, and a source with the fresh block `[0, 1024)` returns. -/
theorem ReadChunk_returned_status_witness :
    failedVictim.ReadChunk [] [] = some (failedVictim.pStatus, failedVictim, []) ∧
    ∃ r, freshBlock.ReadChunk [] [] = some r :=
  ⟨(ReadChunk_returned_status failedVictim [] []).1 (by decide) (by decide),
   ((ReadChunk_returned_status freshBlock [] []).2.2 (by decide) (by decide)
      (by simp)).2 (by decide) (by decide)⟩

/-! ## The initial blocks -/

namespace XCpCtx

theorem assignBlocks_blocks (b size : Nat) : ∀ (l : List XCpSrc) (off : Nat),
    off + l.length * b < U64 →
    (assignBlocks b size l off).1.length = l.length ∧
    (∀ i s0, l[i]? = some s0 →
      (assignBlocks b size l off).1[i]? = some
        (if i = 0 ∨ off + i * b ≤ size then
          { s0 with pCurrentOffset := off + i * b, pBlkEnd := off + (i + 1) * b,
                    pStatus := ⟨stOK, suContinue⟩ }
        else s0)) ∧
    (l ≠ [] → ∃ m, 1 ≤ m ∧ m ≤ l.length ∧ (assignBlocks b size l off).2 = off + m * b ∧
      (∀ i, i < m → i = 0 ∨ off + i * b ≤ size) ∧ (m < l.length → size < off + m * b)) := by
  intro l
  induction l with
  | nil =>
    intro off _
    refine ⟨rfl, ?_, fun h => absurd rfl h⟩
    intro i s0 hi
    simp at hi
  | cons s rest ih =>
    intro off hnw
    simp only [List.length_cons] at hnw
    have hmul : (rest.length + 1) * b = rest.length * b + b := Nat.succ_mul _ _
    have hadd : add64 off b = off + b := by
      unfold add64; exact Nat.mod_eq_of_lt (by omega)
    have hhead : s.SetBlock off b =
        { s with pCurrentOffset := off + 0 * b, pBlkEnd := off + (0 + 1) * b,
                 pStatus := ⟨stOK, suContinue⟩ } := by
      simp only [XCpSrc.SetBlock, hadd, Nat.zero_mul, Nat.add_zero, Nat.zero_add, Nat.one_mul]
    unfold assignBlocks
    rw [hadd]
    by_cases hstop : size < off + b
    · simp only [hstop, if_true]
      refine ⟨rfl, ?_, fun _ => ⟨1, Nat.le_refl _, by simp, by simp, ?_, ?_⟩⟩
      · intro i s0 hi
        cases i with
        | zero =>
          simp only [List.getElem?_cons_zero, Option.some.injEq] at hi ⊢
          subst hi
          simp only [true_or, if_true]
          exact hhead
        | succ i =>
          simp only [List.getElem?_cons_succ] at hi ⊢
          rw [hi]
          have h1 : (i + 1) * b = i * b + b := Nat.succ_mul _ _
          have : ¬ (i + 1 = 0 ∨ off + (i + 1) * b ≤ size) := by
            intro hh
            rcases hh with hh | hh
            · omega
            · omega
          simp only [this, if_false]
      · intro i hi
        left; omega
      · intro _
        simpa using hstop
    · simp only [hstop, if_false]
      obtain ⟨ihlen, ihB, ihC⟩ := ih (off + b) (by omega)
      refine ⟨by simp only [List.length_cons, ihlen], ?_, fun _ => ?_⟩
      · intro i s0 hi
        cases i with
        | zero =>
          simp only [List.getElem?_cons_zero, Option.some.injEq] at hi ⊢
          subst hi
          simp only [true_or, if_true]
          exact hhead
        | succ i =>
          simp only [List.getElem?_cons_succ] at hi ⊢
          rw [ihB i s0 hi]
          have h1 : (i + 1) * b = i * b + b := Nat.succ_mul _ _
          have h2 : (i + 1 + 1) * b = i * b + b + b := by
            rw [Nat.succ_mul, Nat.succ_mul]
          have e1 : off + b + i * b = off + (i + 1) * b := by omega
          have e2 : off + b + (i + 1) * b = off + (i + 1 + 1) * b := by omega
          rw [e1, e2]
          by_cases hc : off + (i + 1) * b ≤ size
          · have hc1 : i = 0 ∨ off + (i + 1) * b ≤ size := Or.inr hc
            have hc2 : i + 1 = 0 ∨ off + (i + 1) * b ≤ size := Or.inr hc
            simp only [hc1, hc2, if_true]
          · have hi0 : i ≠ 0 := by
              intro h0
              subst h0
              simp only [Nat.zero_add, Nat.one_mul] at hc
              omega
            have hc1 : ¬ (i = 0 ∨ off + (i + 1) * b ≤ size) := by
              intro hh; rcases hh with hh | hh
              · exact hi0 hh
              · exact hc hh
            have hc2 : ¬ (i + 1 = 0 ∨ off + (i + 1) * b ≤ size) := by
              intro hh; rcases hh with hh | hh
              · omega
              · exact hc hh
            simp only [hc1, hc2, if_false]
      · cases hrest : rest with
        | nil =>
          refine ⟨1, Nat.le_refl _, by simp, ?_, ?_, ?_⟩
          · simp [assignBlocks]
          · intro i hi; left; omega
          · intro hlt; simp at hlt
        | cons r rs =>
          obtain ⟨m, hm1, hm2, hoff, hall, hnext⟩ := ihC (by rw [hrest]; simp)
          rw [hrest] at hm2 hoff hnext
          have h1 : (m + 1) * b = m * b + b := Nat.succ_mul _ _
          refine ⟨m + 1, by omega, by simp only [List.length_cons] at hm2 ⊢; omega, ?_, ?_, ?_⟩
          · rw [hoff]; omega
          · intro i hi
            cases i with
            | zero => left; rfl
            | succ i =>
              right
              have h3 : (i + 1) * b = i * b + b := Nat.succ_mul _ _
              rcases hall i (by omega) with h0 | h0
              · subst h0
                simp only [Nat.zero_add, Nat.one_mul]
                omega
              · omega
          · intro hlt
            simp only [List.length_cons] at hlt hnext
            have := hnext (by omega)
            omega

theorem initLoop_length (parallelSrc chunkSize parallelChunks : Nat) (fileSize : Int)
    (urls : List Url) : ∀ (srcs : List XCpSrc),
    (initLoop parallelSrc chunkSize parallelChunks fileSize urls srcs).2.length ≤
      max srcs.length parallelSrc := by
  induction urls with
  | nil => intro srcs; simp [initLoop]
  | cons url rest ih =>
    intro srcs
    unfold initLoop
    split
    · rename_i hlt
      split
      · refine le_trans (ih _) ?_
        simp only [List.length_append, List.length_singleton]
        omega
      · exact ih srcs
    · simp

theorem toUInt64_lt (i : Int) : toUInt64 i < U64 := by
  unfold toUInt64
  have h1 : (0 : Int) ≤ i % (U64 : Int) := Int.emod_nonneg _ (by unfold U64; decide)
  have h2 : i % (U64 : Int) < (U64 : Int) := Int.emod_lt_of_pos _ (by unfold U64; decide)
  omega

end XCpCtx

/-- C18: initial block assignment.  After a successful `Initialize` of a new
context with `n` initialised sources, size `s` and normalised block size `b`:
the source at position `i` (from 0) has the block `[i * b, (i + 1) * b)` and
the status `Continue` exactly when `i = 0` or `i * b <= s`, and is otherwise
as `InitNewSrc` left it, with the empty block `[0, 0)`; so the blocks handed
out are contiguous from 0 in the order of the sources and pairwise disjoint.
The cursor of the context is `m * b`, the end of the last block handed out,
where the first `m` sources (`1 <= m <= n`) are the ones with a block. -/
theorem Initialize_initial_blocks (urls : List Url)
    (blockSize parallelSrc chunkSize parallelChunks : Nat) (fileSize : Int) (ctx : XCpCtx)
    (h : (XCpCtx.new urls blockSize parallelSrc chunkSize parallelChunks).Initialize fileSize =
      (XRootDStatus.ok, ctx)) :
    ctx.pSources.length =
      ((XCpCtx.new urls blockSize parallelSrc chunkSize parallelChunks).InitNewSrc
        fileSize).pSources.length ∧
    (∀ i s0,
      ((XCpCtx.new urls blockSize parallelSrc chunkSize parallelChunks).InitNewSrc
        fileSize).pSources[i]? = some s0 →
      s0.pCurrentOffset = 0 ∧ s0.pBlkEnd = 0 ∧
      ctx.pSources[i]? = some
        (if i = 0 ∨ i * ctx.pBlockSize ≤ ctx.pSize then
          { s0 with pCurrentOffset := i * ctx.pBlockSize, pBlkEnd := (i + 1) * ctx.pBlockSize,
                    pStatus := ⟨stOK, suContinue⟩ }
        else s0)) ∧
    (∃ m, 1 ≤ m ∧ m ≤ ctx.pSources.length ∧ ctx.pOffset = m * ctx.pBlockSize ∧
      (∀ i, i < m → i = 0 ∨ i * ctx.pBlockSize ≤ ctx.pSize) ∧
      (m < ctx.pSources.length → ctx.pSize < m * ctx.pBlockSize)) := by
  cases hsrcs : ((XCpCtx.new urls blockSize parallelSrc chunkSize parallelChunks).InitNewSrc
      fileSize).pSources with
  | nil =>
    have := XCpCtx.Initialize_fail _ _ hsrcs
    rw [h] at this
    cases this
  | cons front rest =>
    rw [XCpCtx.Initialize_ok _ _ front rest hsrcs] at h
    simp only [Prod.mk.injEq, true_and] at h
    obtain ⟨extra, he, hf⟩ := XCpCtx.initLoop_append (parallelSrc % U8) (chunkSize % U32)
      (parallelChunks % U8) fileSize urls []
    have hsrc2 : (XCpCtx.initLoop (parallelSrc % U8) (chunkSize % U32) (parallelChunks % U8)
        fileSize urls []).2 = front :: rest := hsrcs
    have hfresh : ∀ s ∈ front :: rest, s.fresh := by
      intro s hs
      rw [← hsrc2, he] at hs
      simp only [List.nil_append] at hs
      exact (hf s hs).1
    have hn : (front :: rest).length < 256 := by
      have := XCpCtx.initLoop_length (parallelSrc % U8) (chunkSize % U32) (parallelChunks % U8)
        fileSize urls []
      rw [hsrc2] at this
      have h2 : parallelSrc % U8 < 256 := Nat.mod_lt _ (by unfold U8; decide)
      simp only [List.length_nil] at this
      omega
    have hsz : (if fileSize < 0 then toUInt64 front.GetSize else toUInt64 fileSize) < U64 := by
      split <;> exact XCpCtx.toUInt64_lt _
    have hchunk : ((XCpCtx.new urls blockSize parallelSrc chunkSize parallelChunks).InitNewSrc
        fileSize).pChunkSize < U32 := Nat.mod_lt _ (by unfold U32; decide)
    generalize (if fileSize < 0 then toUInt64 front.GetSize else toUInt64 fileSize) = size
      at h hsz
    generalize ((XCpCtx.new urls blockSize parallelSrc chunkSize parallelChunks).InitNewSrc
        fileSize).pChunkSize = C at h hchunk
    generalize ((XCpCtx.new urls blockSize parallelSrc chunkSize parallelChunks).InitNewSrc
        fileSize).pBlockSize = B at h
    have hb : (front :: rest).length * XCpCtx.adjustBlockSize B C size (front :: rest).length <
        U64 := by
      rw [XCpCtx.adjustBlockSize_eq]
      by_cases hC : C ≤ min B (size / (front :: rest).length)
      · rw [Nat.max_eq_right hC]
        have h1 : min B (size / (front :: rest).length) ≤ size / (front :: rest).length :=
          Nat.min_le_right _ _
        have h2 := Nat.mul_le_mul_left (front :: rest).length h1
        have h3 := Nat.mul_div_le size (front :: rest).length
        omega
      · rw [Nat.max_eq_left (by omega)]
        have : (front :: rest).length * C ≤ 256 * U32 :=
          Nat.mul_le_mul (Nat.le_of_lt hn) (Nat.le_of_lt hchunk)
        unfold U32 at this
        unfold U64
        omega
    generalize XCpCtx.adjustBlockSize B C size (front :: rest).length = b at h hb
    have hoff : ((XCpCtx.new urls blockSize parallelSrc chunkSize parallelChunks).InitNewSrc
        fileSize).pOffset = 0 := rfl
    rw [hoff] at h
    obtain ⟨hlen, hB, hC⟩ := XCpCtx.assignBlocks_blocks b size (front :: rest) 0
      (by simpa using hb)
    rw [← h]
    simp only [Nat.zero_add] at hB hC ⊢
    refine ⟨hlen, ?_, ?_⟩
    · intro i s0 hi
      have hmem : s0 ∈ front :: rest := XCpCtx.mem_of_getElem? hi
      have hfr := hfresh s0 hmem
      exact ⟨hfr.2.1, hfr.2.2.1, hB i s0 hi⟩
    · obtain ⟨m, h1, h2, h3, h4, h5⟩ := hC (by simp)
      exact ⟨m, h1, by rw [hlen]; exact h2, h3, h4, by rw [hlen]; exact h5⟩

/-- Witness of C18: two sources, a file of 2048 bytes, blocks of 1024 bytes and
chunks of 512 bytes give the blocks `[0, 1024)` and `[1024, 2048)`. -/
theorem Initialize_initial_blocks_witness :
    (XCpCtx.new [urlOk, urlOk] 1024 2 512 2).Initialize 2048 = (XRootDStatus.ok, twoBlocks) ∧
    twoBlocks.pSources.map (fun s => (s.pCurrentOffset, s.pBlkEnd, s.pStatus)) =
      [(0, 1024, ⟨stOK, suContinue⟩), (1024, 2048, ⟨stOK, suContinue⟩)] ∧
    (∃ m, 1 ≤ m ∧ m ≤ twoBlocks.pSources.length ∧
      twoBlocks.pOffset = m * twoBlocks.pBlockSize ∧
      (∀ i, i < m → i = 0 ∨ i * twoBlocks.pBlockSize ≤ twoBlocks.pSize) ∧
      (m < twoBlocks.pSources.length → twoBlocks.pSize < m * twoBlocks.pBlockSize)) :=
  ⟨by decide, by decide,
   (Initialize_initial_blocks [urlOk, urlOk] 1024 2 512 2 2048 twoBlocks (by decide)).2.2⟩

/-! ## Tiling of the block by `ReadChunk` -/

namespace XCpSrc

theorem find_assign_fresh (m : OffMap) (k v k' : Nat) (h : OffMap.find m k = none) :
    OffMap.find (OffMap.assign m k v) k' = if k = k' then some v else OffMap.find m k' := by
  unfold OffMap.assign
  simp only [h, Option.isSome_none, Bool.false_eq_true, if_false]
  exact OffMap.find_ordInsert m k v k' h

theorem readBlock_tiles : ∀ (m fuel : Nat) (s : XCpSrc) (sink : Sink) (rd : List XRootDStatus),
    m ≤ fuel → 1 ≤ s.pChunkSize → s.pCurrentOffset ≤ s.pBlkEnd →
    s.pBlkEnd + s.pChunkSize ≤ U64 →
    (∀ key, s.pCurrentOffset ≤ key → key < s.pBlkEnd → OffMap.find s.pOngoing key = none) →
    m ≤ s.pParallel - s.pOngoing.length →
    (m = s.pParallel - s.pOngoing.length ∨ s.pBlkEnd ≤ s.pCurrentOffset + m * s.pChunkSize) →
    (∀ j, j < m → s.pCurrentOffset + j * s.pChunkSize < s.pBlkEnd) →
    ∃ s1 sink1 rd1, readBlock fuel s sink rd = some (s1, sink1, rd1) ∧
      s1.pOngoing.length = s.pOngoing.length + m ∧
      s1.pCurrentOffset = min (s.pCurrentOffset + m * s.pChunkSize) s.pBlkEnd ∧
      (∀ i, i < m → OffMap.find s1.pOngoing (s.pCurrentOffset + i * s.pChunkSize) =
        some (min s.pChunkSize (s.pBlkEnd - (s.pCurrentOffset + i * s.pChunkSize)))) ∧
      (∀ key, (∀ i, i < m → key ≠ s.pCurrentOffset + i * s.pChunkSize) →
        OffMap.find s1.pOngoing key = OffMap.find s.pOngoing key) ∧
      s1.pBlkEnd = s.pBlkEnd ∧ s1.pStolen = s.pStolen ∧ s1.pChunkSize = s.pChunkSize ∧
      s1.pParallel = s.pParallel ∧ s1.pDataTransfered = s.pDataTransfered := by
  intro m
  induction m with
  | zero =>
    intro fuel s sink rd _ _ hce _ _ _ hstop _
    refine ⟨s, sink, rd, readBlock_done _ _ _ _ ?_, by simp, ?_, ?_, ?_, rfl, rfl, rfl, rfl, rfl⟩
    · intro hc
      rcases hstop with h | h
      · omega
      · simp only [Nat.zero_mul, Nat.add_zero] at h
        omega
    · simp only [Nat.zero_mul, Nat.add_zero]
      omega
    · intro i hi
      omega
    · intro key _
      rfl
  | succ m ih =>
    intro fuel s sink rd hfuel hcs hce hnw hkeys hle hstop hall
    have h0 := hall 0 (by omega)
    simp only [Nat.zero_mul, Nat.add_zero] at h0
    have hc : s.pOngoing.length < s.pParallel ∧ s.pCurrentOffset < s.pBlkEnd := ⟨by omega, h0⟩
    obtain ⟨f, rfl⟩ : ∃ f, fuel = f + 1 := ⟨fuel - 1, by omega⟩
    rw [readBlock_iter f s sink rd hc]
    have hadd : add64 s.pCurrentOffset s.pChunkSize = s.pCurrentOffset + s.pChunkSize := by
      unfold add64; exact Nat.mod_eq_of_lt (by omega)
    have hsub : sub64 s.pBlkEnd s.pCurrentOffset = s.pBlkEnd - s.pCurrentOffset := by
      unfold sub64 U64; unfold U64 at hnw; omega
    rw [hadd, hsub]
    have hcsz : (if s.pBlkEnd < s.pCurrentOffset + s.pChunkSize
        then s.pBlkEnd - s.pCurrentOffset else s.pChunkSize) =
        min s.pChunkSize (s.pBlkEnd - s.pCurrentOffset) := by
      split <;> omega
    rw [hcsz]
    have hadd2 : add64 s.pCurrentOffset (min s.pChunkSize (s.pBlkEnd - s.pCurrentOffset)) =
        s.pCurrentOffset + min s.pChunkSize (s.pBlkEnd - s.pCurrentOffset) := by
      unfold add64; exact Nat.mod_eq_of_lt (by omega)
    rw [hadd2]
    have hfresh : OffMap.find s.pOngoing s.pCurrentOffset = none :=
      hkeys _ (Nat.le_refl _) h0
    have hm1 : (m + 1) * s.pChunkSize = m * s.pChunkSize + s.pChunkSize := Nat.succ_mul _ _
    -- when more chunks follow, the first chunk is a whole one
    have hwhole : 0 < m → min s.pChunkSize (s.pBlkEnd - s.pCurrentOffset) = s.pChunkSize := by
      intro hm
      have := hall 1 (by omega)
      simp only [Nat.one_mul] at this
      omega
    have hlen1 : (OffMap.assign s.pOngoing s.pCurrentOffset
        (min s.pChunkSize (s.pBlkEnd - s.pCurrentOffset))).length = s.pOngoing.length + 1 := by
      rw [OffMap.length_assign, hfresh]
      simp
    obtain ⟨s1, sink1, rd1, hr, hlen, hcur, hfind, hother, hend, hstl, hchk, hpar, hdt⟩ :=
      ih f
        { s with
          pOngoing := OffMap.assign s.pOngoing s.pCurrentOffset
            (min s.pChunkSize (s.pBlkEnd - s.pCurrentOffset)),
          pCurrentOffset := s.pCurrentOffset + min s.pChunkSize (s.pBlkEnd - s.pCurrentOffset),
          pStatus := if (rd.headD XRootDStatus.ok).IsOK then s.pStatus
            else rd.headD XRootDStatus.ok }
        (if (rd.headD XRootDStatus.ok).IsOK then sink else sink.Put none) rd.tail
        (by omega) hcs (by simp only; omega) hnw
        (by
          intro key hk1 hk2
          simp only at hk1 hk2 ⊢
          rw [find_assign_fresh _ _ _ _ hfresh]
          have : s.pCurrentOffset ≠ key := by omega
          simp only [this, if_false]
          exact hkeys key (by omega) hk2)
        (by simp only [hlen1]; omega)
        (by
          simp only [hlen1]
          rcases hstop with h | h
          · left; omega
          · right
            by_cases hm : 0 < m
            · rw [hwhole hm]; omega
            · omega)
        (by
          intro j hj
          simp only
          rw [hwhole (by omega)]
          have := hall (j + 1) (by omega)
          have hj1 : (j + 1) * s.pChunkSize = j * s.pChunkSize + s.pChunkSize := Nat.succ_mul _ _
          omega)
    simp only at hlen hcur hfind hother hend hstl hchk hpar hdt
    refine ⟨s1, sink1, rd1, hr, by rw [hlen, hlen1]; omega, ?_, ?_, ?_, hend, hstl, hchk, hpar,
      hdt⟩
    · rw [hcur]
      by_cases hm : 0 < m
      · rw [hwhole hm]; omega
      · have : m = 0 := by omega
        subst this
        simp only [Nat.zero_mul, Nat.add_zero, Nat.zero_add, Nat.one_mul]
        omega
    · intro i hi
      cases i with
      | zero =>
        simp only [Nat.zero_mul, Nat.add_zero]
        rw [hother]
        · rw [find_assign_fresh _ _ _ _ hfresh]
          simp
        · intro i' hi'
          rw [hwhole (by omega)]
          omega
      | succ i =>
        have hm : 0 < m := by omega
        have hi1 : (i + 1) * s.pChunkSize = i * s.pChunkSize + s.pChunkSize := Nat.succ_mul _ _
        have := hfind i (by omega)
        rw [hwhole hm] at this
        have e1 : s.pCurrentOffset + s.pChunkSize + i * s.pChunkSize =
            s.pCurrentOffset + (i + 1) * s.pChunkSize := by omega
        rw [e1] at this
        exact this
    · intro key hkey
      rw [hother]
      · rw [find_assign_fresh _ _ _ _ hfresh]
        have := hkey 0 (by omega)
        simp only [Nat.zero_mul, Nat.add_zero] at this
        simp only [Ne.symm this, if_false]
      · intro i hi
        rw [hwhole (by omega)]
        have := hkey (i + 1) (by omega)
        have hi1 : (i + 1) * s.pChunkSize = i * s.pChunkSize + s.pChunkSize := Nat.succ_mul _ _
        omega

end XCpSrc

/-- Counterexample to C17 as stated.  A source with the block `[0, 1024)`,
chunks of 256 bytes, two parallel reads and the key 0 already in its ongoing
map has one free slot, but `ReadChunk` issues two reads, `(0, 256)` and
`(256, 256)`, and leaves the cursor at 512: the first read rewrites the
existing entry and takes no slot.  A source with the block
`[2^64 - 2, 2^64 - 1)` and chunks of 512 bytes issues a read of 512 bytes, not
of 1 byte, and its cursor wraps around to 510. -/
theorem ReadChunk_reissues_key :
    staleKey.pParallel - staleKey.pOngoing.length = 1 ∧
    (staleKey.ReadChunk [] []).map (fun r => (r.2.1.pOngoing, r.2.1.pCurrentOffset)) =
      some ([(0, 256), (256, 256)], 512) ∧
    (topBlock.ReadChunk [] []).map (fun r => (r.2.1.pOngoing, r.2.1.pCurrentOffset)) =
      some ([(18446744073709551614, 512)], 510) := by
  refine ⟨by decide, by decide, by decide⟩

/-- C17 (amended): `ReadChunk` tiles the block into chunks.  The call is taken
as one atomic step: no read of the source completes (no `ReportResult` runs on
it) while the call runs.  (The loop of the code tests `pOngoing.size()`
without holding the lock, so a completion during the call can free a slot;
nothing is stated about such a call.)  For every source
with OK status, open file, empty stolen map, chunk_size >= 1 and block
`[c, e)` with `c <= e` and `e + chunk_size <= 2^64`, such that no key of the
ongoing map lies in `[c, e)`, and with `k = parallel - |ongoing|` free slots:
`ReadChunk` returns, whether the reads fail when issued or not, and has issued
reads for exactly the first `m = min(k, ceil((e - c) / chunk_size))` chunks of
the block.  The chunk `i < m` has the offset `c + i * chunk_size`, below `e`,
and the length `min(chunk_size, e - offset)` and is in the ongoing map under
its offset; the ongoing map has `m` more entries and is unchanged at all other
keys; cur ends at `min(c + m * chunk_size, e)`, the end of the last chunk
issued, with cur <= e; the end of the block and the stolen map are
unchanged. -/
theorem ReadChunk_tiles_block (s : XCpSrc) (sink : Sink) (rd : List XRootDStatus)
    (hok : s.pStatus.IsOK = true) (hopen : s.isOpen = true) (hst : s.pStolen = [])
    (hcs : 1 ≤ s.pChunkSize) (hce : s.pCurrentOffset ≤ s.pBlkEnd)
    (hnw : s.pBlkEnd + s.pChunkSize ≤ U64)
    (hkeys : ∀ key, s.pCurrentOffset ≤ key → key < s.pBlkEnd →
      OffMap.find s.pOngoing key = none) :
    ∃ st s1 sink1, s.ReadChunk sink rd = some (st, s1, sink1) ∧
      ∃ m, m = min (s.pParallel - s.pOngoing.length)
          ((s.pBlkEnd - s.pCurrentOffset + s.pChunkSize - 1) / s.pChunkSize) ∧
        s1.pOngoing.length = s.pOngoing.length + m ∧
        (∀ i, i < m → s.pCurrentOffset + i * s.pChunkSize < s.pBlkEnd ∧
          OffMap.find s1.pOngoing (s.pCurrentOffset + i * s.pChunkSize) =
            some (min s.pChunkSize (s.pBlkEnd - (s.pCurrentOffset + i * s.pChunkSize)))) ∧
        (∀ key, (∀ i, i < m → key ≠ s.pCurrentOffset + i * s.pChunkSize) →
          OffMap.find s1.pOngoing key = OffMap.find s.pOngoing key) ∧
        s1.pCurrentOffset = min (s.pCurrentOffset + m * s.pChunkSize) s.pBlkEnd ∧
        s1.pCurrentOffset ≤ s.pBlkEnd ∧ s1.pBlkEnd = s.pBlkEnd ∧ s1.pStolen = [] := by
  have hdm := Nat.div_add_mod (s.pBlkEnd - s.pCurrentOffset + s.pChunkSize - 1) s.pChunkSize
  have hmod := Nat.mod_lt (s.pBlkEnd - s.pCurrentOffset + s.pChunkSize - 1)
    (show 0 < s.pChunkSize by omega)
  generalize hq : (s.pBlkEnd - s.pCurrentOffset + s.pChunkSize - 1) / s.pChunkSize = q
    at hdm
  generalize (s.pBlkEnd - s.pCurrentOffset + s.pChunkSize - 1) % s.pChunkSize = r at hdm hmod
  rw [Nat.mul_comm] at hdm
  have hall : ∀ j, j < min (s.pParallel - s.pOngoing.length) q →
      s.pCurrentOffset + j * s.pChunkSize < s.pBlkEnd := by
    intro j hj
    have h1 : (j + 1) * s.pChunkSize ≤ q * s.pChunkSize :=
      Nat.mul_le_mul_right _ (by omega)
    have hj1 : (j + 1) * s.pChunkSize = j * s.pChunkSize + s.pChunkSize := Nat.succ_mul _ _
    omega
  have hstop : min (s.pParallel - s.pOngoing.length) q = s.pParallel - s.pOngoing.length ∨
      s.pBlkEnd ≤ s.pCurrentOffset + min (s.pParallel - s.pOngoing.length) q * s.pChunkSize := by
    by_cases hk : s.pParallel - s.pOngoing.length ≤ q
    · left; omega
    · right
      have : min (s.pParallel - s.pOngoing.length) q = q := by omega
      rw [this]
      omega
  have hfuel : min (s.pParallel - s.pOngoing.length) q ≤ XCpSrc.blockFuel s := by
    unfold XCpSrc.blockFuel
    have : s.pParallel ≤ (s.pParallel + 1) * (s.pParallel + 1) := by nlinarith
    omega
  obtain ⟨s2, sink2, rd2, hr, hlen, hcur, hfind, hother, hend, hstl, -, -, -⟩ :=
    XCpSrc.readBlock_tiles (min (s.pParallel - s.pOngoing.length) q) (XCpSrc.blockFuel s) s sink rd
      hfuel hcs hce hnw hkeys (Nat.min_le_left _ _) hstop hall
  have hf := XCpSrc.refreshStatus_fields s2
  refine ⟨(XCpSrc.refreshStatus s2).pStatus, XCpSrc.refreshStatus s2, sink2, ?_,
    min (s.pParallel - s.pOngoing.length) q, rfl, ?_, ?_, ?_, ?_, ?_, ?_, ?_⟩
  · unfold XCpSrc.ReadChunk
    rw [XCpSrc.checkOpen_open s hopen]
    simp only [hok, Bool.not_true, Bool.false_eq_true, if_false]
    rw [XCpSrc.readStolen_nil _ _ _ _ hst]
    simp only
    rw [hr]
  · rw [hf.1]; exact hlen
  · intro i hi
    rw [hf.1]
    exact ⟨hall i hi, hfind i hi⟩
  · intro key hkey
    rw [hf.1]
    exact hother key hkey
  · rw [hf.2.2.2.1]; exact hcur
  · rw [hf.2.2.2.1, hcur]; omega
  · rw [hf.2.2.2.2]; exact hend
  · rw [hf.2.2.1, hstl]; exact hst

/-- Witness of C17 (amended): the block `[0, 1024)`, chunks of 256 bytes and
four parallel reads give the ongoing entries 0, 256, 512 and 768, each of
length 256, and cur = 1024. -/
theorem ReadChunk_tiles_block_witness :
    (freshBlock.ReadChunk [] []).map (fun r => (r.2.1.pOngoing, r.2.1.pCurrentOffset)) =
      some ([(0, 256), (256, 256), (512, 256), (768, 256)], 1024) ∧
    ∃ st s1 sink1, freshBlock.ReadChunk [] [] = some (st, s1, sink1) ∧
      ∃ m, m = min (freshBlock.pParallel - freshBlock.pOngoing.length)
          ((freshBlock.pBlkEnd - freshBlock.pCurrentOffset + freshBlock.pChunkSize - 1) /
            freshBlock.pChunkSize) ∧
        s1.pOngoing.length = freshBlock.pOngoing.length + m ∧
        (∀ i, i < m → freshBlock.pCurrentOffset + i * freshBlock.pChunkSize <
            freshBlock.pBlkEnd ∧
          OffMap.find s1.pOngoing (freshBlock.pCurrentOffset + i * freshBlock.pChunkSize) =
            some (min freshBlock.pChunkSize
              (freshBlock.pBlkEnd - (freshBlock.pCurrentOffset + i * freshBlock.pChunkSize)))) ∧
        (∀ key, (∀ i, i < m → key ≠ freshBlock.pCurrentOffset + i * freshBlock.pChunkSize) →
          OffMap.find s1.pOngoing key = OffMap.find freshBlock.pOngoing key) ∧
        s1.pCurrentOffset =
          min (freshBlock.pCurrentOffset + m * freshBlock.pChunkSize) freshBlock.pBlkEnd ∧
        s1.pCurrentOffset ≤ freshBlock.pBlkEnd ∧ s1.pBlkEnd = freshBlock.pBlkEnd ∧
        s1.pStolen = [] :=
  ⟨by decide,
   ReadChunk_tiles_block freshBlock [] [] (by decide) (by decide) (by decide) (by decide)
     (by decide) (by decide) (fun _ _ _ => rfl)⟩

/-! ## The divisor of the fraction in `Steal` -/

set_option maxRecDepth 100000 in
/-- C22, evaluation of the code: two replicas, a file of 2048 bytes, blocks of
1024 bytes, chunks of 512 bytes and two parallel reads.  In the first call of
`GetChunk` the first source issues the two chunks of its block; it has no block
left, the cursor of the context is at the size and no source has failed, so
`AllocBlock` calls `Steal` on the weakest link, which is the second source
with its whole block `[1024, 2048)` left.  The remainder 1024 exceeds the chunk
size 512, no read has completed, and the divisor
`pDataTransfered + src->pDataTransfered` is 0: the fraction is `0.0 / 0.0`,
not a number, and its product with the remainder does not convert to
`uint64_t`, so that the amount to steal, `AllocBlock` and `GetChunk` have no
defined result. -/
theorem Steal_zero_divisor :
    (XCpCtx.new [urlOk, urlOk] 1024 2 512 2).Initialize 2048 = (XRootDStatus.ok, twoBlocks) ∧
    (twoBlocks.pSources[0]?.bind fun s => s.ReadChunk [] []).map (fun r => r.2.1) =
      twoBlocksReading.pSources[0]? ∧
    twoBlocksReading.pSources.map (fun s => (s.HasBlock, s.pDataTransfered)) =
      [(false, 0), (true, 0)] ∧
    twoBlocksReading.WeakestLink 0 = some 1 ∧
    twoBlocksReading.pSources.map (fun v =>
      (decide (512 < sub64 v.pBlkEnd v.pCurrentOffset), add64 0 v.pDataTransfered)) =
      [(false, 0), (true, 0)] ∧
    Dbl.div (Dbl.ofUInt64 0) (Dbl.ofUInt64 (add64 0 0)) = Dbl.nan ∧
    Dbl.mul Dbl.nan (Dbl.ofUInt64 1024) = Dbl.nan ∧ Dbl.toUInt64 Dbl.nan = none ∧
    twoBlocksReading.AllocBlock 0 = none ∧
    twoBlocks.GetChunk [[], []] = GetChunkResult.undefined := by
  refine ⟨by decide, by decide, by decide, by decide, by decide, by decide, by decide, by decide,
    by decide, by decide⟩

/-! ## The efficiency indicator -/

theorem rneDiv_mul_self (m K : Nat) (hK : 0 < K) : rneDiv (m * K) K = m := by
  unfold rneDiv
  have h1 : m * K % K = 0 := Nat.mul_mod_left m K
  have h2 : m * K / K = m := Nat.mul_div_cancel m hK
  simp only [h1, h2, Nat.mul_zero, hK, if_true]

theorem roundFrac_exact_scaled (n K : Nat) (hK : 0 < K) (h : n < exactBelow) :
    ∃ k, 0 < k ∧ roundFrac (n * K) K = (n * k, k) := by
  unfold roundFrac
  by_cases h0 : n * K = 0
  · have hn : n = 0 := by
      rcases Nat.mul_eq_zero.mp h0 with h1 | h1
      · exact h1
      · omega
    simp only [h0, if_true]
    exact ⟨1, by decide, by simp [hn]⟩
  · simp only [h0, if_false]
    have hb := binade_small (n * K) K (Nat.pos_of_ne_zero h0) hK
      (Nat.mul_lt_mul_of_pos_right h hK)
    simp only [hb, if_true]
    refine ⟨2 ^ (52 + (binade (n * K) K).2 - (binade (n * K) K).1), Nat.pow_pos (by decide), ?_⟩
    have e : n * K * 2 ^ (52 + (binade (n * K) K).2 - (binade (n * K) K).1) =
        n * 2 ^ (52 + (binade (n * K) K).2 - (binade (n * K) K).1) * K := by ring
    rw [e, rneDiv_mul_self _ _ hK]

namespace Dbl

theorem ofUInt64_exact (n : Nat) (h : n < exactBelow) :
    ∃ k, 0 < k ∧ ofUInt64 n = fin (n * k) k := by
  obtain ⟨k, hk, e⟩ := roundFrac_exact n h
  exact ⟨k, hk, by simp only [ofUInt64, round, e]⟩

theorem add_exact (a l k : Nat) (hk : 0 < k) (h : a + l < exactBelow) :
    ∃ k1, 0 < k1 ∧ add (fin (a * k) k) (ofUInt64 l) = fin ((a + l) * k1) k1 := by
  obtain ⟨k2, hk2, e2⟩ := ofUInt64_exact l (by omega)
  rw [e2]
  simp only [add, round]
  have e : a * k * k2 + l * k2 * k = (a + l) * (k * k2) := by ring
  rw [e]
  obtain ⟨k1, hk1, e1⟩ := roundFrac_exact_scaled (a + l) (k * k2) (Nat.mul_pos hk hk2) h
  exact ⟨k1, hk1, by rw [e1]⟩

theorem foldl_exact : ∀ (m : OffMap) (a k : Nat), 0 < k →
    a + (m.map (fun e => e.2)).sum < exactBelow →
    ∃ k1, 0 < k1 ∧
      m.foldl (fun acc e => add acc (ofUInt64 e.2)) (fin (a * k) k) =
        fin ((a + (m.map (fun e => e.2)).sum) * k1) k1 := by
  intro m
  induction m with
  | nil =>
    intro a k hk _
    exact ⟨k, hk, by simp⟩
  | cons e t ih =>
    intro a k hk h
    simp only [List.map_cons, List.sum_cons] at h
    obtain ⟨k1, hk1, e1⟩ := add_exact a e.2 k hk (by omega)
    simp only [List.foldl_cons, List.map_cons, List.sum_cons]
    rw [e1]
    obtain ⟨k2, hk2, e2⟩ := ih (a + e.2) k1 hk1 (by omega)
    exact ⟨k2, hk2, by rw [e2, Nat.add_assoc]⟩

end Dbl

theorem XCpSrc.EfficiencyIndicator_exact (s : XCpSrc) (hce : s.pCurrentOffset ≤ s.pBlkEnd)
    (hend : s.pBlkEnd < U64) (hsum : s.toDo < exactBelow) :
    ∃ k, 0 < k ∧ s.EfficiencyIndicator =
      Dbl.div (Dbl.fin (s.toDo * k) k) (Dbl.ofUInt64 s.pDataTransfered) := by
  unfold XCpSrc.toDo at hsum
  unfold XCpSrc.EfficiencyIndicator
  simp only
  have hsub : sub64 s.pBlkEnd s.pCurrentOffset = s.pBlkEnd - s.pCurrentOffset := by
    unfold sub64 U64; unfold U64 at hend; omega
  rw [hsub]
  have hz : Dbl.zero = Dbl.fin (0 * 1) 1 := rfl
  rw [hz]
  obtain ⟨k1, hk1, e1⟩ := Dbl.foldl_exact s.pOngoing 0 1 (by decide) (by omega)
  rw [e1]
  obtain ⟨k2, hk2, e2⟩ := Dbl.foldl_exact s.pStolen (0 + (s.pOngoing.map (fun e => e.2)).sum)
    k1 hk1 (by omega)
  rw [e2]
  obtain ⟨k3, hk3, e3⟩ := Dbl.add_exact
    (0 + (s.pOngoing.map (fun e => e.2)).sum + (s.pStolen.map (fun e => e.2)).sum)
    (s.pBlkEnd - s.pCurrentOffset) k2 hk2 (by omega)
  rw [e3]
  refine ⟨k3, hk3, ?_⟩
  unfold XCpSrc.toDo
  simp only [Nat.zero_add]

set_option maxRecDepth 100000 in
/-- Counterexample to C21 as stated.  An open source without work that has
transferred nothing has `to_do = 0` and `data_transferred = 0`: its indicator
is `0.0 / 0.0`, not a number, not positive infinity.  And a source that has
transferred one byte and has reads of 2^53, 1 and 1 bytes in its ongoing map
has `to_do = 2^53 + 2`, but the sum kept in a `double` is 2^53, so that the
indicator is smaller than `to_do / data_transferred`. -/
theorem EfficiencyIndicator_not_a_number :
    idleSrc.pCurrentOffset ≤ idleSrc.pBlkEnd ∧ idleSrc.pDataTransfered = 0 ∧
    idleSrc.toDo = 0 ∧ idleSrc.EfficiencyIndicator = Dbl.nan ∧
    bigSum.pCurrentOffset ≤ bigSum.pBlkEnd ∧ bigSum.pDataTransfered = 1 ∧
    bigSum.toDo = 9007199254740994 ∧
    Dbl.gt (Dbl.round bigSum.toDo bigSum.pDataTransfered) bigSum.EfficiencyIndicator = true := by
  refine ⟨by decide, by decide, by decide, by decide, by decide, by decide, by decide,
    by decide⟩

/-- C21 (amended): `EfficiencyIndicator`.  For every source with
cur <= end < 2^64 and `to_do` < 2^53, where `to_do` is the sum of the lengths
in the ongoing map plus the sum of the lengths in the stolen map plus
(end - cur): the sum the code keeps in a `double` is exactly `to_do`, and the
result is the double-precision quotient of `to_do` by `double(
data_transferred )`.  When 0 < data_transferred < 2^53 this is the double
nearest to `to_do / data_transferred`; when data_transferred == 0 it is
positive infinity if `to_do` > 0 and not a number (`0.0 / 0.0`) if
`to_do` == 0. -/
theorem EfficiencyIndicator_value (s : XCpSrc) (hce : s.pCurrentOffset ≤ s.pBlkEnd)
    (hend : s.pBlkEnd < U64) (hsum : s.toDo < exactBelow) :
    (∃ k, 0 < k ∧ s.EfficiencyIndicator =
      Dbl.div (Dbl.fin (s.toDo * k) k) (Dbl.ofUInt64 s.pDataTransfered)) ∧
    (0 < s.pDataTransfered → s.pDataTransfered < exactBelow →
      ∃ k, 0 < k ∧ s.EfficiencyIndicator = Dbl.round (s.toDo * k) (s.pDataTransfered * k)) ∧
    (s.pDataTransfered = 0 → 0 < s.toDo → s.EfficiencyIndicator = Dbl.inf) ∧
    (s.pDataTransfered = 0 → s.toDo = 0 → s.EfficiencyIndicator = Dbl.nan) := by
  obtain ⟨k, hk, e⟩ := XCpSrc.EfficiencyIndicator_exact s hce hend hsum
  have hzero : Dbl.ofUInt64 0 = Dbl.fin 0 1 := by
    simp [Dbl.ofUInt64, Dbl.round, roundFrac]
  refine ⟨⟨k, hk, e⟩, ?_, ?_, ?_⟩
  · intro hpos hlt
    obtain ⟨k2, hk2, e2⟩ := Dbl.ofUInt64_exact s.pDataTransfered hlt
    rw [e, e2]
    have hne : s.pDataTransfered * k2 ≠ 0 := Nat.mul_ne_zero (by omega) (by omega)
    simp only [Dbl.div, hne, if_false]
    refine ⟨k * k2, Nat.mul_pos hk hk2, ?_⟩
    have e3 : s.toDo * k * k2 = s.toDo * (k * k2) := by ring
    have e4 : k * (s.pDataTransfered * k2) = s.pDataTransfered * (k * k2) := by ring
    rw [e3, e4]
  · intro hd hpos
    rw [e, hd, hzero]
    have hne : s.toDo * k ≠ 0 := Nat.mul_ne_zero (by omega) (by omega)
    simp only [Dbl.div, hne, if_true, if_false]
  · intro hd ht
    rw [e, hd, hzero, ht]
    simp only [Dbl.div, Nat.zero_mul, if_true]

/-- Witness of C21 (amended): a source with the whole block `[0, 1024)` left
that has transferred nothing has an infinite indicator. -/
theorem EfficiencyIndicator_value_witness :
    freshBlock.toDo = 1024 ∧ freshBlock.pDataTransfered = 0 ∧
    freshBlock.EfficiencyIndicator = Dbl.inf :=
  ⟨by decide, by decide,
   (EfficiencyIndicator_value freshBlock (by decide) (by decide) (by decide)).2.2.1
     (by decide) (by decide)⟩

/-! ## Termination of `ReadChunk` -/

namespace XCpSrc

theorem readBlock_total_nowrap (fuel : Nat) : ∀ (s : XCpSrc) (sink : Sink)
    (rd : List XRootDStatus),
    1 ≤ s.pChunkSize → s.pBlkEnd < U64 →
    (s.pBlkEnd + s.pChunkSize ≤ U64 ∨ s.pCurrentOffset + fuel * s.pChunkSize < U64) →
    (s.pOngoing.length < s.pParallel →
      (s.pParallel - s.pOngoing.length) + OffMap.keysFrom s.pOngoing s.pCurrentOffset ≤ fuel) →
    ∃ r, readBlock fuel s sink rd = some r := by
  induction fuel with
  | zero =>
    intro s sink rd _ _ _ hmu
    refine ⟨_, readBlock_done _ _ _ _ ?_⟩
    intro hc
    have := hmu hc.1
    omega
  | succ n ih =>
    intro s sink rd hcs hend hnw hmu
    by_cases hc : s.pOngoing.length < s.pParallel ∧ s.pCurrentOffset < s.pBlkEnd
    · rw [readBlock_iter n s sink rd hc]
      have hn1 : (n + 1) * s.pChunkSize = n * s.pChunkSize + s.pChunkSize := Nat.succ_mul _ _
      have hlt : s.pCurrentOffset + s.pChunkSize < U64 := by
        rcases hnw with h | h
        · omega
        · omega
      have hadd : add64 s.pCurrentOffset s.pChunkSize = s.pCurrentOffset + s.pChunkSize := by
        unfold add64; exact Nat.mod_eq_of_lt hlt
      have hsub : sub64 s.pBlkEnd s.pCurrentOffset = s.pBlkEnd - s.pCurrentOffset := by
        unfold sub64 U64; unfold U64 at hend; omega
      rw [hadd, hsub]
      generalize hcsz : (if s.pBlkEnd < s.pCurrentOffset + s.pChunkSize
        then s.pBlkEnd - s.pCurrentOffset else s.pChunkSize) = cs
      have hcs1 : 1 ≤ cs ∧ s.pCurrentOffset + cs ≤ s.pBlkEnd ∧ cs ≤ s.pChunkSize := by
        rw [← hcsz]; split <;> omega
      have hadd2 : add64 s.pCurrentOffset cs = s.pCurrentOffset + cs := by
        unfold add64; exact Nat.mod_eq_of_lt (by omega)
      rw [hadd2]
      apply ih
      · exact hcs
      · exact hend
      · simp only
        rcases hnw with h | h
        · exact Or.inl h
        · right; omega
      · intro hlt2
        simp only at hlt2 ⊢
        have hm := hmu hc.1
        rw [OffMap.keysFrom_assign _ _ _ _ (by omega)]
        rw [OffMap.length_assign] at hlt2 ⊢
        by_cases hk : (OffMap.find s.pOngoing s.pCurrentOffset).isSome = true
        · simp only [hk, if_true] at hlt2 ⊢
          have := OffMap.keysFrom_lt s.pOngoing s.pCurrentOffset s.pCurrentOffset
            (s.pCurrentOffset + cs) hk (Nat.le_refl _) (by omega)
          omega
        · simp only [hk, Bool.false_eq_true, if_false] at hlt2 ⊢
          have := OffMap.keysFrom_mono s.pOngoing s.pCurrentOffset (s.pCurrentOffset + cs)
            (by omega)
          omega
    · exact ⟨_, readBlock_done _ _ _ _ hc⟩

theorem readBlock_total_any (fuel : Nat) : ∀ (s : XCpSrc) (sink : Sink)
    (rd : List XRootDStatus),
    1 ≤ s.pChunkSize → s.pChunkSize < U32 → s.pBlkEnd < U64 → fuel ≤ 65536 →
    (s.pOngoing.length < s.pParallel →
      (s.pParallel - s.pOngoing.length) + OffMap.keysFrom s.pOngoing s.pCurrentOffset +
        s.pParallel + 1 ≤ fuel) →
    ∃ r, readBlock fuel s sink rd = some r := by
  induction fuel with
  | zero =>
    intro s sink rd _ _ _ _ hmu
    refine ⟨_, readBlock_done _ _ _ _ ?_⟩
    intro hc
    have := hmu hc.1
    omega
  | succ n ih =>
    intro s sink rd hcs hcs2 hend hfuel hmu
    by_cases hc : s.pOngoing.length < s.pParallel ∧ s.pCurrentOffset < s.pBlkEnd
    · have hm := hmu hc.1
      by_cases hw : s.pCurrentOffset + s.pChunkSize < U64
      · rw [readBlock_iter n s sink rd hc]
        have hadd : add64 s.pCurrentOffset s.pChunkSize = s.pCurrentOffset + s.pChunkSize := by
          unfold add64; exact Nat.mod_eq_of_lt hw
        have hsub : sub64 s.pBlkEnd s.pCurrentOffset = s.pBlkEnd - s.pCurrentOffset := by
          unfold sub64 U64; unfold U64 at hend; omega
        rw [hadd, hsub]
        generalize hcsz : (if s.pBlkEnd < s.pCurrentOffset + s.pChunkSize
          then s.pBlkEnd - s.pCurrentOffset else s.pChunkSize) = cs
        have hcs1 : 1 ≤ cs ∧ s.pCurrentOffset + cs ≤ s.pBlkEnd ∧ cs ≤ s.pChunkSize := by
          rw [← hcsz]; split <;> omega
        have hadd2 : add64 s.pCurrentOffset cs = s.pCurrentOffset + cs := by
          unfold add64; exact Nat.mod_eq_of_lt (by omega)
        rw [hadd2]
        apply ih
        · exact hcs
        · exact hcs2
        · exact hend
        · omega
        · intro hlt2
          simp only at hlt2 ⊢
          rw [OffMap.keysFrom_assign _ _ _ _ (by omega)]
          rw [OffMap.length_assign] at hlt2 ⊢
          by_cases hk : (OffMap.find s.pOngoing s.pCurrentOffset).isSome = true
          · simp only [hk, if_true] at hlt2 ⊢
            have := OffMap.keysFrom_lt s.pOngoing s.pCurrentOffset s.pCurrentOffset
              (s.pCurrentOffset + cs) hk (Nat.le_refl _) (by omega)
            omega
          · simp only [hk, Bool.false_eq_true, if_false] at hlt2 ⊢
            have := OffMap.keysFrom_mono s.pOngoing s.pCurrentOffset (s.pCurrentOffset + cs)
              (by omega)
            omega
      · -- the cursor wraps around: the rest of the loop stays far below `2 ^ 64`
        rw [readBlock_iter n s sink rd hc]
        have hadd : add64 s.pCurrentOffset s.pChunkSize =
            s.pCurrentOffset + s.pChunkSize - U64 := by
          unfold add64
          have h2 : s.pCurrentOffset + s.pChunkSize < 2 * U64 := by unfold U32 at hcs2; unfold U64 at hend ⊢; omega
          rw [Nat.mod_eq_sub_mod (by omega), Nat.mod_eq_of_lt (by omega)]
        rw [hadd]
        have hnc : ¬ s.pBlkEnd < s.pCurrentOffset + s.pChunkSize - U64 := by
          unfold U32 at hcs2; unfold U64 at hw ⊢; omega
        simp only [hnc, if_false]
        rw [hadd]
        apply readBlock_total_nowrap
        · exact hcs
        · exact hend
        · right
          simp only
          have h1 : n * s.pChunkSize ≤ 65536 * U32 :=
            Nat.mul_le_mul (by omega) (Nat.le_of_lt hcs2)
          unfold U32 at hcs2 h1
          unfold U64 at hw hend ⊢
          omega
        · intro hlt2
          simp only at hlt2 ⊢
          have := OffMap.keysFrom_le_length
            (OffMap.assign s.pOngoing s.pCurrentOffset s.pChunkSize)
            (s.pCurrentOffset + s.pChunkSize - U64)
          omega
    · exact ⟨_, readBlock_done _ _ _ _ hc⟩

theorem ReadChunk_returns_any (s : XCpSrc) (sink : Sink) (rd : List XRootDStatus)
    (hcs : 1 ≤ s.pChunkSize) (hcs2 : s.pChunkSize < U32) (hp : s.pParallel < U8)
    (hend : s.pBlkEnd < U64) : ∃ r, s.ReadChunk sink rd = some r := by
  unfold ReadChunk
  split
  · exact ⟨_, rfl⟩
  · obtain ⟨r1, hr1, h1, h2, h3, _⟩ :=
      readStolen_total (checkOpen s).pStolen.length (checkOpen s) sink rd (Nat.le_refl _)
    have hco : (checkOpen s).pChunkSize = s.pChunkSize ∧ (checkOpen s).pBlkEnd = s.pBlkEnd ∧
        (checkOpen s).pParallel = s.pParallel := by
      unfold checkOpen; split <;> exact ⟨rfl, rfl, rfl⟩
    obtain ⟨s1, sink1, rd1⟩ := r1
    simp only at h1 h2 h3
    rw [hr1]
    simp only
    have hp1 : s1.pParallel < 256 := by rw [h3, hco.2.2]; exact hp
    obtain ⟨r2, hr2⟩ := readBlock_total_any (blockFuel s1) s1 sink1 rd1
      (by rw [h1, hco.1]; exact hcs) (by rw [h1, hco.1]; exact hcs2)
      (by rw [h2, hco.2.1]; exact hend)
      (by
        unfold blockFuel
        have : (s1.pParallel + 1) * (s1.pParallel + 1) ≤ 256 * 256 :=
          Nat.mul_le_mul (by omega) (by omega)
        omega)
      (by
        intro hlt
        have := OffMap.keysFrom_le_length s1.pOngoing s1.pCurrentOffset
        unfold blockFuel
        have : (s1.pParallel + 1) * (s1.pParallel + 1) =
            s1.pParallel * s1.pParallel + 2 * s1.pParallel + 1 := by ring
        have : 0 ≤ s1.pParallel * s1.pParallel := Nat.zero_le _
        omega)
    obtain ⟨s2, sink2, rd2⟩ := r2
    rw [hr2]
    exact ⟨_, rfl⟩

end XCpSrc

/-- Counterexample to C23 as stated: a source with chunks of 512 bytes, two
parallel reads and the block `[2^64 - 2, 2^64 - 1)`.  The first iteration of
the second loop of `ReadChunk` takes the cursor from 2^64 - 2 to 510, the
second to 1022: the cursor does not increase towards the end of the block. -/
theorem ReadChunk_cursor_wraps :
    1 ≤ topTwo.pChunkSize ∧ topTwo.pCurrentOffset = 18446744073709551614 ∧
    topTwo.pBlkEnd = 18446744073709551615 ∧
    (topTwo.ReadChunk [] []).map (fun r => (r.2.1.pOngoing, r.2.1.pCurrentOffset)) =
      some ([(510, 512), (18446744073709551614, 512)], 1022) := by
  refine ⟨by decide, by decide, by decide, by decide⟩

/-- C23 (amended): `ReadChunk` terminates.  For every source state with
1 <= chunk_size < 2^32, parallel < 2^8 and end < 2^64 (the ranges of the types
of these members), whatever the contents of the ongoing and the stolen map and
whether or not reads fail when they are issued, `ReadChunk` returns: both
loops terminate.  An iteration of the first loop removes one entry from the
stolen map.  An iteration of the second loop strictly increases cur towards
end (cur < cur' <= end) whenever cur + chunk_size < 2^64; otherwise the cursor
wraps around. -/
theorem ReadChunk_terminates (s : XCpSrc) (sink : Sink) (rd : List XRootDStatus)
    (hcs : 1 ≤ s.pChunkSize) (hcs2 : s.pChunkSize < U32) (hp : s.pParallel < U8)
    (hend : s.pBlkEnd < U64) :
    (∃ r, s.ReadChunk sink rd = some r) ∧
    (∀ (f : Nat) (p : Nat × Nat) (rest : OffMap), s.pStolen = p :: rest →
      s.pOngoing.length < s.pParallel →
      ∃ s1 sink1, XCpSrc.readStolen (f + 1) s sink rd = XCpSrc.readStolen f s1 sink1 rd.tail ∧
        s1.pStolen = rest ∧ s1.pStolen.length + 1 = s.pStolen.length) ∧
    (∀ (f : Nat), s.pOngoing.length < s.pParallel → s.pCurrentOffset < s.pBlkEnd →
      s.pCurrentOffset + s.pChunkSize < U64 →
      ∃ s1 sink1, XCpSrc.readBlock (f + 1) s sink rd = XCpSrc.readBlock f s1 sink1 rd.tail ∧
        s.pCurrentOffset < s1.pCurrentOffset ∧ s1.pCurrentOffset ≤ s.pBlkEnd ∧
        s1.pBlkEnd = s.pBlkEnd) := by
  refine ⟨XCpSrc.ReadChunk_returns_any s sink rd hcs hcs2 hp hend, ?_, ?_⟩
  · intro f p rest hs hc
    exact ⟨_, _, XCpSrc.readStolen_iter f s sink rd p rest hs hc, rfl, by rw [hs]; rfl⟩
  · intro f hc1 hc2 hw
    refine ⟨_, _, XCpSrc.readBlock_iter f s sink rd ⟨hc1, hc2⟩, ?_, ?_, rfl⟩
    · simp only
      have hadd : add64 s.pCurrentOffset s.pChunkSize = s.pCurrentOffset + s.pChunkSize := by
        unfold add64; exact Nat.mod_eq_of_lt hw
      have hsub : sub64 s.pBlkEnd s.pCurrentOffset = s.pBlkEnd - s.pCurrentOffset := by
        unfold sub64 U64; unfold U64 at hend; omega
      rw [hadd, hsub]
      unfold add64
      split
      · rw [Nat.mod_eq_of_lt (by omega)]; omega
      · rw [Nat.mod_eq_of_lt (by omega)]; omega
    · simp only
      have hadd : add64 s.pCurrentOffset s.pChunkSize = s.pCurrentOffset + s.pChunkSize := by
        unfold add64; exact Nat.mod_eq_of_lt hw
      have hsub : sub64 s.pBlkEnd s.pCurrentOffset = s.pBlkEnd - s.pCurrentOffset := by
        unfold sub64 U64; unfold U64 at hend; omega
      rw [hadd, hsub]
      unfold add64
      split
      · rw [Nat.mod_eq_of_lt (by omega)]; omega
      · rw [Nat.mod_eq_of_lt (by omega)]; omega

/-- Witness of C23 (amended): the source `topTwo`, whose cursor wraps around,
and a source with a stolen offset that is already a key of its ongoing map
both return. -/
theorem ReadChunk_terminates_witness :
    (∃ r, topTwo.ReadChunk [] [] = some r) ∧
    (∃ r, ({ staleKey with pStolen := [(0, 256)] } : XCpSrc).ReadChunk []
      [⟨stError, errInternal⟩] = some r) :=
  ⟨(ReadChunk_terminates topTwo [] [] (by decide) (by decide) (by decide) (by decide)).1,
   (ReadChunk_terminates { staleKey with pStolen := [(0, 256)] } [] [⟨stError, errInternal⟩]
      (by decide) (by decide) (by decide) (by decide)).1⟩

/-! ## A cursor that wraps around without any failure -/

namespace XCpSrc

theorem ReadChunk_single (s : XCpSrc) (sink : Sink) (hok : s.pStatus.IsOK = true)
    (hopen : s.isOpen = true) (hst : s.pStolen = []) (hon : s.pOngoing = [])
    (hp : s.pParallel = 1) (hcs : 1 ≤ s.pChunkSize)
    (hfit : s.pCurrentOffset + s.pChunkSize ≤ s.pBlkEnd) (hend : s.pBlkEnd < U64) :
    s.ReadChunk sink [] = some (⟨stOK, suContinue⟩,
      { s with pOngoing := [(s.pCurrentOffset, s.pChunkSize)],
               pCurrentOffset := s.pCurrentOffset + s.pChunkSize,
               pStatus := ⟨stOK, suContinue⟩ }, sink) := by
  have hco : checkOpen s = s := by
    unfold checkOpen
    simp [hopen]
  have hadd : add64 s.pCurrentOffset s.pChunkSize = s.pCurrentOffset + s.pChunkSize := by
    unfold add64
    exact Nat.mod_eq_of_lt (by omega)
  have hfuel : blockFuel s = 3 + 1 := by
    unfold blockFuel
    rw [hp]
  unfold ReadChunk
  rw [hco]
  simp only [hok, Bool.not_true, Bool.false_eq_true, if_false]
  rw [readStolen_nil _ _ _ _ hst]
  simp only
  rw [hfuel, readBlock_iter 3 s sink [] ⟨by rw [hon, hp]; decide, by omega⟩]
  simp only [hadd, Nat.not_lt.mpr hfit, if_false, List.headD_nil, XRootDStatus.ok,
    XRootDStatus.IsOK, List.tail_nil]
  rw [readBlock_done]
  · simp only [refreshStatus, hok, hon, OffMap.assign, OffMap.find, OffMap.ordInsert]
    simp [hok]
  · simp only [hon, OffMap.assign, OffMap.find, OffMap.ordInsert, hp]
    simp

end XCpSrc

theorem wrapRead_ReadChunk (k : Nat) (hk : k + 1 ≤ 18014398509481983) :
    (wrapSrc 1 (512 * k) 9223372036854775296 (512 * k) []).ReadChunk [] [] =
      some (⟨stOK, suContinue⟩,
        wrapSrc 1 (512 * (k + 1)) 9223372036854775296 (512 * k) [(512 * k, 512)], []) := by
  have h := XCpSrc.ReadChunk_single (wrapSrc 1 (512 * k) 9223372036854775296 (512 * k) []) []
    rfl rfl rfl rfl rfl (Nat.le_of_ble_eq_true rfl)
    (by show 512 * k + 512 ≤ 9223372036854775296; omega)
    (by show 9223372036854775296 < 18446744073709551616; omega)
  rw [h]
  have e : 512 * k + 512 = 512 * (k + 1) := by omega
  show some (_, wrapSrc 1 (512 * k + 512) 9223372036854775296 (512 * k) [(512 * k, 512)], _) = _
  rw [e]

namespace XCpCtx

theorem pumpSource_keep (ctx : XCpCtx) (i : Nat) (rd : List XRootDStatus) (src : XCpSrc)
    (st : XRootDStatus) (src1 : XCpSrc) (sink1 : Sink) (hi : ctx.pSources[i]? = some src)
    (hr : src.ReadChunk ctx.pSink rd = some (st, src1, sink1)) (hb : src1.HasBlock = true) :
    ctx.pumpSource i rd = some { ctx with pSources := ctx.pSources.set i src1, pSink := sink1 } := by
  unfold pumpSource
  rw [hi]
  simp only
  rw [hr]
  simp only [hb, Bool.not_true, Bool.false_eq_true, if_false]

theorem GetChunk_two_blocked (ctx c1 c2 : XCpCtx)
    (hp : ctx.RemoveFailed.InitNewSrc (toInt64 ctx.pSize) = ctx) (hl : ctx.pSources.length = 2)
    (h0 : ctx.pumpSource 0 [] = some c1) (h1 : c1.pumpSource 1 [] = some c2)
    (hd : c2.AcumulateDone ≠ c2.pSources.length) (hs : c2.pSink = []) :
    ctx.GetChunk [[], []] = GetChunkResult.blocked c2 := by
  unfold GetChunk
  simp only [hp]
  have hne : ctx.pSources.isEmpty = false := by
    cases hsrc : ctx.pSources with
    | nil => rw [hsrc] at hl; cases hl
    | cons a t => rfl
  have hpf : pumpFrom ctx.pSources.length 0 ctx [[], []] = some c2 := by
    rw [hl]
    unfold pumpFrom
    simp only [List.headD_cons, h0, List.tail_cons]
    unfold pumpFrom
    simp only [List.headD_cons, h1, List.tail_cons, Nat.zero_add]
    unfold pumpFrom
    rfl
  simp only [hne, Bool.false_eq_true, if_false, hpf, hd, false_and]
  unfold deliver
  rw [hs]

end XCpCtx

theorem wrapSlow_ReadChunk : wrapSlow.ReadChunk [] [] = some (⟨stOK, suContinue⟩, wrapSlow, []) := by
  decide

theorem wrapCtx_prune (o : Nat) (a b : XCpSrc) (sink : Sink) (ha : a.pStatus.IsOK = true)
    (hb : b.pStatus.IsOK = true) :
    (wrapCtx o a b sink).RemoveFailed.InitNewSrc (toInt64 (wrapCtx o a b sink).pSize) =
      wrapCtx o a b sink := by
  unfold XCpCtx.RemoveFailed XCpCtx.InitNewSrc
  simp [wrapCtx, XCpSrc.GetStatus, ha, hb, XCpCtx.initLoop]

theorem wrapRead_GetChunk (k : Nat) (hk : k + 1 < 18014398509481983) :
    (wrapRead k).GetChunk [[], []] =
      GetChunkResult.blocked (wrapCtx 18446744073709550592
        (wrapSrc 1 (512 * (k + 1)) 9223372036854775296 (512 * k) [(512 * k, 512)]) wrapSlow []) := by
  have hb : (wrapSrc 1 (512 * (k + 1)) 9223372036854775296 (512 * k) [(512 * k, 512)]).HasBlock
      = true := by
    unfold XCpSrc.HasBlock wrapSrc
    simp only [decide_eq_true_eq]
    omega
  refine XCpCtx.GetChunk_two_blocked (wrapRead k) _ _ (wrapCtx_prune _ _ _ _ rfl rfl) rfl
    (XCpCtx.pumpSource_keep (wrapRead k) 0 [] _ _ _ _ rfl (wrapRead_ReadChunk k (by omega)) hb)
    (XCpCtx.pumpSource_keep _ 1 [] _ _ _ _ rfl wrapSlow_ReadChunk rfl) ?_ rfl
  intro h
  have h2 : (0 : Nat) = 2 := h
  cases h2

namespace XCpCtx

theorem HandleResponse_success (s : XCpSrc) (sink : Sink) (c : ChunkInfo)
    (hok : s.pStatus.IsOK = true) :
    ChunkHandler.HandleResponse s sink XRootDStatus.ok (some c) =
      some ({ s with pOngoing := OffMap.erase s.pOngoing c.offset,
                     pDataTransfered := add64 s.pDataTransfered c.length },
            sink.Put (some c)) := by
  unfold ChunkHandler.HandleResponse
  have h1 : XRootDStatus.ok.IsOK = true := rfl
  simp only [Option.isNone_some, Bool.false_and, Bool.false_eq_true, if_false, h1, Bool.not_true]
  exact ReportResult_success s sink XRootDStatus.ok c rfl hok

theorem completeLive_success (ctx : XCpCtx) (i : Nat) (s : XCpSrc) (c : ChunkInfo)
    (hi : ctx.pSources[i]? = some s) (hok : s.pStatus.IsOK = true) :
    ctx.completeLive i XRootDStatus.ok (some c) =
      some { ctx with
        pSources := ctx.pSources.set i
          { s with pOngoing := OffMap.erase s.pOngoing c.offset,
                   pDataTransfered := add64 s.pDataTransfered c.length },
        pSink := ctx.pSink.Put (some c) } := by
  unfold completeLive
  rw [hi]
  simp only
  rw [HandleResponse_success s ctx.pSink c hok]

end XCpCtx

theorem wrapRead_complete (k : Nat) (hk : k + 1 < 18014398509481983) :
    (wrapCtx 18446744073709550592
        (wrapSrc 1 (512 * (k + 1)) 9223372036854775296 (512 * k) [(512 * k, 512)]) wrapSlow
        []).completeLive 0 XRootDStatus.ok (some ⟨512 * k, 512⟩) =
      some (wrapCtx 18446744073709550592
        (wrapSrc 1 (512 * (k + 1)) 9223372036854775296 (512 * (k + 1)) []) wrapSlow
        [some ⟨512 * k, 512⟩]) := by
  have hadd : add64 (512 * k) 512 = 512 * (k + 1) := by
    unfold add64 U64
    omega
  have her : OffMap.erase [(512 * k, 512)] (512 * k) = [] := by
    simp [OffMap.erase]
  rw [XCpCtx.completeLive_success (wrapCtx 18446744073709550592
      (wrapSrc 1 (512 * (k + 1)) 9223372036854775296 (512 * k) [(512 * k, 512)]) wrapSlow []) 0
    (wrapSrc 1 (512 * (k + 1)) 9223372036854775296 (512 * k) [(512 * k, 512)]) ⟨512 * k, 512⟩
    rfl rfl]
  show some (wrapCtx 18446744073709550592
    (wrapSrc 1 (512 * (k + 1)) 9223372036854775296 (add64 (512 * k) 512)
      (OffMap.erase [(512 * k, 512)] (512 * k))) wrapSlow [some ⟨512 * k, 512⟩]) = _
  rw [hadd, her]

theorem wrapRead_deliver (o : Nat) (a b : XCpSrc) (c : ChunkInfo) :
    (wrapCtx o a b [some c]).deliver =
      GetChunkResult.returned ⟨stOK, suContinue⟩ (some c) (wrapCtx o a b []) := rfl

set_option maxRecDepth 100000 in
theorem wrapRead_first :
    (XCpCtx.new [urlWrap, urlWrap] 18446744073709551615 2 512 1).Initialize (-1) =
      (XRootDStatus.ok, wrapCtx 18446744073709550592 (wrapSrc 1 0 9223372036854775296 0 [])
        (wrapSrc 1 9223372036854775296 18446744073709550592 0 []) []) ∧
    (wrapCtx 18446744073709550592 (wrapSrc 1 0 9223372036854775296 0 [])
        (wrapSrc 1 9223372036854775296 18446744073709550592 0 []) []).GetChunk [[], []] =
      GetChunkResult.blocked (wrapCtx 18446744073709550592
        (wrapSrc 1 512 9223372036854775296 0 [(0, 512)]) wrapSlow []) ∧
    (wrapCtx 18446744073709550592 (wrapSrc 1 512 9223372036854775296 0 [(0, 512)]) wrapSlow
        []).completeLive 0 XRootDStatus.ok (some ⟨0, 512⟩) =
      some (wrapCtx 18446744073709550592 (wrapSrc 1 512 9223372036854775296 512 []) wrapSlow
        [some ⟨0, 512⟩]) ∧
    (wrapCtx 18446744073709550592 (wrapSrc 1 512 9223372036854775296 512 []) wrapSlow
        [some ⟨0, 512⟩]).deliver =
      GetChunkResult.returned ⟨stOK, suContinue⟩ (some ⟨0, 512⟩) (wrapRead 1) := by
  refine ⟨by decide!, by decide!, by decide!, by decide!⟩

set_option maxRecDepth 100000 in
theorem wrapRead_last :
    (wrapRead 18014398509481982).GetChunk [[], []] =
      GetChunkResult.blocked (wrapCtx 9223372036854774272
        (wrapSrc 1 18446744073709550592 9223372036854774272 9223372036854774784
          [(9223372036854774784, 512)]) wrapSlow []) ∧
    (wrapCtx 9223372036854774272
        (wrapSrc 1 18446744073709550592 9223372036854774272 9223372036854774784
          [(9223372036854774784, 512)]) wrapSlow
        []).completeLive 0 XRootDStatus.ok (some ⟨9223372036854774784, 512⟩) =
      some (wrapCtx 9223372036854774272
        (wrapSrc 1 18446744073709550592 9223372036854774272 9223372036854775296 []) wrapSlow
        [some ⟨9223372036854774784, 512⟩]) ∧
    (wrapCtx 9223372036854774272
        (wrapSrc 1 18446744073709550592 9223372036854774272 9223372036854775296 []) wrapSlow
        [some ⟨9223372036854774784, 512⟩]).deliver =
      GetChunkResult.returned ⟨stOK, suContinue⟩ (some ⟨9223372036854774784, 512⟩)
        (wrapCtx 9223372036854774272
          (wrapSrc 1 18446744073709550592 9223372036854774272 9223372036854775296 []) wrapSlow
          []) ∧
    (wrapCtx 9223372036854774272
        (wrapSrc 1 18446744073709550592 9223372036854774272 9223372036854775296 []) wrapSlow
        []).GetChunk [[], []] =
      GetChunkResult.blocked (wrapCtx 18446744073709549568
        (wrapSrc 1 9223372036854774272 18446744073709549568 9223372036854775296 []) wrapSlow
        []) := by
  refine ⟨by decide!, by decide!, by decide!, by decide!⟩

theorem wrapRead_Reach (k : Nat) (h1 : 1 ≤ k) (h2 : k < 18014398509481983) :
    (wrapRead k).Reach := by
  induction k, h1 using Nat.le_induction with
  | base =>
    have h0 := XCpCtx.ReachWithin.init (P := fun _ => True) _ _ _ _ _ _ _ wrapRead_first.1 trivial
    have ha := (XCpCtx.GetChunk_Reach _ [[], []] h0).2 _ wrapRead_first.2.1
    have hb := XCpCtx.Reach_step ha (XCpCtx.Step.completeLive _ _ _ _ _ wrapRead_first.2.2.1)
    exact XCpCtx.Reach_step hb (XCpCtx.Step.deliver _ _ _ _ wrapRead_first.2.2.2)
  | succ k hk ih =>
    have h0 := ih (by omega)
    have ha := (XCpCtx.GetChunk_Reach _ [[], []] h0).2 _ (wrapRead_GetChunk k h2)
    have hb := XCpCtx.Reach_step ha (XCpCtx.Step.completeLive _ _ _ _ _ (wrapRead_complete k h2))
    exact XCpCtx.Reach_step hb (XCpCtx.Step.deliver _ _ _ _ (wrapRead_deliver _ _ _ _))

/-- Counterexample to C4 as stated: a file of `2^64 - 1023` bytes on two
replicas, blocks of `2^63 - 512` bytes, chunks of 512 bytes, one read at a
time; every read succeeds and no source ever fails.  The states are written
`wrapCtx offset a b sink` with `wrapSrc code cur end data ongoing` for the
sources; `wrapSlow` is the second source with its first read in flight and
`wrapRead k` the state in which the first source has read `k` chunks.  After
`Initialize` the blocks are `[0, 2^63 - 512)` and `[2^63 - 512, 2^64 - 1024)`
and the cursor `2^64 - 1024` is below the size.  The first read of the second
source stays in flight while the first source reads its block chunk by chunk,
one call of `GetChunk` per chunk.  With the last chunk the block is used up and
`AllocBlock` adds the block size to the cursor: the sum wraps around, the block
is not clipped, and the cursor becomes `2^63 - 1536`.  In the next call the
first source has no block and `AllocBlock` gives it
`[2^63 - 1536, 2^64 - 2048)`, while the second source still holds
`[2^63, 2^64 - 1024)`.  That state is reachable, `pBewareDuplicates` is false,
and the byte `2^63` is outstanding at both sources.  In every state of the
scenario `RemoveFailed` erases nothing and has a defined result, and no call
of `Steal` is made. -/
theorem wrapped_cursor_overlap :
    (XCpCtx.new [urlWrap, urlWrap] 18446744073709551615 2 512 1).Initialize (-1) =
      (XRootDStatus.ok, wrapCtx 18446744073709550592 (wrapSrc 1 0 9223372036854775296 0 [])
        (wrapSrc 1 9223372036854775296 18446744073709550592 0 []) []) ∧
    (wrapCtx 18446744073709550592 (wrapSrc 1 0 9223372036854775296 0 [])
        (wrapSrc 1 9223372036854775296 18446744073709550592 0 []) []).GetChunk [[], []] =
      GetChunkResult.blocked (wrapCtx 18446744073709550592
        (wrapSrc 1 512 9223372036854775296 0 [(0, 512)]) wrapSlow []) ∧
    (wrapCtx 18446744073709550592 (wrapSrc 1 512 9223372036854775296 0 [(0, 512)]) wrapSlow
        []).completeLive 0 XRootDStatus.ok (some ⟨0, 512⟩) =
      some (wrapCtx 18446744073709550592 (wrapSrc 1 512 9223372036854775296 512 []) wrapSlow
        [some ⟨0, 512⟩]) ∧
    (wrapCtx 18446744073709550592 (wrapSrc 1 512 9223372036854775296 512 []) wrapSlow
        [some ⟨0, 512⟩]).deliver =
      GetChunkResult.returned ⟨stOK, suContinue⟩ (some ⟨0, 512⟩) (wrapRead 1) ∧
    (∀ k : Nat, k + 1 < 18014398509481983 →
      (wrapRead k).GetChunk [[], []] =
        GetChunkResult.blocked (wrapCtx 18446744073709550592
          (wrapSrc 1 (512 * (k + 1)) 9223372036854775296 (512 * k) [(512 * k, 512)]) wrapSlow
          []) ∧
      (wrapCtx 18446744073709550592
          (wrapSrc 1 (512 * (k + 1)) 9223372036854775296 (512 * k) [(512 * k, 512)]) wrapSlow
          []).completeLive 0 XRootDStatus.ok (some ⟨512 * k, 512⟩) =
        some (wrapCtx 18446744073709550592
          (wrapSrc 1 (512 * (k + 1)) 9223372036854775296 (512 * (k + 1)) []) wrapSlow
          [some ⟨512 * k, 512⟩]) ∧
      (wrapCtx 18446744073709550592
          (wrapSrc 1 (512 * (k + 1)) 9223372036854775296 (512 * (k + 1)) []) wrapSlow
          [some ⟨512 * k, 512⟩]).deliver =
        GetChunkResult.returned ⟨stOK, suContinue⟩ (some ⟨512 * k, 512⟩) (wrapRead (k + 1))) ∧
    (wrapRead 18014398509481982).GetChunk [[], []] =
      GetChunkResult.blocked (wrapCtx 9223372036854774272
        (wrapSrc 1 18446744073709550592 9223372036854774272 9223372036854774784
          [(9223372036854774784, 512)]) wrapSlow []) ∧
    (wrapCtx 9223372036854774272
        (wrapSrc 1 18446744073709550592 9223372036854774272 9223372036854774784
          [(9223372036854774784, 512)]) wrapSlow
        []).completeLive 0 XRootDStatus.ok (some ⟨9223372036854774784, 512⟩) =
      some (wrapCtx 9223372036854774272
        (wrapSrc 1 18446744073709550592 9223372036854774272 9223372036854775296 []) wrapSlow
        [some ⟨9223372036854774784, 512⟩]) ∧
    (wrapCtx 9223372036854774272
        (wrapSrc 1 18446744073709550592 9223372036854774272 9223372036854775296 []) wrapSlow
        [some ⟨9223372036854774784, 512⟩]).deliver =
      GetChunkResult.returned ⟨stOK, suContinue⟩ (some ⟨9223372036854774784, 512⟩)
        (wrapCtx 9223372036854774272
          (wrapSrc 1 18446744073709550592 9223372036854774272 9223372036854775296 []) wrapSlow
          []) ∧
    (wrapCtx 9223372036854774272
        (wrapSrc 1 18446744073709550592 9223372036854774272 9223372036854775296 []) wrapSlow
        []).GetChunk [[], []] =
      GetChunkResult.blocked (wrapCtx 18446744073709549568
        (wrapSrc 1 9223372036854774272 18446744073709549568 9223372036854775296 []) wrapSlow
        []) ∧
    (wrapCtx 18446744073709549568
      (wrapSrc 1 9223372036854774272 18446744073709549568 9223372036854775296 []) wrapSlow
      []).Reach ∧
    (wrapCtx 18446744073709549568
      (wrapSrc 1 9223372036854774272 18446744073709549568 9223372036854775296 []) wrapSlow
      []).pBewareDuplicates = false ∧
    ¬ (wrapCtx 18446744073709549568
      (wrapSrc 1 9223372036854774272 18446744073709549568 9223372036854775296 []) wrapSlow
      []).Disjoint ∧
    (∀ (o c1 u1 e1 d1 c2 u2 e2 d2 : Nat) (o1 o2 : OffMap) (sink : Sink),
      (wrapCtx o (wrapSrc c1 u1 e1 d1 o1) (wrapSrc c2 u2 e2 d2 o2) sink).RemoveFailedStrict =
        some (wrapCtx o (wrapSrc c1 u1 e1 d1 o1) (wrapSrc c2 u2 e2 d2 o2) sink)) := by
  have r0 := wrapRead_Reach 18014398509481982 (by omega) (by omega)
  have r1 := (XCpCtx.GetChunk_Reach _ [[], []] r0).2 _ wrapRead_last.1
  have r2 := XCpCtx.Reach_step r1 (XCpCtx.Step.completeLive _ _ _ _ _ wrapRead_last.2.1)
  have r3 := XCpCtx.Reach_step r2 (XCpCtx.Step.deliver _ _ _ _ wrapRead_last.2.2.1)
  have r4 := (XCpCtx.GetChunk_Reach _ [[], []] r3).2 _ wrapRead_last.2.2.2
  refine ⟨wrapRead_first.1, wrapRead_first.2.1, wrapRead_first.2.2.1, wrapRead_first.2.2.2,
    fun k hk => ⟨wrapRead_GetChunk k hk, wrapRead_complete k hk, wrapRead_deliver _ _ _ _⟩,
    wrapRead_last.1, wrapRead_last.2.1, wrapRead_last.2.2.1, wrapRead_last.2.2.2, r4, rfl, ?_,
    fun _ _ _ _ _ _ _ _ _ _ _ _ => rfl⟩
  intro hd
  refine hd 0 1 (wrapSrc 1 9223372036854774272 18446744073709549568 9223372036854775296 [])
    wrapSlow rfl rfl (by decide) 9223372036854775808 ⟨?_, ?_⟩
  · exact Or.inl (by decide)
  · exact Or.inl (by decide)

end XrdCl
